import Mathlib

/-!
Verification of the chat-bot guardrail and routing logic (`app.py`).

Embedding conventions:

* Python/HF network calls are modelled by an oracle (`Nat → HFEvent`) giving the
  outcome of each attempt of `requests.post`; the surrounding retry logic is
  translated faithfully.
* Double-precision floats are modelled as exact rationals (the kernel-computable
  type `Q` below).  The code's
  arithmetic (`+ - * / **` on numeric literals) is exact apart from float
  rounding, which is abstracted away; a non-integral exponent, which in Python
  produces an irrational float (or a complex number), is modelled as a distinct
  failure `EvalErr.nonIntegralPow`.  No claim in this development depends on
  the rounded value of a non-integral result.
* `ast.parse(expr, mode="eval")` is modelled by a tokenizer and a
  recursive-descent parser implementing exactly the fragment of Python's
  expression grammar reachable from the guardrail's character set
  `0-9 + - * / ^ ( ) . whitespace`: precedence `**` (right) > unary `+ -` >
  `* / //` > binary `+ -` > `^` (BitXor), parenthesised groups, numeric
  literals with Python's leading-zero restriction, logical-newline and
  indentation handling of eval-mode input.  Whitespace is modelled over the
  ASCII whitespace characters (Python's `\s` additionally matches rare Unicode
  spaces, on which the tokenizer of this model and of Python both fail).
  Syntactic shapes that Python parses but the evaluator `_eval_node` always
  rejects (call expressions such as `2(3)`, the `...` constant) are modelled
  as parse failures; for `safe_eval_expr` both are indistinguishable failures.
* Recursive functions take an explicit fuel argument; the fuel passed by the
  top-level wrappers exceeds the deepest possible recursion for the input, so
  the wrappers compute the same result as Python's unbounded recursion.
-/

namespace ChatBot

set_option maxRecDepth 8192

/-! ### Character classes -/

/-- Operator characters `+ - * / ^` (the class `[+\-*/^]` in the code). -/
def isOpChar (c : Char) : Bool :=
  c = '+' || c = '-' || c = '*' || c = '/' || c = '^'

/-- ASCII whitespace matched by `\s` in `_MATH_RE`. -/
def isWsChar (c : Char) : Bool :=
  c = ' ' || c = '\t' || c = '\n' || c = '\r' || c = '\x0b' || c = '\x0c'

/-- Characters allowed by `_MATH_RE = ^[0-9+\-*/^().\s]+$`. -/
def isMathReChar (c : Char) : Bool :=
  c.isDigit || isOpChar c || c = '(' || c = ')' || c = '.' || isWsChar c

/-- `_MATH_RE.fullmatch expr` (the regex needs at least one character). -/
def mathReFullmatch (s : String) : Bool :=
  !s.toList.isEmpty && s.toList.all isMathReChar

/-- Characters of `_MATH_CHARS = "0123456789+-*/^(). "`. -/
def isMathChar (c : Char) : Bool :=
  c.isDigit || isOpChar c || c = '(' || c = ')' || c = '.' || c = ' '

/-! ### Exact rational values

Python's numeric values are modelled by an executable rational type `Q`
kept in lowest terms (a fuel-indexed Euclid gcd keeps every operation
reducible by the kernel, unlike Mathlib's `Rat` whose gcd is defined by
well-founded recursion).  Structural equality of normalized fractions is
numeric equality, matching Python's `==` on numbers. -/

/-- Euclid's algorithm with explicit fuel (`a + b + 1` steps always suffice). -/
def gcdFuel : Nat → Nat → Nat → Nat
  | 0, a, b => a + b
  | _ + 1, 0, b => b
  | f + 1, a + 1, b => gcdFuel f (b % (a + 1)) (a + 1)

/-- Greatest common divisor, kernel-computable. -/
def natGcd (a b : Nat) : Nat := gcdFuel (a + b + 1) a b

/-- An exact rational: numerator and positive denominator, in lowest terms
when built by `Q.norm` and the arithmetic below. -/
structure Q where
  num : Int
  den : Nat
deriving DecidableEq, Repr

/-- Normalize a fraction `n / d` (with `d` a positive natural) to lowest
terms.  `d = 0` never arises in the guarded arithmetic below. -/
def Q.norm (n : Int) (d : Nat) : Q :=
  if d = 0 then ⟨0, 0⟩
  else
    let g := natGcd n.natAbs d
    ⟨n / (g : Int), d / g⟩

instance : OfNat Q n := ⟨⟨(n : Int), 1⟩⟩
instance : Neg Q := ⟨fun a => ⟨-a.num, a.den⟩⟩
instance : Add Q := ⟨fun a b => Q.norm (a.num * b.den + b.num * a.den) (a.den * b.den)⟩
instance : Sub Q := ⟨fun a b => Q.norm (a.num * b.den - b.num * a.den) (a.den * b.den)⟩
instance : Mul Q := ⟨fun a b => Q.norm (a.num * b.num) (a.den * b.den)⟩

/-- Division `a / b` (for `b ≠ 0`): `(a.num * b.den) / (a.den * b.num)`,
sign moved to the numerator. -/
instance : Div Q := ⟨fun a b => Q.norm (a.num * b.den * b.num.sign) (a.den * b.num.natAbs)⟩

/-- `a ^ n` for a natural exponent. -/
instance : Pow Q Nat := ⟨fun a n => Q.norm (a.num ^ n) (a.den ^ n)⟩

/-- Multiplicative inverse (of a nonzero value). -/
def Q.inv (a : Q) : Q := Q.norm ((a.den : Int) * a.num.sign) a.num.natAbs

/-! ### Tokens -/

/-- Tokens of Python's lexer restricted to the guardrail's character set.
`newline` is a logical (depth-0) newline of eval-mode input. -/
inductive Tok : Type
  | num (q : Q)
  | plus | minus | star | dstar | slash | dslash | caret
  | lparen | rparen
  | newline
deriving DecidableEq, Repr

/-- Numeric value of a digit string. -/
def digitsVal (ds : List Char) : Nat :=
  ds.foldl (fun a c => a * 10 + (c.toNat - 48)) 0

/-- Value of a Python numeric literal with integer digits `ds` and fractional
digits `fs` (floats abstracted to exact rationals). -/
def numVal (ds fs : List Char) : Q :=
  Q.norm ((digitsVal ds : Int) * 10 ^ fs.length + (digitsVal fs : Int)) (10 ^ fs.length)

/-- Python's leading-zero restriction on decimal integer literals:
`00` is legal, `01` is not. -/
def leadingZeroBad : List Char → Bool
  | '0' :: d :: ds => (d :: ds).any (fun c => c ≠ '0')
  | _ => false

/-- Lexer mode: at the start of a logical line (tracking whether indentation
was seen), or inside a line at a given parenthesis depth. -/
inductive LexMode : Type
  | lineStart (sawInd : Bool)
  | inLine (depth : Nat)
deriving DecidableEq, Repr

/-- Lex one numeric literal from the head of the input (which starts with a
digit or a dot): maximal digits, then an optional dot and maximal fractional
digits, enforcing Python's leading-zero rule on plain integers. -/
def numLex (l : List Char) : Option (Q × List Char) :=
  let ds := l.takeWhile Char.isDigit
  let rest1 := l.dropWhile Char.isDigit
  if rest1.head? = some '.' then
    let fs := rest1.tail.takeWhile Char.isDigit
    let rest3 := rest1.tail.dropWhile Char.isDigit
    if ds.isEmpty && fs.isEmpty then none
    else some (numVal ds fs, rest3)
  else
    if leadingZeroBad ds then none
    else some (numVal ds [], rest1)

/-- One step of the tokenizer; models CPython's tokenizer on the restricted
character set: indentation is an error in eval mode, a form feed resets the
indentation scan, blank lines are skipped, newlines inside parentheses are
ignored (implicit line joining), `**` and `//` lex as single tokens, and
numeric literals follow Python's shapes `digits`, `digits.digits`,
`.digits`, `digits.`. -/
def lex : Nat → LexMode → List Char → Option (List Tok)
  | 0, _, _ => none
  | _ + 1, .lineStart sawInd, [] => if sawInd then none else some []
  | n + 1, .lineStart _, ' ' :: cs => lex n (.lineStart true) cs
  | n + 1, .lineStart _, '\t' :: cs => lex n (.lineStart true) cs
  | n + 1, .lineStart _, '\x0c' :: cs => lex n (.lineStart false) cs
  | n + 1, .lineStart _, '\n' :: cs => lex n (.lineStart false) cs
  | n + 1, .lineStart _, '\r' :: '\n' :: cs => lex n (.lineStart false) cs
  | n + 1, .lineStart _, '\r' :: cs => lex n (.lineStart false) cs
  | n + 1, .lineStart sawInd, c :: cs =>
    if sawInd then none else lex n (.inLine 0) (c :: cs)
  | _ + 1, .inLine _, [] => some []
  | n + 1, .inLine d, ' ' :: cs => lex n (.inLine d) cs
  | n + 1, .inLine d, '\t' :: cs => lex n (.inLine d) cs
  | n + 1, .inLine d, '\x0c' :: cs => lex n (.inLine d) cs
  | n + 1, .inLine d, '\n' :: cs =>
    if d = 0 then do pure (.newline :: (← lex n (.lineStart false) cs))
    else lex n (.inLine d) cs
  | n + 1, .inLine d, '\r' :: '\n' :: cs =>
    if d = 0 then do pure (.newline :: (← lex n (.lineStart false) cs))
    else lex n (.inLine d) cs
  | n + 1, .inLine d, '\r' :: cs =>
    if d = 0 then do pure (.newline :: (← lex n (.lineStart false) cs))
    else lex n (.inLine d) cs
  | n + 1, .inLine d, '(' :: cs => do pure (.lparen :: (← lex n (.inLine (d + 1)) cs))
  | n + 1, .inLine d, ')' :: cs => do pure (.rparen :: (← lex n (.inLine (d - 1)) cs))
  | n + 1, .inLine d, '+' :: cs => do pure (.plus :: (← lex n (.inLine d) cs))
  | n + 1, .inLine d, '-' :: cs => do pure (.minus :: (← lex n (.inLine d) cs))
  | n + 1, .inLine d, '^' :: cs => do pure (.caret :: (← lex n (.inLine d) cs))
  | n + 1, .inLine d, '*' :: '*' :: cs => do pure (.dstar :: (← lex n (.inLine d) cs))
  | n + 1, .inLine d, '*' :: cs => do pure (.star :: (← lex n (.inLine d) cs))
  | n + 1, .inLine d, '/' :: '/' :: cs => do pure (.dslash :: (← lex n (.inLine d) cs))
  | n + 1, .inLine d, '/' :: cs => do pure (.slash :: (← lex n (.inLine d) cs))
  | n + 1, .inLine d, c :: cs =>
    if c.isDigit || c = '.' then do
      let (q, rest) ← numLex (c :: cs)
      pure (.num q :: (← lex n (.inLine d) rest))
    else none

/-- Tokenize a candidate string as CPython's tokenizer does on eval-mode
input restricted to the guardrail's character set. -/
def tokenize (s : String) : Option (List Tok) :=
  lex (2 * s.toList.length + 4) (.lineStart false) s.toList

/-! ### The Python expression AST reachable from the restricted character set -/

/-- Binary operators: the five of `_ALLOWED_OPS` plus the two shapes Python
parses from this character set that `_ALLOWED_OPS` does not list
(`//` = `ast.FloorDiv`, `^` = `ast.BitXor`). -/
inductive BOp : Type
  | add | sub | mult | div | pow | floorDiv | bitXor
deriving DecidableEq, Repr

/-- Unary operators reachable from the character set (`ast.UAdd`, `ast.USub`). -/
inductive UOp : Type
  | uadd | usub
deriving DecidableEq, Repr

/-- The expression tree produced by `ast.parse` on a candidate string. -/
inductive PyExpr : Type
  | num (q : Q)
  | unary (op : UOp) (e : PyExpr)
  | bin (op : BOp) (l r : PyExpr)
deriving DecidableEq, Repr

/-- Membership of a binary operator's type in `_ALLOWED_OPS`. -/
def allowedB : BOp → Bool
  | .add | .sub | .mult | .div | .pow => true
  | .floorDiv | .bitXor => false

/-- Typed failures of the guardrail evaluator.  In Python these are the
various exceptions (`ValueError`, `SyntaxError`, `ZeroDivisionError`) raised
by `safe_eval_expr`; the caller catches them uniformly. -/
inductive EvalErr : Type
  | unsafeChars
  | syntaxErr
  | unsupported
  | divisionByZero
  | nonIntegralPow
deriving DecidableEq, Repr

/-- `operator.pow` on numbers: integral exponents are exact (with
`ZeroDivisionError` on `0 ** negative`); a non-integral exponent produces an
irrational float or complex number in Python, outside the rational model,
and is recorded as the distinct failure `nonIntegralPow`. -/
def qpow (a b : Q) : Except EvalErr Q :=
  if b.den = 1 then
    if b.num < 0 && a = 0 then .error .divisionByZero
    else if b.num < 0 then .ok (Q.inv (a ^ (-b.num).toNat))
    else .ok (a ^ b.num.toNat)
  else .error .nonIntegralPow

/-- Application of an allowed binary operator, as `_ALLOWED_OPS` maps it:
`operator.add/sub/mul/truediv/pow`.  Division by zero raises
`ZeroDivisionError` in Python (floats included — never an infinity or NaN). -/
def applyB : BOp → Q → Q → Except EvalErr Q
  | .add, a, b => .ok (a + b)
  | .sub, a, b => .ok (a - b)
  | .mult, a, b => .ok (a * b)
  | .div, a, b => if b = 0 then .error .divisionByZero else .ok (a / b)
  | .pow, a, b => qpow a b
  | _, _, _ => .error .unsupported

/-- `_eval_node`: literals evaluate to themselves; a `UnaryOp`/`BinOp` is
evaluated only if its operator's type is in `_ALLOWED_OPS` — the membership
test happens **before** the operands are evaluated, otherwise
`ValueError("Unsupported expression")` is raised. -/
def evalNode : PyExpr → Except EvalErr Q
  | .num q => .ok q
  | .unary op e => do
    let v ← evalNode e
    match op with
    | .uadd => pure v
    | .usub => pure (-v)
  | .bin op l r =>
    if allowedB op then do
      let a ← evalNode l
      let b ← evalNode r
      applyB op a b
    else .error .unsupported

/-! ### The parser (Python's eval-mode expression grammar on these tokens)

Grammar, loosest to tightest:
`xor := arith ('^' arith)*` — `arith := term (('+'|'-') term)*` —
`term := factor (('*'|'/'|'//') factor)*` — `factor := ('+'|'-') factor | power` —
`power := atom ('**' factor)?` — `atom := NUMBER | '(' xor ')'`. -/

/-- Parser mode: which nonterminal is being parsed; `…Tail` modes carry the
accumulated left operand of a left-associative operator chain. -/
inductive PMode : Type
  | xor | xorTail (acc : PyExpr)
  | arith | arithTail (acc : PyExpr)
  | term | termTail (acc : PyExpr)
  | factor | atom
deriving DecidableEq, Repr

/-- Recursive-descent parser for the grammar above (fuel-indexed). -/
def pyParse : Nat → PMode → List Tok → Option (PyExpr × List Tok)
  | 0, _, _ => none
  | n + 1, .xor, ts => do
    let (a, ts1) ← pyParse n .arith ts
    pyParse n (.xorTail a) ts1
  | n + 1, .xorTail a, .caret :: ts => do
    let (b, ts1) ← pyParse n .arith ts
    pyParse n (.xorTail (.bin .bitXor a b)) ts1
  | _ + 1, .xorTail a, ts => some (a, ts)
  | n + 1, .arith, ts => do
    let (a, ts1) ← pyParse n .term ts
    pyParse n (.arithTail a) ts1
  | n + 1, .arithTail a, .plus :: ts => do
    let (b, ts1) ← pyParse n .term ts
    pyParse n (.arithTail (.bin .add a b)) ts1
  | n + 1, .arithTail a, .minus :: ts => do
    let (b, ts1) ← pyParse n .term ts
    pyParse n (.arithTail (.bin .sub a b)) ts1
  | _ + 1, .arithTail a, ts => some (a, ts)
  | n + 1, .term, ts => do
    let (a, ts1) ← pyParse n .factor ts
    pyParse n (.termTail a) ts1
  | n + 1, .termTail a, .star :: ts => do
    let (b, ts1) ← pyParse n .factor ts
    pyParse n (.termTail (.bin .mult a b)) ts1
  | n + 1, .termTail a, .slash :: ts => do
    let (b, ts1) ← pyParse n .factor ts
    pyParse n (.termTail (.bin .div a b)) ts1
  | n + 1, .termTail a, .dslash :: ts => do
    let (b, ts1) ← pyParse n .factor ts
    pyParse n (.termTail (.bin .floorDiv a b)) ts1
  | _ + 1, .termTail a, ts => some (a, ts)
  | n + 1, .factor, .plus :: ts => do
    let (e, ts1) ← pyParse n .factor ts
    pure (.unary .uadd e, ts1)
  | n + 1, .factor, .minus :: ts => do
    let (e, ts1) ← pyParse n .factor ts
    pure (.unary .usub e, ts1)
  | n + 1, .factor, ts => do
    let (a, ts1) ← pyParse n .atom ts
    match ts1 with
    | .dstar :: ts2 => do
      let (f, ts3) ← pyParse n .factor ts2
      pure (.bin .pow a f, ts3)
    | _ => pure (a, ts1)
  | _ + 1, .atom, .num q :: ts => some (.num q, ts)
  | n + 1, .atom, .lparen :: ts => do
    let (e, ts1) ← pyParse n .xor ts
    match ts1 with
    | .rparen :: ts2 => pure (e, ts2)
    | _ => none
  | _ + 1, .atom, _ => none

/-- Fuel that provably exceeds the deepest recursion of `pyParse` on `ts`
(at most six same-length nonterminal descents before a token is consumed). -/
def pyFuel (ts : List Tok) : Nat := 8 * ts.length + 8

/-- `ast.parse(mode="eval")` on a token stream: a full expression followed
only by logical newlines. -/
def pyParseFull (ts : List Tok) : Option PyExpr := do
  let (e, rest) ← pyParse (pyFuel ts) .xor ts
  if rest.all (fun t => t = .newline) then pure e else none

/-- `safe_eval_expr`: check `_MATH_RE`, `ast.parse`, `_eval_node`.  The final
`int(val)` canonicalization of integral floats changes the Python value's
type but not the number it denotes, so it is the identity in this model. -/
def safe_eval_expr (expr : String) : Except EvalErr Q :=
  if mathReFullmatch expr then
    match tokenize expr with
    | none => .error .syntaxErr
    | some ts =>
      match pyParseFull ts with
      | none => .error .syntaxErr
      | some e => evalNode e
  else .error .unsafeChars

/-! ### TextNormalizer (`normalize_sentence_to_math`) -/

/-- `str.lower` (ASCII case folding; the substitution table's non-ASCII
symbols are unaffected by lowercasing). -/
def pyLower (s : String) : String := ⟨s.toList.map Char.toLower⟩

/-- Does `p` occur at the head of `l`? -/
def headMatches : List Char → List Char → Bool
  | _, [] => true
  | [], _ :: _ => false
  | c :: cs, p :: ps => c = p && headMatches cs ps

/-- `str.replace pat rep`: replace every occurrence, scanning left to right,
non-overlapping, without rescanning the replacement (fuel-indexed; patterns
are nonempty). -/
def replaceAll : Nat → List Char → List Char → List Char → List Char
  | 0, s, _, _ => s
  | _ + 1, [], _, _ => []
  | n + 1, c :: cs, pat, rep =>
    if headMatches (c :: cs) pat then rep ++ replaceAll n ((c :: cs).drop pat.length) pat rep
    else c :: replaceAll n cs pat rep

/-- The ordered substitution table `_WORD_TO_OP`. -/
def WORD_TO_OP : List (List Char × List Char) :=
  [("divided by".toList, "/".toList),
   ("over".toList, "/".toList),
   ("times".toList, "*".toList),
   ("multiplied by".toList, "*".toList),
   ("x".toList, "*".toList),
   ("×".toList, "*".toList),
   ("·".toList, "*".toList),
   ("plus".toList, "+".toList),
   ("minus".toList, "-".toList),
   ("–".toList, "-".toList),
   ("—".toList, "-".toList),
   ("÷".toList, "/".toList)]

/-- `re.sub(r"\s+", " ", s)`: collapse each whitespace run to one space. -/
def squeezeWs : List Char → List Char
  | [] => []
  | [c] => if isWsChar c then [' '] else [c]
  | c :: c2 :: cs =>
    if isWsChar c && isWsChar c2 then squeezeWs (c2 :: cs)
    else (if isWsChar c then ' ' else c) :: squeezeWs (c2 :: cs)

/-- `str.strip()`. -/
def pyStrip (s : List Char) : List Char :=
  ((s.dropWhile isWsChar).reverse.dropWhile isWsChar).reverse

/-- `normalize_sentence_to_math`: lowercase, drop everything from the first
`=`, apply the substitution table in order, keep only `_MATH_CHARS`,
collapse whitespace, strip. -/
def normalize_sentence_to_math (text : String) : String :=
  let s := (pyLower text).toList
  let s := s.takeWhile (fun c => c ≠ '=')
  let s := WORD_TO_OP.foldl (fun acc pr => replaceAll (acc.length + 1) acc pr.1 pr.2) s
  let s := s.filter isMathChar
  ⟨pyStrip (squeezeWs s)⟩

/-! ### ExpressionExtractor (`longest_math_substring`) -/

/-- `re.findall(r"[0-9+\-*/^(). ]+", text)`: the maximal nonempty runs of
`_MATH_CHARS` characters, in order. -/
def mathRuns : List Char → List (List Char)
  | [] => []
  | [c] => if isMathChar c then [[c]] else []
  | c :: c2 :: cs =>
    let rest := mathRuns (c2 :: cs)
    if isMathChar c then
      if isMathChar c2 then
        match rest with
        | r :: rs => (c :: r) :: rs
        | [] => [[c]]
      else [c] :: rest
    else rest

/-- `_MATH_RE.fullmatch` on a character list. -/
def mathReFullmatchL (cs : List Char) : Bool :=
  !cs.isEmpty && cs.all isMathReChar

/-- The `cleaned` list: each run with spaces removed, kept when nonempty,
matching `_MATH_RE` and containing an operator character. -/
def cleanedRuns (text : List Char) : List (List Char) :=
  (mathRuns text).filterMap (fun c =>
    let c2 := c.filter (fun ch => ch ≠ ' ')
    if c2.isEmpty then none
    else if mathReFullmatchL c2 && c2.any isOpChar then some c2 else none)

/-- Insert into an ascending-by-length list, after all entries of equal
length (the placement `list.sort(key=len)` gives a stable sort). -/
def insLen (x : List Char) : List (List Char) → List (List Char)
  | [] => [x]
  | y :: ys => if y.length ≤ x.length then y :: insLen x ys else x :: y :: ys

/-- Stable ascending sort by length (`cleaned.sort(key=len)`). -/
def sortLen (l : List (List Char)) : List (List Char) :=
  l.foldl (fun acc x => insLen x acc) []

/-- `longest_math_substring`: among the cleaned candidates, the last element
of the stable length-sort (empty string when no run qualifies:
`if not cleaned: return ""`). -/
def longest_math_substring (text : String) : String :=
  if cleanedRuns text.toList = [] then ""
  else ⟨(sortLen (cleanedRuns text.toList)).getLastD []⟩

/-- `extract_math_expression`: normalize, then extract the best candidate. -/
def extract_math_expression (user_text : String) : String :=
  longest_math_substring (normalize_sentence_to_math user_text)

/-! ### Chat helpers (`build_prompt`, `call_hf_inference`) -/

def SYSTEM_PROMPT : String :=
  "You are a helpful, concise assistant for a beginner-friendly Python web app. " ++
  "Answer clearly, use short paragraphs, and avoid making things up. " ++
  "If you are unsure, say so briefly."

/-- A stored conversation turn (`{"role": ..., "text": ...}`). -/
inductive Role : Type
  | user | bot
deriving DecidableEq, Repr

structure Turn where
  role : Role
  text : String
deriving DecidableEq, Repr

/-- One line of the prompt: `Assistant:`/`User:` prefix by role. -/
def renderTurn (t : Turn) : String :=
  (match t.role with | .bot => "Assistant" | .user => "User") ++ ": " ++ t.text

/-- The lines joined by `build_prompt`. -/
def build_prompt_lines (history : List Turn) (user_text : String) : List String :=
  [SYSTEM_PROMPT, ""] ++ history.map renderTurn ++ ["User: " ++ user_text, "Assistant:"]

/-- `build_prompt`. -/
def build_prompt (history : List Turn) (user_text : String) : String :=
  "\n".intercalate (build_prompt_lines history user_text)

/-- The JSON body of a successful HF response: a list whose first element has
`generated_text`, a dict carrying `error`, or anything else (returned via
`str(data)`). -/
inductive HFBody : Type
  | genList (txt : String)
  | errDict (msg : String)
  | otherJson (raw : String)
deriving DecidableEq, Repr

/-- Outcome of one `requests.post` attempt, as seen by `call_hf_inference`:
an HTTP status with a parsed body, a `requests.exceptions.RequestException`
(network failures and the `HTTPError` of `raise_for_status` behave
identically in the code), or any other exception (e.g. a JSON decode
error); exception messages carry the Python `str(e)` rendering. -/
inductive HFEvent : Type
  | status (code : Nat) (body : HFBody)
  | netExc (msg : String)
  | otherExc (msg : String)
deriving DecidableEq, Repr

/-- The `str(e)` of the `HTTPError` raised by `raise_for_status`, abstracted
as a function of the status code. -/
def httpErrStr (c : Nat) : String := toString c ++ " Error"

/-- Is `pat` contained in `s`? (`pat in text` for nonempty `pat`). -/
def containsSub : Nat → List Char → List Char → Bool
  | 0, _, _ => false
  | _ + 1, [], pat => pat.isEmpty
  | n + 1, c :: cs, pat => headMatches (c :: cs) pat || containsSub n cs pat

/-- The characters before the first occurrence of `pat` (`text.split(pat)[0]`). -/
def cutAtFirst : Nat → List Char → List Char → List Char
  | 0, s, _ => s
  | _ + 1, [], _ => []
  | n + 1, c :: cs, pat => if headMatches (c :: cs) pat then [] else c :: cutAtFirst n cs pat

/-- One marker step: `if marker in text: text = text.split(marker)[0].strip()`. -/
def cutMarker (t : List Char) (m : List Char) : List Char :=
  if containsSub (t.length + 1) t m then pyStrip (cutAtFirst (t.length + 1) t m) else t

/-- The successful-response postprocessing: strip, cut at `"\nUser:"` and
`"\nAssistant:"`, and replace an empty reply by `"..."`. -/
def processGen (txt : String) : String :=
  let t := pyStrip txt.toList
  let t := cutMarker t "\nUser:".toList
  let t := cutMarker t "\nAssistant:".toList
  if t.isEmpty then "..." else ⟨t⟩

/-- Handling of a parsed 2xx body. -/
def processBody : HFBody → Bool × String
  | .genList txt => (true, processGen txt)
  | .errDict m => (false, "Model error: " ++ m)
  | .otherJson raw => (true, raw)

/-- The retry loop of `call_hf_inference` (`for attempt in range(retries+1)`),
recursing on the remaining attempts; `i` is the next oracle index.  A
transient status (429/503) sleeps and retries; when the final attempt is
also transient the `for` loop falls off the end and the function returns
Python's implicit `None`.  Any `RequestException` (including the
`HTTPError` raised by `raise_for_status` on a non-transient error status)
retries while attempts remain, else becomes `"Network error: ..."`; any
other exception returns `"Unexpected error: ..."` at once. -/
def hfLoop (ev : Nat → HFEvent) : Nat → Nat → Option (Bool × String)
  | 0, i =>
    match ev i with
    | .status c body =>
      if c = 429 ∨ c = 503 then none
      else if 400 ≤ c then some (false, "Network error: " ++ httpErrStr c)
      else some (processBody body)
    | .netExc m => some (false, "Network error: " ++ m)
    | .otherExc m => some (false, "Unexpected error: " ++ m)
  | rem + 1, i =>
    match ev i with
    | .status c body =>
      if c = 429 ∨ c = 503 then hfLoop ev rem (i + 1)
      else if 400 ≤ c then hfLoop ev rem (i + 1)
      else some (processBody body)
    | .netExc _ => hfLoop ev rem (i + 1)
    | .otherExc m => some (false, "Unexpected error: " ++ m)

/-- `call_hf_inference(prompt_text, retries=2)`.  The outcome of each network
attempt is supplied by the oracle `ev`; the prompt itself does not influence
the modelled network behaviour.  `None` (the fall-off-the-end return) is
`none`. -/
def call_hf_inference (hfToken : Option String) (ev : Nat → HFEvent)
    (prompt_text : String) : Option (Bool × String) :=
  match hfToken with
  | none => some (false, "Server error: HF_API_TOKEN is not set.")
  | some _ => hfLoop ev 2 0

/-! ### The `/chat` route -/

/-- Events recorded by the model of `chat`, in order: the guardrail attempt
(with the extracted candidate, possibly empty) and any model invocation
(with the prompt sent). -/
inductive ChatEvent : Type
  | guardrail (expr : String)
  | modelCall (prompt : String)
deriving DecidableEq, Repr

/-- The HTTP response of `/chat`: a 200 with a reply, a 400 client error, or
the 500 produced by the outer exception handler. -/
inductive ChatResp : Type
  | ok (reply : String)
  | clientErr (msg : String)
  | serverErr (msg : String)
deriving DecidableEq, Repr

structure ChatOutcome where
  resp : ChatResp
  history : List Turn
  trace : List ChatEvent
deriving DecidableEq, Repr

/-- Python's `l[-n:]`: the last `n` elements. -/
def takeLast {α : Type} (n : Nat) (l : List α) : List α :=
  l.drop (l.length - n)

/-- `str(result)` where `result = int(val) if ... else val`: integral values
render as integers; the decimal rendering of a non-integral float is
abstracted as fraction text (no claim depends on it). -/
def renderVal (v : Q) : String :=
  if v.den = 1 then toString v.num else toString v.num ++ "/" ++ toString v.den

/-- The history update of the guardrail-hit path:
`msgs.append(user); msgs.append(bot); session["messages"] = msgs[-10:]`. -/
def guardrail_update (h : List Turn) (u b : Turn) : List Turn :=
  takeLast 10 (h ++ [u, b])

/-- The history update of the model-fallback path: append the user turn,
truncate to 10 if over, then append the bot turn with no re-truncation. -/
def model_update (h : List Turn) (u b : Turn) : List Turn :=
  (if (h ++ [u]).length > 10 then takeLast 10 (h ++ [u]) else h ++ [u]) ++ [b]

/-- The history sent to the model: the user turn appended, truncated to the
last 10 when over (`msgs.append(...); if len(msgs) > 10: msgs = msgs[-10:]`). -/
def appendUserTrunc (history : List Turn) (user_text : String) : List Turn :=
  if (history ++ [(⟨.user, user_text⟩ : Turn)]).length > 10 then
    takeLast 10 (history ++ [(⟨.user, user_text⟩ : Turn)])
  else history ++ [(⟨.user, user_text⟩ : Turn)]

/-- The model-fallback branch of `chat`: append the user turn, truncate if
over 10, build the prompt, call the model; on a `(ok, text)` result store
the bot turn **without re-truncating** (this is `model_update`); on
Python's `None` return the tuple unpacking raises and the outer handler
returns a 500 with the session history unchanged. -/
def modelPath (hfToken : Option String) (ev : Nat → HFEvent) (history : List Turn)
    (user_text : String) (expr : String) : ChatOutcome :=
  match call_hf_inference hfToken ev (build_prompt (appendUserTrunc history user_text) user_text) with
  | none =>
    ⟨.serverErr "Internal server error", history,
     [.guardrail expr,
      .modelCall (build_prompt (appendUserTrunc history user_text) user_text)]⟩
  | some (okFlag, txt) =>
    ⟨.ok (if okFlag then txt else "(LLM) " ++ txt),
     appendUserTrunc history user_text ++ [⟨.bot, if okFlag then txt else "(LLM) " ++ txt⟩],
     [.guardrail expr,
      .modelCall (build_prompt (appendUserTrunc history user_text) user_text)]⟩

/-- The `/chat` handler: reject empty input, try the guardrail (extract,
evaluate); on success store both turns truncated to the last 10 and reply
with the rendered number; on any guardrail failure fall through to the
model path.  (`ensure_model_loaded` only sets a global flag and does not
affect the outcome.) -/
def chat (hfToken : Option String) (ev : Nat → HFEvent) (history : List Turn)
    (message : String) : ChatOutcome :=
  let user_text : String := ⟨pyStrip message.toList⟩
  if user_text = "" then ⟨.clientErr "Empty message", history, []⟩
  else
    let expr := extract_math_expression user_text
    if expr = "" then modelPath hfToken ev history user_text expr
    else
      match safe_eval_expr expr with
      | .ok result =>
        ⟨.ok (renderVal result),
         guardrail_update history ⟨.user, user_text⟩ ⟨.bot, renderVal result⟩,
         [.guardrail expr]⟩
      | .error _ => modelPath hfToken ev history user_text expr

/-- One completed `/chat` exchange: guardrail hit, model fallback with a
stored reply, or the crash path (all-transient retry exhaustion), which
leaves the session history unchanged. -/
inductive Exchange : Type
  | guardrail (u b : Turn)
  | model (u b : Turn)
  | failed
deriving DecidableEq, Repr

def exchStep (h : List Turn) : Exchange → List Turn
  | .guardrail u b => guardrail_update h u b
  | .model u b => model_update h u b
  | .failed => h

/-- The stored history after a sequence of exchanges, starting empty. -/
def runExchanges (es : List Exchange) : List Turn :=
  es.foldl exchStep []

/-- The turns an exchange contributes to the chronological log. -/
def exchTurns : Exchange → List Turn
  | .guardrail u b => [u, b]
  | .model u b => [u, b]
  | .failed => []

/-- The full chronological log of a sequence of exchanges. -/
def fullLog (es : List Exchange) : List Turn :=
  (es.map exchTurns).flatten

/-- Is an attempt outcome one of the transient statuses (429/503) that the
retry loop sleeps on? -/
def isTransient : HFEvent → Bool
  | .status c _ => c = 429 || c = 503
  | _ => false

/-- Substring containment on strings. -/
def strContains (s pat : String) : Bool :=
  containsSub (s.toList.length + 1) s.toList pat.toList

/-! ### Syntactic predicates for the malformed-input claims -/

/-- Does the string contain a letter? -/
def containsLetter (s : String) : Bool := s.toList.any Char.isAlpha

/-- The parenthesis characters of a character list, in order. -/
def parenSeq (cs : List Char) : List Char :=
  cs.filter (fun c => c = '(' || c = ')')

/-- The parenthesis characters of a token list, in order. -/
def parenToksOf (ts : List Tok) : List Char :=
  ts.filterMap (fun t =>
    match t with
    | .lparen => some '('
    | .rparen => some ')'
    | _ => none)

/-- Dyck-balance check of a parenthesis string at starting depth `d`. -/
def balP : Nat → List Char → Bool
  | d, [] => d = 0
  | d, c :: cs =>
    if c = '(' then balP (d + 1) cs
    else if c = ')' then decide (0 < d) && balP (d - 1) cs
    else balP d cs

/-- Adjacent pair of operator characters that is neither a `**` power token
nor an operator followed by a unary sign (the shapes Python accepts). -/
def badPairCh (a b : Char) : Bool :=
  isOpChar a && isOpChar b && !(b = '+' || b = '-') && !(a = '*' && b = '*')

/-- Does the list contain a bad adjacent operator pair? -/
def hasBadOpPair : List Char → Bool
  | a :: b :: cs => badPairCh a b || hasBadOpPair (b :: cs)
  | _ => false

/-- Any two adjacent operator characters (the claim's original reading). -/
def hasConsecOps : List Char → Bool
  | a :: b :: cs => (isOpChar a && isOpChar b) || hasConsecOps (b :: cs)
  | _ => false

/-- Operator tokens. -/
def isOpTok : Tok → Bool
  | .plus | .minus | .star | .dstar | .slash | .dslash | .caret => true
  | _ => false

/-- Tokens that may start an operand (`factor`). -/
def isStarterTok : Tok → Bool
  | .plus | .minus | .num _ | .lparen => true
  | _ => false

/-- Tokens that may end an operand. -/
def isEnderTok : Tok → Bool
  | .num _ | .rparen => true
  | _ => false

/-- Tokens that can never directly follow an operator token in a parse. -/
def isBadFollow : Tok → Bool
  | .star | .dstar | .slash | .dslash | .caret => true
  | _ => false

/-- Every operator token is directly followed by an operand starter. -/
def followOK : List Tok → Bool
  | a :: b :: ts => (!isOpTok a || isStarterTok b) && followOK (b :: ts)
  | _ => true

/-- Is there an adjacent pair (operator token, bad follower)? -/
def hasBadAdj : List Tok → Bool
  | a :: b :: ts => (isOpTok a && isBadFollow b) || hasBadAdj (b :: ts)
  | _ => false

def headIs (p : Tok → Bool) : List Tok → Bool
  | [] => false
  | t :: _ => p t

def lastIs (p : Tok → Bool) (ts : List Tok) : Bool :=
  match ts.getLast? with
  | some t => p t
  | none => false

/-- Token-level balance. -/
def balT (ts : List Tok) : Bool := balP 0 (parenToksOf ts)

/-- The token segment consumed by a successful parse of an operand
nonterminal: nonempty, starts with a starter, ends with an ender, every
operator token followed by a starter, parentheses balanced. -/
def goodSeg (ts : List Tok) : Bool :=
  headIs isStarterTok ts && lastIs isEnderTok ts && followOK ts && balT ts

/-- The token segment consumed by an operator-chain tail: empty, or starts
with an operator token and otherwise behaves like a good segment. -/
def goodTail (ts : List Tok) : Bool :=
  ts.isEmpty || (headIs isOpTok ts && lastIs isEnderTok ts && followOK ts && balT ts)

/-- Does the tree contain a given binary operator? -/
def hasBOp (op : BOp) : PyExpr → Bool
  | .num _ => false
  | .unary _ e => hasBOp op e
  | .bin o l r => o = op || hasBOp op l || hasBOp op r

/-- The character shapes a token can lex from. -/
inductive LexOf : Tok → List Char → Prop
  | plus : LexOf .plus ['+']
  | minus : LexOf .minus ['-']
  | star : LexOf .star ['*']
  | dstar : LexOf .dstar ['*', '*']
  | slash : LexOf .slash ['/']
  | dslash : LexOf .dslash ['/', '/']
  | caret : LexOf .caret ['^']
  | lparen : LexOf .lparen ['(']
  | rparen : LexOf .rparen [')']
  | nl1 : LexOf .newline ['\n']
  | nl2 : LexOf .newline ['\r']
  | nl3 : LexOf .newline ['\r', '\n']
  | num (q : Q) (cs : List Char) (hne : cs ≠ [])
      (hch : ∀ c ∈ cs, c.isDigit = true ∨ c = '.') : LexOf (.num q) cs

/-- A decomposition of a character list into skipped whitespace and token
lexemes, in order. -/
inductive Decomp : List Char → List Tok → Prop
  | nil : Decomp [] []
  | skip (c : Char) (cs : List Char) (ts : List Tok) :
      isWsChar c = true → Decomp cs ts → Decomp (c :: cs) ts
  | tok (t : Tok) (pc cs : List Char) (ts : List Tok) :
      LexOf t pc → Decomp cs ts → Decomp (pc ++ cs) (t :: ts)

/-! ### Specification-side grammar and evaluator (for the refinement claim)

Modelled from the spec: §4.3's arithmetic grammar
`expr := term (('+'|'-') term)*`, `term := factor (('*'|'/') factor)*`,
`factor := ['+'|'-'] primary [pow factor]`, `primary := number | '(' expr ')'`
with right-associative exponentiation binding tighter than `*`/`/`, unary
sign mapping to identity/negation, division by a zero divisor a
`DivisionByZero` failure.  The spec writes the exponentiation operator as
`^`; the code maps `^` to `ast.BitXor` and rejects it, so the agreement
theorem below uses the grammar with exponentiation spelled `**` (the spelling
`ast.parse` actually reads as a power), which is the corrected claim.

The lexical level follows the spec alone: `number := digits ['.' digits]`
(no leading-zero restriction — Python's ban on `01` is a second divergence
from the spec, exhibited in the agreement theorem), and tokens are read by
maximal munch, which is faithful to the grammar on this alphabet: no
grammar string reads `**` as two `*` (a `*` can never start a factor) or
contains `//` at all, and a digit run is always one number (two numbers are
never adjacent in the grammar). -/

/-- Modelled from the spec: expression trees of the §4.3 grammar (number,
unary sign, the four binary operators, exponentiation). -/
inductive SpecTree : Type
  | num (q : Q)
  | pos (t : SpecTree)
  | neg (t : SpecTree)
  | add (l r : SpecTree)
  | sub (l r : SpecTree)
  | mul (l r : SpecTree)
  | div (l r : SpecTree)
  | pow (l r : SpecTree)
deriving DecidableEq, Repr

/-- Modelled from the spec: bottom-up evaluation — `+ - * /` map to exact
arithmetic, unary sign to identity/negation, a zero divisor fails with
`DivisionByZero`, and exponentiation is numeric powering (`qpow`). -/
def specEval : SpecTree → Except EvalErr Q
  | .num q => .ok q
  | .pos t => do
    let v ← specEval t
    pure v
  | .neg t => do
    let v ← specEval t
    pure (-v)
  | .add l r => do
    let a ← specEval l
    let b ← specEval r
    .ok (a + b)
  | .sub l r => do
    let a ← specEval l
    let b ← specEval r
    .ok (a - b)
  | .mul l r => do
    let a ← specEval l
    let b ← specEval r
    .ok (a * b)
  | .div l r => do
    let a ← specEval l
    let b ← specEval r
    if b = 0 then .error .divisionByZero else .ok (a / b)
  | .pow l r => do
    let a ← specEval l
    let b ← specEval r
    qpow a b

/-- Parser mode for the spec grammar; tail modes carry the accumulated left
operand of a left-associative chain, `spower` is `primary [pow factor]`. -/
inductive SMode : Type
  | sexpr | sexprTail (acc : SpecTree)
  | sterm | stermTail (acc : SpecTree)
  | sfactor | spower | sprimary
deriving DecidableEq, Repr

/-- Modelled from the spec: recursive-descent parser for the §4.3 grammar
(fuel-indexed), over the same token stream as the code's parser. -/
def specParse : Nat → SMode → List Tok → Option (SpecTree × List Tok)
  | 0, _, _ => none
  | n + 1, .sexpr, ts => do
    let (a, ts1) ← specParse n .sterm ts
    specParse n (.sexprTail a) ts1
  | n + 1, .sexprTail a, ts =>
    if ts.head? = some .plus then do
      let (b, ts1) ← specParse n .sterm ts.tail
      specParse n (.sexprTail (.add a b)) ts1
    else if ts.head? = some .minus then do
      let (b, ts1) ← specParse n .sterm ts.tail
      specParse n (.sexprTail (.sub a b)) ts1
    else some (a, ts)
  | n + 1, .sterm, ts => do
    let (a, ts1) ← specParse n .sfactor ts
    specParse n (.stermTail a) ts1
  | n + 1, .stermTail a, ts =>
    if ts.head? = some .star then do
      let (b, ts1) ← specParse n .sfactor ts.tail
      specParse n (.stermTail (.mul a b)) ts1
    else if ts.head? = some .slash then do
      let (b, ts1) ← specParse n .sfactor ts.tail
      specParse n (.stermTail (.div a b)) ts1
    else some (a, ts)
  | n + 1, .sfactor, ts =>
    if ts.head? = some .plus then do
      let (p, ts1) ← specParse n .spower ts.tail
      pure (.pos p, ts1)
    else if ts.head? = some .minus then do
      let (p, ts1) ← specParse n .spower ts.tail
      pure (.neg p, ts1)
    else specParse n .spower ts
  | n + 1, .spower, ts => do
    let (p, ts1) ← specParse n .sprimary ts
    if ts1.head? = some .dstar then do
      let (f, ts2) ← specParse n .sfactor ts1.tail
      pure (.pow p f, ts2)
    else pure (p, ts1)
  | _ + 1, .sprimary, .num q :: ts => some (.num q, ts)
  | n + 1, .sprimary, .lparen :: ts => do
    let (e, ts1) ← specParse n .sexpr ts
    if ts1.head? = some .rparen then pure (e, ts1.tail) else none
  | _ + 1, .sprimary, _ => none

/-- Modelled from the spec: a full parse — one `expr` followed only by
logical newlines. -/
def specParseFull (ts : List Tok) : Option SpecTree := do
  let (e, rest) ← specParse (8 * ts.length + 8) .sexpr ts
  if rest.all (fun t => t = .newline) then pure e else none

/-- Modelled from the spec: lex one `number := digits ['.' digits]` from the
head of the input — maximal digits, then an optional dot that must be
followed by at least one digit.  No leading-zero restriction: the spec's
`digits` places none. -/
def specNumLex (l : List Char) : Option (Q × List Char) :=
  let ds := l.takeWhile Char.isDigit
  let rest1 := l.dropWhile Char.isDigit
  if ds.isEmpty then none
  else if rest1.head? = some '.' then
    let fs := rest1.tail.takeWhile Char.isDigit
    let rest3 := rest1.tail.dropWhile Char.isDigit
    if fs.isEmpty then none
    else some (numVal ds fs, rest3)
  else some (numVal ds [], rest1)

/-- Modelled from the spec: the grammar's lexical alphabet — parentheses,
the operator characters `+ - * /`, `**`, and numbers; any other character
(including `^`, which the grammar spelled with `**` does not use, and all
whitespace) fails to lex.  `//` lexes as a single token by maximal munch;
the spec parser accepts no string containing it. -/
def specLex : Nat → List Char → Option (List Tok)
  | 0, _ => none
  | _ + 1, [] => some []
  | n + 1, '(' :: cs => do pure (.lparen :: (← specLex n cs))
  | n + 1, ')' :: cs => do pure (.rparen :: (← specLex n cs))
  | n + 1, '+' :: cs => do pure (.plus :: (← specLex n cs))
  | n + 1, '-' :: cs => do pure (.minus :: (← specLex n cs))
  | n + 1, '*' :: '*' :: cs => do pure (.dstar :: (← specLex n cs))
  | n + 1, '*' :: cs => do pure (.star :: (← specLex n cs))
  | n + 1, '/' :: '/' :: cs => do pure (.dslash :: (← specLex n cs))
  | n + 1, '/' :: cs => do pure (.slash :: (← specLex n cs))
  | n + 1, c :: cs =>
    if c.isDigit then do
      let (q, rest) ← specNumLex (c :: cs)
      pure (.num q :: (← specLex n rest))
    else none

/-- Modelled from the spec: tokenization of a whole string under the
grammar's lexical rules. -/
def specTokenize (s : String) : Option (List Tok) :=
  specLex (s.toList.length + 2) s.toList

/-- Modelled from the spec: lex with the grammar's own lexical rules, parse
with the §4.3 grammar, then evaluate bottom-up; `none` when the string does
not fully match the grammar. -/
def specRun (s : String) : Option (Except EvalErr Q) := do
  let ts ← specTokenize s
  let e ← specParseFull ts
  pure (specEval e)

/-- Per-mode conclusion of the parser simulation: what a successful spec
parse guarantees about the code's parser (`pyParse`) on the same tokens —
a matching parse at bounded fuel whose tree evaluates identically. -/
def simConc : SMode → List Tok → SpecTree → List Tok → Prop
  | .sexpr, ts, e, rest =>
    rest.length < ts.length ∧ (rest.head? ≠ some Tok.dslash →
      ∃ m e', m ≤ 8 * ts.length + 5 ∧ pyParse m .arith ts = some (e', rest) ∧
        evalNode e' = specEval e)
  | .sexprTail a, ts, e, rest =>
    rest.length ≤ ts.length ∧
    (ts.head? = some Tok.plus ∨ ts.head? = some Tok.minus ∨ rest = ts) ∧
    (rest.head? ≠ some Tok.dslash → ∀ a', evalNode a' = specEval a →
      ∃ m e', m ≤ 8 * ts.length + 2 ∧ pyParse m (.arithTail a') ts = some (e', rest) ∧
        evalNode e' = specEval e)
  | .sterm, ts, e, rest =>
    rest.length < ts.length ∧ (rest.head? ≠ some Tok.dslash →
      ∃ m e', m ≤ 8 * ts.length + 4 ∧ pyParse m .term ts = some (e', rest) ∧
        evalNode e' = specEval e)
  | .stermTail a, ts, e, rest =>
    rest.length ≤ ts.length ∧
    (ts.head? = some Tok.star ∨ ts.head? = some Tok.slash ∨ rest = ts) ∧
    (rest.head? ≠ some Tok.dslash → ∀ a', evalNode a' = specEval a →
      ∃ m e', m ≤ 8 * ts.length + 2 ∧ pyParse m (.termTail a') ts = some (e', rest) ∧
        evalNode e' = specEval e)
  | .sfactor, ts, e, rest =>
    rest.length < ts.length ∧
    ∃ m e', m ≤ 8 * ts.length + 3 ∧ pyParse m .factor ts = some (e', rest) ∧
      evalNode e' = specEval e
  | .spower, ts, e, rest =>
    rest.length < ts.length ∧
    ∃ m e', m ≤ 8 * ts.length + 3 ∧ pyParse m .factor ts = some (e', rest) ∧
      evalNode e' = specEval e
  | .sprimary, ts, e, rest =>
    rest.length < ts.length ∧
    ((∃ q ts', ts = Tok.num q :: ts') ∨ (∃ ts', ts = Tok.lparen :: ts')) ∧
    ∃ m e', m ≤ 8 * ts.length + 2 ∧ pyParse m .atom ts = some (e', rest) ∧
      evalNode e' = specEval e

instance {ε α : Type} [DecidableEq ε] [DecidableEq α] : DecidableEq (Except ε α) := fun a b =>
  match a, b with
  | .ok x, .ok y =>
    if h : x = y then .isTrue (by rw [h]) else .isFalse (by intro hc; cases hc; exact h rfl)
  | .error x, .error y =>
    if h : x = y then .isTrue (by rw [h]) else .isFalse (by intro hc; cases hc; exact h rfl)
  | .ok _, .error _ => .isFalse (by intro hc; cases hc)
  | .error _, .ok _ => .isFalse (by intro hc; cases hc)

/-- The invariant carried through a sequence of exchanges. -/
def HistInv (h log : List Turn) : Prop :=
  h.length ≤ 11 ∧ h <:+ log

/-! ## Supporting lemmas -/

theorem takeLast_length_le {α : Type} (n : Nat) (l : List α) : (takeLast n l).length ≤ n := by
  simp only [takeLast, List.length_drop]
  omega

theorem takeLast_suffix {α : Type} (n : Nat) (l : List α) : takeLast n l <:+ l :=
  List.drop_suffix _ _

theorem suffix_append_same {α : Type} {l₁ l₂ : List α} (t : List α) (h : l₁ <:+ l₂) :
    l₁ ++ t <:+ l₂ ++ t := by
  obtain ⟨p, hp⟩ := h
  exact ⟨p, by rw [← hp, List.append_assoc]⟩

theorem guardrail_update_length (h : List Turn) (u b : Turn) :
    (guardrail_update h u b).length ≤ 10 :=
  takeLast_length_le 10 _

theorem model_update_length (h : List Turn) (u b : Turn) :
    (model_update h u b).length ≤ 11 := by
  unfold model_update
  split
  · have := takeLast_length_le 10 (h ++ [u])
    simp only [List.length_append, List.length_cons, List.length_nil]
    omega
  · rename_i hle
    simp only [List.length_append, List.length_cons, List.length_nil] at hle ⊢
    omega

theorem guardrail_update_suffix (h : List Turn) (u b : Turn) :
    guardrail_update h u b <:+ h ++ [u, b] :=
  takeLast_suffix _ _

theorem model_update_suffix (h : List Turn) (u b : Turn) :
    model_update h u b <:+ h ++ [u, b] := by
  unfold model_update
  have hsplit : h ++ [u, b] = (h ++ [u]) ++ [b] := by simp
  rw [hsplit]
  split
  · exact suffix_append_same [b] (takeLast_suffix 10 (h ++ [u]))
  · exact suffix_append_same [b] (List.suffix_refl _)

theorem exchStep_inv {h log : List Turn} (e : Exchange) (hi : HistInv h log) :
    HistInv (exchStep h e) (log ++ exchTurns e) := by
  obtain ⟨hlen, hsuf⟩ := hi
  obtain ⟨p, hp⟩ := id hsuf
  cases e with
  | guardrail u b =>
    refine ⟨Nat.le_trans (guardrail_update_length h u b) (by omega), ?_⟩
    have h1 : guardrail_update h u b <:+ h ++ [u, b] := guardrail_update_suffix h u b
    have h2 : h ++ [u, b] <:+ log ++ exchTurns (.guardrail u b) := by
      exact ⟨p, by rw [← hp]; simp [exchTurns]⟩
    exact h1.trans h2
  | model u b =>
    refine ⟨model_update_length h u b, ?_⟩
    have h1 : model_update h u b <:+ h ++ [u, b] := model_update_suffix h u b
    have h2 : h ++ [u, b] <:+ log ++ exchTurns (.model u b) := by
      exact ⟨p, by rw [← hp]; simp [exchTurns]⟩
    exact h1.trans h2
  | failed =>
    exact ⟨hlen, hsuf.trans ⟨[], by simp [exchTurns]⟩⟩

theorem foldl_exchStep_inv (es : List Exchange) :
    ∀ h log, HistInv h log → HistInv (es.foldl exchStep h) (log ++ fullLog es) := by
  induction es with
  | nil => intro h log hi; simpa [fullLog] using hi
  | cons e es ih =>
    intro h log hi
    have step := exchStep_inv e hi
    have := ih (exchStep h e) (log ++ exchTurns e) step
    simpa [fullLog, List.append_assoc] using this

/-- The `chat` history transition is one of: unchanged, the guardrail-hit
update, or the model-fallback update. -/
theorem chat_history_cases (tok : Option String) (ev : Nat → HFEvent)
    (h : List Turn) (m : String) :
    (chat tok ev h m).history = h ∨
    ∃ u b, (chat tok ev h m).history = guardrail_update h u b ∨
           (chat tok ev h m).history = model_update h u b := by
  unfold chat modelPath
  dsimp only
  split
  · exact Or.inl rfl
  · split
    · split
      · exact Or.inl rfl
      · rename_i okFlag txt heq
        exact Or.inr ⟨⟨.user, ⟨pyStrip m.toList⟩⟩,
          ⟨.bot, if okFlag then txt else "(LLM) " ++ txt⟩,
          Or.inr (by simp [model_update, appendUserTrunc])⟩
    · split
      · rename_i v heq
        exact Or.inr ⟨⟨.user, ⟨pyStrip m.toList⟩⟩, ⟨.bot, renderVal v⟩, Or.inl rfl⟩
      · split
        · exact Or.inl rfl
        · rename_i okFlag txt heq
          exact Or.inr ⟨⟨.user, ⟨pyStrip m.toList⟩⟩,
            ⟨.bot, if okFlag then txt else "(LLM) " ++ txt⟩,
            Or.inr (by simp [model_update, appendUserTrunc])⟩

theorem modelPath_trace (tok : Option String) (ev : Nat → HFEvent) (h : List Turn)
    (t e : String) :
    (modelPath tok ev h t e).trace =
      [.guardrail e, .modelCall (build_prompt (appendUserTrunc h t) t)] := by
  unfold modelPath
  split <;> rfl

theorem appendUserTrunc_eq (h : List Turn) (t : String) :
    ∃ pre, appendUserTrunc h t = pre ++ [(⟨.user, t⟩ : Turn)] ∧ (h.length ≤ 9 → pre = h) := by
  unfold appendUserTrunc
  split
  · rename_i hgt
    have hlen : (h ++ [(⟨.user, t⟩ : Turn)]).length = h.length + 1 := by simp
    refine ⟨h.drop ((h ++ [(⟨.user, t⟩ : Turn)]).length - 10), ?_, ?_⟩
    · rw [takeLast, List.drop_append_of_le_length (by omega)]
    · intro h9
      rw [hlen] at hgt
      exfalso
      omega
  · exact ⟨h, rfl, fun _ => rfl⟩

theorem getLastD_mem {α : Type} (d : α) : ∀ l : List α, l ≠ [] → l.getLastD d ∈ l := by
  intro l
  induction l with
  | nil => intro hne; exact absurd rfl hne
  | cons a as ih =>
    intro _
    cases has : as with
    | nil => simp [List.getLastD]
    | cons b bs =>
      have : (a :: b :: bs).getLastD d = (b :: bs).getLastD d := by
        simp [List.getLastD_cons]
      rw [this]
      exact List.mem_cons_of_mem _ (has ▸ ih (by simp [has]))

theorem mem_insLen {x z : List Char} : ∀ l, z ∈ insLen x l → z = x ∨ z ∈ l := by
  intro l
  induction l with
  | nil => simp [insLen]
  | cons y ys ih =>
    simp only [insLen]
    split
    · intro hz
      rcases List.mem_cons.mp hz with h1 | h2
      · exact Or.inr (h1 ▸ List.mem_cons_self _ _)
      · rcases ih h2 with h3 | h4
        · exact Or.inl h3
        · exact Or.inr (List.mem_cons_of_mem _ h4)
    · exact fun hz => (List.mem_cons.mp hz).imp id id

theorem mem_foldl_insLen (z : List Char) :
    ∀ (l : List (List Char)) (acc : List (List Char)),
      z ∈ l.foldl (fun a x => insLen x a) acc → z ∈ acc ∨ z ∈ l := by
  intro l
  induction l with
  | nil => intro acc hz; exact Or.inl hz
  | cons x xs ih =>
    intro acc hz
    rcases ih (insLen x acc) hz with h1 | h2
    · rcases mem_insLen acc h1 with h3 | h4
      · exact Or.inr (h3 ▸ List.mem_cons_self _ _)
      · exact Or.inl h4
    · exact Or.inr (List.mem_cons_of_mem _ h2)

theorem mem_sortLen {z : List Char} {l : List (List Char)} (hz : z ∈ sortLen l) : z ∈ l := by
  rcases mem_foldl_insLen z l [] hz with h | h
  · simp at h
  · exact h

theorem insLen_length (x : List Char) : ∀ l, (insLen x l).length = l.length + 1 := by
  intro l
  induction l with
  | nil => rfl
  | cons y ys ih =>
    simp only [insLen]
    split
    · simp [ih]
    · simp

theorem foldl_insLen_length :
    ∀ (l : List (List Char)) (acc : List (List Char)),
      (l.foldl (fun a x => insLen x a) acc).length = acc.length + l.length := by
  intro l
  induction l with
  | nil => intro acc; rfl
  | cons x xs ih =>
    intro acc
    rw [List.foldl_cons, ih, insLen_length]
    simp only [List.length_cons]
    omega

theorem sortLen_length (l : List (List Char)) : (sortLen l).length = l.length := by
  have := foldl_insLen_length l []
  simpa [sortLen] using this

theorem mathRuns_chars (l : List Char) :
    ∀ r ∈ mathRuns l, r ≠ [] ∧ r.all isMathChar := by
  induction l with
  | nil => intro r hr; simp [mathRuns] at hr
  | cons c cs ih =>
    intro r hr
    cases cs with
    | nil =>
      simp only [mathRuns] at hr
      split at hr
      · rename_i hc
        simp only [List.mem_singleton] at hr
        subst hr
        exact ⟨by simp, by simp [hc]⟩
      · simp at hr
    | cons c2 cs2 =>
      simp only [mathRuns] at hr
      split at hr
      · rename_i hc
        split at hr
        · split at hr
          · rename_i r0 rs0 hEq
            rcases List.mem_cons.mp hr with h1 | h2
            · subst h1
              have hmem : r0 ∈ mathRuns (c2 :: cs2) := by
                rw [hEq]; exact List.mem_cons_self _ _
              have h0 := ih r0 hmem
              exact ⟨by simp, by simp only [List.all_cons, hc, Bool.true_and]; exact h0.2⟩
            · exact ih r (by rw [hEq]; exact List.mem_cons_of_mem _ h2)
          · rename_i hEq
            simp only [List.mem_singleton] at hr
            subst hr
            exact ⟨by simp, by simp [hc]⟩
        · rcases List.mem_cons.mp hr with h1 | h2
          · subst h1
            exact ⟨by simp, by simp [hc]⟩
          · exact ih r h2
      · exact ih r hr

theorem cleanedRuns_spec (t : List Char) :
    ∀ c2 ∈ cleanedRuns t,
      c2 ≠ [] ∧ c2.all (fun ch => isMathChar ch && ch ≠ ' ') ∧
      c2.any isOpChar ∧ mathReFullmatchL c2 := by
  intro c2 hc2
  obtain ⟨run, hrun, hf⟩ := List.mem_filterMap.mp hc2
  dsimp only at hf
  by_cases hemp : (run.filter (fun ch => ch ≠ ' ')).isEmpty
  · rw [if_pos hemp] at hf; cases hf
  · rw [if_neg hemp] at hf
    by_cases hq : mathReFullmatchL (run.filter (fun ch => ch ≠ ' ')) &&
        (run.filter (fun ch => ch ≠ ' ')).any isOpChar
    · rw [if_pos hq] at hf
      cases hf
      have hchars := (mathRuns_chars t run hrun).2
      refine ⟨by simpa [List.isEmpty_iff] using hemp, ?_, ?_, ?_⟩
      · rw [List.all_eq_true]
        intro ch hch
        have hm := List.mem_filter.mp hch
        have : isMathChar ch = true := by
          rw [List.all_eq_true] at hchars
          exact hchars ch hm.1
        simp [this, hm.2]
      · rw [Bool.and_eq_true] at hq
        exact hq.2
      · rw [Bool.and_eq_true] at hq
        exact hq.1
    · rw [if_neg hq] at hf; cases hf

theorem longest_math_substring_cases (t : String) :
    longest_math_substring t = "" ∨
    ∃ r, r ∈ cleanedRuns t.toList ∧ longest_math_substring t = ⟨r⟩ := by
  unfold longest_math_substring
  by_cases hcl : cleanedRuns t.toList = []
  · rw [if_pos hcl]
    exact Or.inl rfl
  · rw [if_neg hcl]
    refine Or.inr ⟨(sortLen (cleanedRuns t.toList)).getLastD [], ?_, rfl⟩
    apply mem_sortLen
    apply getLastD_mem
    intro hnil
    have hl := sortLen_length (cleanedRuns t.toList)
    rw [hnil] at hl
    exact hcl (List.length_eq_zero.mp hl.symm)

theorem isTransient_status {c : Nat} {b : HFBody}
    (h : isTransient (.status c b) = true) : c = 429 ∨ c = 503 := by
  simpa only [isTransient, Bool.or_eq_true, decide_eq_true_eq] using h

theorem hfLoop_transient_none (ev : Nat → HFEvent)
    (hall : ∀ j, isTransient (ev j)) : ∀ rem i, hfLoop ev rem i = none := by
  intro rem
  induction rem with
  | zero =>
    intro i
    have h0 := hall i
    unfold hfLoop
    cases hev : ev i with
    | status c b =>
      rw [hev] at h0
      dsimp only
      rw [if_pos (isTransient_status h0)]
    | netExc m => rw [hev] at h0; simp [isTransient] at h0
    | otherExc m => rw [hev] at h0; simp [isTransient] at h0
  | succ r ih =>
    intro i
    have h0 := hall i
    unfold hfLoop
    cases hev : ev i with
    | status c b =>
      rw [hev] at h0
      dsimp only
      rw [if_pos (isTransient_status h0)]
      exact ih (i + 1)
    | netExc m => rw [hev] at h0; simp [isTransient] at h0
    | otherExc m => rw [hev] at h0; simp [isTransient] at h0

theorem hfLoop_step_retry (ev : Nat → HFEvent) (rem i : Nat)
    (h : isTransient (ev i) = true ∨ ∃ mm, ev i = .netExc mm) :
    hfLoop ev (rem + 1) i = hfLoop ev rem (i + 1) := by
  rcases h with ht | ⟨mm, hm⟩
  · cases hev : ev i with
    | status c b =>
      rw [hev] at ht
      conv_lhs => unfold hfLoop
      rw [hev]
      dsimp only
      rw [if_pos (isTransient_status ht)]
    | netExc m => rw [hev] at ht; simp [isTransient] at ht
    | otherExc m => rw [hev] at ht; simp [isTransient] at ht
  · conv_lhs => unfold hfLoop
    rw [hm]

theorem getLastD_irrel {α : Type} (l : List α) (h : l ≠ []) (d1 d2 : α) :
    l.getLastD d1 = l.getLastD d2 := by
  cases l with
  | nil => exact absurd rfl h
  | cons a as => rw [List.getLastD_cons, List.getLastD_cons]

theorem getLastD_concat_eq {α : Type} (d y : α) : ∀ xs : List α, (xs ++ [y]).getLastD d = y := by
  intro xs
  induction xs with
  | nil => rfl
  | cons a as ih => rw [List.cons_append, List.getLastD_cons, getLastD_irrel _ (by simp) a d, ih]

theorem insLen_ne_nil (y : List Char) : ∀ l, insLen y l ≠ [] := by
  intro l
  cases l with
  | nil => simp [insLen]
  | cons z zs =>
    simp only [insLen]
    split <;> simp

theorem insLen_mem_iff {x z : List Char} : ∀ l, z ∈ insLen x l ↔ z = x ∨ z ∈ l := by
  intro l
  induction l with
  | nil => simp [insLen]
  | cons y ys ih =>
    simp only [insLen]
    split
    · rw [List.mem_cons, ih, List.mem_cons]
      tauto
    · rw [List.mem_cons]

theorem mem_foldl_insLen_iff :
    ∀ (l acc : List (List Char)) (z : List Char),
      z ∈ l.foldl (fun a x => insLen x a) acc ↔ z ∈ acc ∨ z ∈ l := by
  intro l
  induction l with
  | nil => simp
  | cons x xs ih =>
    intro acc z
    rw [List.foldl_cons, ih, insLen_mem_iff, List.mem_cons]
    tauto

theorem mem_sortLen_iff {z : List Char} (l : List (List Char)) : z ∈ sortLen l ↔ z ∈ l := by
  rw [sortLen, mem_foldl_insLen_iff]
  simp

theorem insLen_sorted (x : List Char) :
    ∀ s, List.Sorted (fun a b : List Char => a.length ≤ b.length) s →
      List.Sorted (fun a b : List Char => a.length ≤ b.length) (insLen x s) := by
  intro s
  induction s with
  | nil => intro _; simp [insLen]
  | cons y ys ih =>
    intro hs
    rw [List.sorted_cons] at hs
    simp only [insLen]
    split
    · rename_i hyx
      rw [List.sorted_cons]
      refine ⟨?_, ih hs.2⟩
      intro b hb
      rcases (insLen_mem_iff ys).mp hb with rfl | hbmem
      · exact hyx
      · exact hs.1 b hbmem
    · rename_i hyx
      rw [List.sorted_cons]
      refine ⟨?_, List.sorted_cons.mpr hs⟩
      intro b hb
      rcases List.mem_cons.mp hb with rfl | hbmem
      · omega
      · have := hs.1 b hbmem
        omega

theorem foldl_insLen_sorted :
    ∀ (l acc : List (List Char)),
      List.Sorted (fun a b : List Char => a.length ≤ b.length) acc →
      List.Sorted (fun a b : List Char => a.length ≤ b.length)
        (l.foldl (fun a x => insLen x a) acc) := by
  intro l
  induction l with
  | nil => intro acc h; exact h
  | cons x xs ih => intro acc h; exact ih _ (insLen_sorted x acc h)

theorem sortLen_sorted (l : List (List Char)) :
    List.Sorted (fun a b : List Char => a.length ≤ b.length) (sortLen l) :=
  foldl_insLen_sorted l [] (by simp)

theorem sorted_length_le_getLastD :
    ∀ l : List (List Char),
      List.Sorted (fun a b : List Char => a.length ≤ b.length) l →
      ∀ c ∈ l, c.length ≤ (l.getLastD []).length := by
  intro l
  induction l with
  | nil => intro _ c hc; simp at hc
  | cons a as ih =>
    intro hs c hc
    rw [List.sorted_cons] at hs
    rcases List.mem_cons.mp hc with rfl | hcm
    · cases as with
      | nil => simp [List.getLastD]
      | cons b bs =>
        rw [List.getLastD_cons, getLastD_irrel (b :: bs) (by simp) c []]
        exact hs.1 _ (getLastD_mem [] (b :: bs) (by simp))
    · cases as with
      | nil => simp at hcm
      | cons b bs =>
        rw [List.getLastD_cons, getLastD_irrel (b :: bs) (by simp) a []]
        exact ih hs.2 c hcm

theorem insLen_getLastD (y : List Char) :
    ∀ s, List.Sorted (fun a b : List Char => a.length ≤ b.length) s →
      (insLen y s).getLastD [] =
        if (s.getLastD []).length ≤ y.length then y else s.getLastD [] := by
  intro s
  induction s with
  | nil => simp [insLen, List.getLastD]
  | cons z zs ih =>
    intro hs
    have hs' := hs
    rw [List.sorted_cons] at hs'
    simp only [insLen]
    split
    · rename_i hzy
      cases zs with
      | nil =>
        have hlhs : (z :: insLen y []).getLastD ([] : List Char) = y := by
          rw [show insLen y ([] : List (List Char)) = [y] from rfl,
            show (z :: [y] : List (List Char)) = [z] ++ [y] from rfl, getLastD_concat_eq]
        rw [hlhs, if_pos (show ([z].getLastD ([] : List Char)).length ≤ y.length from hzy)]
      | cons w ws =>
        have hlhs : (z :: insLen y (w :: ws)).getLastD ([] : List Char) =
            (insLen y (w :: ws)).getLastD [] := by
          rw [List.getLastD_cons]
          exact getLastD_irrel _ (insLen_ne_nil y (w :: ws)) z []
        have hrhs : (z :: w :: ws).getLastD ([] : List Char) = (w :: ws).getLastD [] := by
          rw [List.getLastD_cons]
          exact getLastD_irrel (w :: ws) (by simp) z []
        rw [hlhs, hrhs, ih hs'.2]
    · rename_i hzy
      have hlhs : (y :: z :: zs).getLastD ([] : List Char) = (z :: zs).getLastD [] := by
        rw [List.getLastD_cons]
        exact getLastD_irrel (z :: zs) (by simp) y []
      rw [hlhs]
      have hz_le : z.length ≤ ((z :: zs).getLastD []).length :=
        sorted_length_le_getLastD (z :: zs) hs z (List.mem_cons_self z zs)
      rw [if_neg (by omega)]

theorem sortLen_append_singleton (l : List (List Char)) (y : List Char) :
    sortLen (l ++ [y]) = insLen y (sortLen l) := by
  simp [sortLen, List.foldl_append]

theorem sortLen_filter_last :
    ∀ l : List (List Char), l ≠ [] →
      (sortLen l).getLastD [] =
        (l.filter (fun c => c.length = ((sortLen l).getLastD []).length)).getLastD [] := by
  intro l
  induction l using List.reverseRecOn with
  | nil => intro h; exact absurd rfl h
  | append_singleton l' y ih =>
    intro _
    rw [sortLen_append_singleton, insLen_getLastD y (sortLen l') (sortLen_sorted l')]
    by_cases hc : ((sortLen l').getLastD []).length ≤ y.length
    · rw [if_pos hc, List.filter_append]
      have hy : List.filter (fun c => decide (c.length = y.length)) [y] = [y] := by simp
      rw [hy, getLastD_concat_eq]
    · rw [if_neg hc]
      have hl' : l' ≠ [] := by
        intro h0
        subst h0
        simp [sortLen, List.getLastD] at hc
      rw [List.filter_append]
      have hy : List.filter
          (fun c => decide (c.length = ((sortLen l').getLastD []).length)) [y] = [] := by
        simp only [List.filter_cons, List.filter_nil]
        rw [if_neg (by simp only [decide_eq_true_eq]; omega)]
      rw [hy, List.append_nil]
      exact ih hl'

theorem isEnderTok_not_op {t : Tok} (h : isEnderTok t = true) : isOpTok t = false := by
  cases t <;> simp_all [isEnderTok, isOpTok]

theorem isBadFollow_not_starter {t : Tok} (h : isBadFollow t = true) :
    isStarterTok t = false := by
  cases t <;> simp_all [isBadFollow, isStarterTok]

theorem headIs_append {p : Tok → Bool} {xs : List Tok} (ys : List Tok) (h : xs ≠ []) :
    headIs p (xs ++ ys) = headIs p xs := by
  cases xs with
  | nil => exact absurd rfl h
  | cons x xs' => rfl

theorem lastIs_append_right {p : Tok → Bool} (xs : List Tok) {ys : List Tok} (h : ys ≠ []) :
    lastIs p (xs ++ ys) = lastIs p ys := by
  unfold lastIs
  rw [List.getLast?_append_of_ne_nil _ h]

theorem followOK_cons {x : Tok} {ys : List Tok}
    (h1 : isOpTok x = false ∨ headIs isStarterTok ys = true)
    (h2 : followOK ys = true) : followOK (x :: ys) = true := by
  cases ys with
  | nil => rfl
  | cons y ys' =>
    simp only [followOK, Bool.and_eq_true]
    refine ⟨?_, h2⟩
    rcases h1 with h | h
    · simp [h]
    · simp only [headIs] at h
      simp [h]

theorem followOK_tail {x : Tok} {ys : List Tok} (h : followOK (x :: ys) = true) :
    followOK ys = true := by
  cases ys with
  | nil => rfl
  | cons y ys' =>
    simp only [followOK, Bool.and_eq_true] at h
    exact h.2

theorem followOK_append : ∀ xs : List Tok, followOK xs = true → ∀ ys, followOK ys = true →
    (∀ a, xs.getLast? = some a → isOpTok a = true → headIs isStarterTok ys = true) →
    followOK (xs ++ ys) = true := by
  intro xs
  induction xs with
  | nil => intro _ ys hy _; simpa using hy
  | cons x xs' ih =>
    intro hx ys hy hmid
    cases xs' with
    | nil =>
      simp only [List.cons_append, List.nil_append]
      refine followOK_cons ?_ hy
      by_cases hop : isOpTok x = true
      · exact Or.inr (hmid x rfl hop)
      · exact Or.inl (by simpa using hop)
    | cons x2 xs'' =>
      have hx' : followOK (x2 :: xs'') = true := followOK_tail hx
      have hpair : (!isOpTok x || isStarterTok x2) = true := by
        simp only [followOK, Bool.and_eq_true] at hx
        exact hx.1
      have hrest : followOK ((x2 :: xs'') ++ ys) = true := by
        refine ih hx' ys hy ?_
        intro a ha hop
        refine hmid a ?_ hop
        rw [List.getLast?_cons_cons]
        exact ha
      simp only [List.cons_append] at hrest ⊢
      refine followOK_cons ?_ hrest
      rw [Bool.or_eq_true] at hpair
      rcases hpair with h | h
      · exact Or.inl (by simpa using h)
      · exact Or.inr (by simpa [headIs] using h)

theorem balP_append : ∀ (xs : List Char) (d : Nat), balP d xs = true →
    ∀ ys, balP 0 ys = true → balP d (xs ++ ys) = true := by
  intro xs
  induction xs with
  | nil =>
    intro d hd ys hy
    have hd0 : d = 0 := by simpa [balP] using hd
    subst hd0
    simpa using hy
  | cons c cs ih =>
    intro d hd ys hy
    simp only [balP] at hd
    simp only [List.cons_append, balP]
    split at hd
    · rw [if_pos (by assumption)]
      exact ih (d + 1) hd ys hy
    · split at hd
      · rw [if_neg (by assumption), if_pos (by assumption)]
        rw [Bool.and_eq_true] at hd
        rw [Bool.and_eq_true]
        exact ⟨hd.1, ih (d - 1) hd.2 ys hy⟩
      · rw [if_neg (by assumption), if_neg (by assumption)]
        exact ih d hd ys hy

theorem balP_wrap : ∀ (xs : List Char) (d : Nat), balP d xs = true →
    balP (d + 1) (xs ++ [')']) = true := by
  intro xs
  induction xs with
  | nil =>
    intro d hd
    have hd0 : d = 0 := by simpa [balP] using hd
    subst hd0
    simp [balP]
  | cons c cs ih =>
    intro d hd
    simp only [balP] at hd
    simp only [List.cons_append, balP]
    split at hd
    · rw [if_pos (by assumption)]
      exact ih (d + 1) hd
    · split at hd
      · rw [if_neg (by assumption), if_pos (by assumption)]
        rw [Bool.and_eq_true] at hd
        obtain ⟨hd1, hd2⟩ := hd
        have hdpos : 0 < d := by simpa using hd1
        rw [Bool.and_eq_true]
        refine ⟨by simp, ?_⟩
        have h2 := ih (d - 1) hd2
        rw [Nat.sub_add_cancel hdpos] at h2
        simpa using h2
      · rw [if_neg (by assumption), if_neg (by assumption)]
        exact ih d hd

theorem lastIs_cons {p : Tok → Bool} (x : Tok) {ts : List Tok} (h : ts ≠ []) :
    lastIs p (x :: ts) = lastIs p ts := by
  cases ts with
  | nil => exact absurd rfl h
  | cons y ys =>
    unfold lastIs
    rw [List.getLast?_cons_cons]

theorem lastIs_spec {p : Tok → Bool} {ts : List Tok} {a : Tok}
    (h : lastIs p ts = true) (ha : ts.getLast? = some a) : p a = true := by
  unfold lastIs at h
  rw [ha] at h
  exact h

theorem parenToksOf_append (xs ys : List Tok) :
    parenToksOf (xs ++ ys) = parenToksOf xs ++ parenToksOf ys := by
  simp [parenToksOf]

theorem balT_append {xs ys : List Tok} (hx : balT xs = true) (hy : balT ys = true) :
    balT (xs ++ ys) = true := by
  unfold balT at hx hy ⊢
  rw [parenToksOf_append]
  exact balP_append _ 0 hx _ hy

theorem parenToksOf_cons_nonparen {t : Tok} (ht : t ≠ .lparen ∧ t ≠ .rparen) (ts : List Tok) :
    parenToksOf (t :: ts) = parenToksOf ts := by
  cases t <;> simp_all [parenToksOf]

theorem goodSeg_parts {ts : List Tok} (h : goodSeg ts = true) :
    headIs isStarterTok ts = true ∧ lastIs isEnderTok ts = true ∧
    followOK ts = true ∧ balT ts = true := by
  simpa [goodSeg, Bool.and_eq_true, and_assoc] using h

theorem goodSeg_intro {ts : List Tok} (h1 : headIs isStarterTok ts = true)
    (h2 : lastIs isEnderTok ts = true) (h3 : followOK ts = true) (h4 : balT ts = true) :
    goodSeg ts = true := by
  simp [goodSeg, Bool.and_eq_true, h1, h2, h3, h4]

theorem goodSeg_ne_nil {ts : List Tok} (h : goodSeg ts = true) : ts ≠ [] := by
  intro h0
  subst h0
  simp [goodSeg, headIs] at h

theorem goodTail_parts {ts : List Tok} (hne : ts ≠ []) (h : goodTail ts = true) :
    headIs isOpTok ts = true ∧ lastIs isEnderTok ts = true ∧
    followOK ts = true ∧ balT ts = true := by
  unfold goodTail at h
  rw [Bool.or_eq_true] at h
  rcases h with h | h
  · exact absurd (List.isEmpty_iff.mp h) hne
  · simpa [Bool.and_eq_true, and_assoc] using h

theorem goodSeg_append_tail {xs ys : List Tok} (hx : goodSeg xs = true)
    (hy : goodTail ys = true) : goodSeg (xs ++ ys) = true := by
  obtain ⟨h1, h2, h3, h4⟩ := goodSeg_parts hx
  by_cases hys : ys = []
  · subst hys
    simpa using hx
  · obtain ⟨g1, g2, g3, g4⟩ := goodTail_parts hys hy
    refine goodSeg_intro ?_ ?_ ?_ ?_
    · rw [headIs_append ys (goodSeg_ne_nil hx)]
      exact h1
    · rw [lastIs_append_right xs hys]
      exact g2
    · refine followOK_append xs h3 ys g3 ?_
      intro a ha hop
      have := lastIs_spec h2 ha
      rw [isEnderTok_not_op this] at hop
      cases hop
    · exact balT_append h4 g4

theorem goodTail_cons_op {op : Tok} {ds : List Tok} (hop : isOpTok op = true)
    (hnp : op ≠ .lparen ∧ op ≠ .rparen) (hds : goodSeg ds = true) :
    goodTail (op :: ds) = true := by
  obtain ⟨h1, h2, h3, h4⟩ := goodSeg_parts hds
  unfold goodTail
  rw [Bool.or_eq_true]
  right
  simp only [Bool.and_eq_true, and_assoc]
  refine ⟨by simp [headIs, hop], ?_, ?_, ?_⟩
  · rw [lastIs_cons op (goodSeg_ne_nil hds)]
    exact h2
  · exact followOK_cons (Or.inr h1) h3
  · unfold balT
    rw [parenToksOf_cons_nonparen hnp]
    exact h4

theorem goodSeg_cons_sign {s : Tok} (hs : s = .plus ∨ s = .minus) {ds : List Tok}
    (hds : goodSeg ds = true) : goodSeg (s :: ds) = true := by
  obtain ⟨h1, h2, h3, h4⟩ := goodSeg_parts hds
  refine goodSeg_intro ?_ ?_ ?_ ?_
  · rcases hs with rfl | rfl <;> simp [headIs, isStarterTok]
  · rw [lastIs_cons s (goodSeg_ne_nil hds)]
    exact h2
  · exact followOK_cons (Or.inr h1) h3
  · unfold balT
    rw [parenToksOf_cons_nonparen (by rcases hs with rfl | rfl <;> simp)]
    exact h4

theorem goodSeg_paren {inner : List Tok} (h : goodSeg inner = true) :
    goodSeg (.lparen :: inner ++ [.rparen]) = true := by
  obtain ⟨h1, h2, h3, h4⟩ := goodSeg_parts h
  refine goodSeg_intro ?_ ?_ ?_ ?_
  · simp [headIs, isStarterTok]
  · rw [show (Tok.lparen :: inner ++ [Tok.rparen] : List Tok) =
        Tok.lparen :: (inner ++ [Tok.rparen]) from rfl,
      lastIs_cons _ (by simp), lastIs_append_right inner (by simp)]
    rfl
  · rw [show (Tok.lparen :: inner ++ [Tok.rparen] : List Tok) =
        Tok.lparen :: (inner ++ [Tok.rparen]) from rfl]
    refine followOK_cons (Or.inl rfl) ?_
    refine followOK_append inner h3 [Tok.rparen] rfl ?_
    intro a ha hop
    have := lastIs_spec h2 ha
    rw [isEnderTok_not_op this] at hop
    cases hop
  · unfold balT
    rw [show (Tok.lparen :: inner ++ [Tok.rparen] : List Tok) =
        Tok.lparen :: (inner ++ [Tok.rparen]) from rfl]
    have hp : parenToksOf (Tok.lparen :: (inner ++ [Tok.rparen])) =
        '(' :: (parenToksOf inner ++ [')']) := by
      simp [parenToksOf]
    rw [hp]
    show balP 1 (parenToksOf inner ++ [')']) = true
    exact balP_wrap _ 0 h4

theorem option_bind_some {α β : Type} {x : Option α} {f : α → Option β} {b : β}
    (h : (x >>= f) = some b) : ∃ a, x = some a ∧ f a = some b := by
  cases x with
  | none => exact absurd h (by intro hh; cases hh)
  | some a => exact ⟨a, rfl, h⟩

theorem except_bind_ok {ε α β : Type} {x : Except ε α} {f : α → Except ε β} {b : β}
    (h : (x >>= f) = .ok b) : ∃ a, x = .ok a ∧ f a = .ok b := by
  cases x with
  | error e => exact absurd h (by intro hh; cases hh)
  | ok a => exact ⟨a, rfl, h⟩

theorem hasBOp_bin_left {op o : BOp} {l r : PyExpr} (h : hasBOp op l = true) :
    hasBOp op (.bin o l r) = true := by
  simp [hasBOp, h]

theorem hasBOp_bin_right {op o : BOp} {l r : PyExpr} (h : hasBOp op r = true) :
    hasBOp op (.bin o l r) = true := by
  simp [hasBOp, h]

theorem evalNode_ok_no_disallowed :
    ∀ t : PyExpr, ∀ v, evalNode t = .ok v → ∀ op, allowedB op = false →
      hasBOp op t = false := by
  intro t
  induction t with
  | num q => intro v _ op _; rfl
  | unary u e ih =>
    intro v hv op hop
    simp only [evalNode] at hv
    obtain ⟨a, he, _⟩ := except_bind_ok hv
    simpa [hasBOp] using ih a he op hop
  | bin o l r ihl ihr =>
    intro v hv op hop
    simp only [evalNode] at hv
    by_cases hall : allowedB o = true
    · rw [if_pos hall] at hv
      obtain ⟨a, hl, hv2⟩ := except_bind_ok hv
      obtain ⟨b, hr, _⟩ := except_bind_ok hv2
      have hne : o ≠ op := by
        intro heq
        rw [heq, hop] at hall
        cases hall
      simp [hasBOp, hne, ihl a hl op hop, ihr b hr op hop]
    · rw [if_neg hall] at hv
      cases hv

/-- Every successful `pyParse` consumes a well-shaped token segment: operand
modes consume a `goodSeg`, tail modes a `goodTail`; a consumed `//` token
always surfaces as a `floorDiv` operator in the produced tree. -/
theorem pyParse_shape :
    ∀ (n : Nat) (m : PMode) (ts : List Tok) (e : PyExpr) (rest : List Tok),
      pyParse n m ts = some (e, rest) →
      ∃ cs : List Tok, ts = cs ++ rest ∧
        ((m = .xor ∨ m = .arith ∨ m = .term ∨ m = .factor ∨ m = .atom) →
          goodSeg cs = true ∧ (Tok.dslash ∈ cs → hasBOp .floorDiv e = true)) ∧
        (∀ a : PyExpr, (m = .xorTail a ∨ m = .arithTail a ∨ m = .termTail a) →
          goodTail cs = true ∧
          (hasBOp .floorDiv a = true → hasBOp .floorDiv e = true) ∧
          (Tok.dslash ∈ cs → hasBOp .floorDiv e = true)) := by
  intro n
  induction n using Nat.strong_induction_on with
  | _ n ih =>
    intro m ts e rest h
    rw [pyParse.eq_def] at h
    split at h
    · exact Option.noConfusion h
    · obtain ⟨p, h1, h2⟩ := option_bind_some h
      obtain ⟨a, ts1⟩ := p
      obtain ⟨cs₁, rfl, hop1, -⟩ := ih _ (by omega) _ _ _ _ h1
      obtain ⟨cs₂, rfl, -, htl2⟩ := ih _ (by omega) _ _ _ _ h2
      have hseg1 := hop1 (Or.inr (Or.inl rfl))
      have htail2 := htl2 a (Or.inl rfl)
      refine ⟨cs₁ ++ cs₂, by simp, ?_, ?_⟩
      · intro _
        refine ⟨goodSeg_append_tail hseg1.1 htail2.1, ?_⟩
        intro hmem
        rcases List.mem_append.mp hmem with hm | hm
        · exact htail2.2.1 (hseg1.2 hm)
        · exact htail2.2.2 hm
      · rintro a' h'
        rcases h' with h' | h' | h' <;> exact PMode.noConfusion h'
    · obtain ⟨p, h1, h2⟩ := option_bind_some h
      obtain ⟨b, ts1⟩ := p
      obtain ⟨cs₁, rfl, hop1, -⟩ := ih _ (by omega) _ _ _ _ h1
      obtain ⟨cs₂, rfl, -, htl2⟩ := ih _ (by omega) _ _ _ _ h2
      have hseg1 := hop1 (Or.inr (Or.inl rfl))
      have htail2 := htl2 (.bin .bitXor _ b) (Or.inl rfl)
      refine ⟨.caret :: cs₁ ++ cs₂, by simp, ?_, ?_⟩
      · intro h'
        rcases h' with h' | h' | h' | h' | h' <;> exact PMode.noConfusion h'
      · rintro a' h'
        rcases h' with h' | h' | h'
        · injection h' with ha
          subst ha
          refine ⟨goodTail_cons_op rfl (by decide) (goodSeg_append_tail hseg1.1 htail2.1),
            ?_, ?_⟩
          · intro hfa
            exact htail2.2.1 (hasBOp_bin_left hfa)
          · intro hmem
            rcases List.mem_cons.mp hmem with hm | hm
            · exact Tok.noConfusion hm
            rcases List.mem_append.mp hm with hm | hm
            · exact htail2.2.1 (hasBOp_bin_right (hseg1.2 hm))
            · exact htail2.2.2 hm
        · exact PMode.noConfusion h'
        · exact PMode.noConfusion h'
    · injection h with h'
      rw [Prod.mk.injEq] at h'
      obtain ⟨rfl, rfl⟩ := h'
      refine ⟨[], rfl, ?_, ?_⟩
      · intro h'
        rcases h' with h' | h' | h' | h' | h' <;> exact PMode.noConfusion h'
      · rintro a' h'
        rcases h' with h' | h' | h'
        · injection h' with ha
          subst ha
          exact ⟨rfl, id, fun hmem => absurd hmem (by simp)⟩
        · exact PMode.noConfusion h'
        · exact PMode.noConfusion h'
    · obtain ⟨p, h1, h2⟩ := option_bind_some h
      obtain ⟨a, ts1⟩ := p
      obtain ⟨cs₁, rfl, hop1, -⟩ := ih _ (by omega) _ _ _ _ h1
      obtain ⟨cs₂, rfl, -, htl2⟩ := ih _ (by omega) _ _ _ _ h2
      have hseg1 := hop1 (Or.inr (Or.inr (Or.inl rfl)))
      have htail2 := htl2 a (Or.inr (Or.inl rfl))
      refine ⟨cs₁ ++ cs₂, by simp, ?_, ?_⟩
      · intro _
        refine ⟨goodSeg_append_tail hseg1.1 htail2.1, ?_⟩
        intro hmem
        rcases List.mem_append.mp hmem with hm | hm
        · exact htail2.2.1 (hseg1.2 hm)
        · exact htail2.2.2 hm
      · rintro a' h'
        rcases h' with h' | h' | h' <;> exact PMode.noConfusion h'
    · obtain ⟨p, h1, h2⟩ := option_bind_some h
      obtain ⟨b, ts1⟩ := p
      obtain ⟨cs₁, rfl, hop1, -⟩ := ih _ (by omega) _ _ _ _ h1
      obtain ⟨cs₂, rfl, -, htl2⟩ := ih _ (by omega) _ _ _ _ h2
      have hseg1 := hop1 (Or.inr (Or.inr (Or.inl rfl)))
      have htail2 := htl2 (.bin .add _ b) (Or.inr (Or.inl rfl))
      refine ⟨.plus :: cs₁ ++ cs₂, by simp, ?_, ?_⟩
      · intro h'
        rcases h' with h' | h' | h' | h' | h' <;> exact PMode.noConfusion h'
      · rintro a' h'
        rcases h' with h' | h' | h'
        · exact PMode.noConfusion h'
        · injection h' with ha
          subst ha
          refine ⟨goodTail_cons_op rfl (by decide) (goodSeg_append_tail hseg1.1 htail2.1),
            ?_, ?_⟩
          · intro hfa
            exact htail2.2.1 (hasBOp_bin_left hfa)
          · intro hmem
            rcases List.mem_cons.mp hmem with hm | hm
            · exact Tok.noConfusion hm
            rcases List.mem_append.mp hm with hm | hm
            · exact htail2.2.1 (hasBOp_bin_right (hseg1.2 hm))
            · exact htail2.2.2 hm
        · exact PMode.noConfusion h'
    · obtain ⟨p, h1, h2⟩ := option_bind_some h
      obtain ⟨b, ts1⟩ := p
      obtain ⟨cs₁, rfl, hop1, -⟩ := ih _ (by omega) _ _ _ _ h1
      obtain ⟨cs₂, rfl, -, htl2⟩ := ih _ (by omega) _ _ _ _ h2
      have hseg1 := hop1 (Or.inr (Or.inr (Or.inl rfl)))
      have htail2 := htl2 (.bin .sub _ b) (Or.inr (Or.inl rfl))
      refine ⟨.minus :: cs₁ ++ cs₂, by simp, ?_, ?_⟩
      · intro h'
        rcases h' with h' | h' | h' | h' | h' <;> exact PMode.noConfusion h'
      · rintro a' h'
        rcases h' with h' | h' | h'
        · exact PMode.noConfusion h'
        · injection h' with ha
          subst ha
          refine ⟨goodTail_cons_op rfl (by decide) (goodSeg_append_tail hseg1.1 htail2.1),
            ?_, ?_⟩
          · intro hfa
            exact htail2.2.1 (hasBOp_bin_left hfa)
          · intro hmem
            rcases List.mem_cons.mp hmem with hm | hm
            · exact Tok.noConfusion hm
            rcases List.mem_append.mp hm with hm | hm
            · exact htail2.2.1 (hasBOp_bin_right (hseg1.2 hm))
            · exact htail2.2.2 hm
        · exact PMode.noConfusion h'
    · injection h with h'
      rw [Prod.mk.injEq] at h'
      obtain ⟨rfl, rfl⟩ := h'
      refine ⟨[], rfl, ?_, ?_⟩
      · intro h'
        rcases h' with h' | h' | h' | h' | h' <;> exact PMode.noConfusion h'
      · rintro a' h'
        rcases h' with h' | h' | h'
        · exact PMode.noConfusion h'
        · injection h' with ha
          subst ha
          exact ⟨rfl, id, fun hmem => absurd hmem (by simp)⟩
        · exact PMode.noConfusion h'
    · obtain ⟨p, h1, h2⟩ := option_bind_some h
      obtain ⟨a, ts1⟩ := p
      obtain ⟨cs₁, rfl, hop1, -⟩ := ih _ (by omega) _ _ _ _ h1
      obtain ⟨cs₂, rfl, -, htl2⟩ := ih _ (by omega) _ _ _ _ h2
      have hseg1 := hop1 (Or.inr (Or.inr (Or.inr (Or.inl rfl))))
      have htail2 := htl2 a (Or.inr (Or.inr rfl))
      refine ⟨cs₁ ++ cs₂, by simp, ?_, ?_⟩
      · intro _
        refine ⟨goodSeg_append_tail hseg1.1 htail2.1, ?_⟩
        intro hmem
        rcases List.mem_append.mp hmem with hm | hm
        · exact htail2.2.1 (hseg1.2 hm)
        · exact htail2.2.2 hm
      · rintro a' h'
        rcases h' with h' | h' | h' <;> exact PMode.noConfusion h'
    · obtain ⟨p, h1, h2⟩ := option_bind_some h
      obtain ⟨b, ts1⟩ := p
      obtain ⟨cs₁, rfl, hop1, -⟩ := ih _ (by omega) _ _ _ _ h1
      obtain ⟨cs₂, rfl, -, htl2⟩ := ih _ (by omega) _ _ _ _ h2
      have hseg1 := hop1 (Or.inr (Or.inr (Or.inr (Or.inl rfl))))
      have htail2 := htl2 (.bin .mult _ b) (Or.inr (Or.inr rfl))
      refine ⟨.star :: cs₁ ++ cs₂, by simp, ?_, ?_⟩
      · intro h'
        rcases h' with h' | h' | h' | h' | h' <;> exact PMode.noConfusion h'
      · rintro a' h'
        rcases h' with h' | h' | h'
        · exact PMode.noConfusion h'
        · exact PMode.noConfusion h'
        · injection h' with ha
          subst ha
          refine ⟨goodTail_cons_op rfl (by decide) (goodSeg_append_tail hseg1.1 htail2.1),
            ?_, ?_⟩
          · intro hfa
            exact htail2.2.1 (hasBOp_bin_left hfa)
          · intro hmem
            rcases List.mem_cons.mp hmem with hm | hm
            · exact Tok.noConfusion hm
            rcases List.mem_append.mp hm with hm | hm
            · exact htail2.2.1 (hasBOp_bin_right (hseg1.2 hm))
            · exact htail2.2.2 hm
    · obtain ⟨p, h1, h2⟩ := option_bind_some h
      obtain ⟨b, ts1⟩ := p
      obtain ⟨cs₁, rfl, hop1, -⟩ := ih _ (by omega) _ _ _ _ h1
      obtain ⟨cs₂, rfl, -, htl2⟩ := ih _ (by omega) _ _ _ _ h2
      have hseg1 := hop1 (Or.inr (Or.inr (Or.inr (Or.inl rfl))))
      have htail2 := htl2 (.bin .div _ b) (Or.inr (Or.inr rfl))
      refine ⟨.slash :: cs₁ ++ cs₂, by simp, ?_, ?_⟩
      · intro h'
        rcases h' with h' | h' | h' | h' | h' <;> exact PMode.noConfusion h'
      · rintro a' h'
        rcases h' with h' | h' | h'
        · exact PMode.noConfusion h'
        · exact PMode.noConfusion h'
        · injection h' with ha
          subst ha
          refine ⟨goodTail_cons_op rfl (by decide) (goodSeg_append_tail hseg1.1 htail2.1),
            ?_, ?_⟩
          · intro hfa
            exact htail2.2.1 (hasBOp_bin_left hfa)
          · intro hmem
            rcases List.mem_cons.mp hmem with hm | hm
            · exact Tok.noConfusion hm
            rcases List.mem_append.mp hm with hm | hm
            · exact htail2.2.1 (hasBOp_bin_right (hseg1.2 hm))
            · exact htail2.2.2 hm
    · obtain ⟨p, h1, h2⟩ := option_bind_some h
      obtain ⟨b, ts1⟩ := p
      obtain ⟨cs₁, rfl, hop1, -⟩ := ih _ (by omega) _ _ _ _ h1
      obtain ⟨cs₂, rfl, -, htl2⟩ := ih _ (by omega) _ _ _ _ h2
      have hseg1 := hop1 (Or.inr (Or.inr (Or.inr (Or.inl rfl))))
      have htail2 := htl2 (.bin .floorDiv _ b) (Or.inr (Or.inr rfl))
      have hfd : hasBOp .floorDiv e = true := htail2.2.1 (by simp [hasBOp])
      refine ⟨.dslash :: cs₁ ++ cs₂, by simp, ?_, ?_⟩
      · intro h'
        rcases h' with h' | h' | h' | h' | h' <;> exact PMode.noConfusion h'
      · rintro a' h'
        rcases h' with h' | h' | h'
        · exact PMode.noConfusion h'
        · exact PMode.noConfusion h'
        · injection h' with ha
          subst ha
          exact ⟨goodTail_cons_op rfl (by decide) (goodSeg_append_tail hseg1.1 htail2.1),
            fun _ => hfd, fun _ => hfd⟩
    · injection h with h'
      rw [Prod.mk.injEq] at h'
      obtain ⟨rfl, rfl⟩ := h'
      refine ⟨[], rfl, ?_, ?_⟩
      · intro h'
        rcases h' with h' | h' | h' | h' | h' <;> exact PMode.noConfusion h'
      · rintro a' h'
        rcases h' with h' | h' | h'
        · exact PMode.noConfusion h'
        · exact PMode.noConfusion h'
        · injection h' with ha
          subst ha
          exact ⟨rfl, id, fun hmem => absurd hmem (by simp)⟩
    · obtain ⟨p, h1, h2⟩ := option_bind_some h
      obtain ⟨e₀, ts1⟩ := p
      obtain ⟨cs₁, rfl, hop1, -⟩ := ih _ (by omega) _ _ _ _ h1
      injection h2 with h2
      rw [Prod.mk.injEq] at h2
      obtain ⟨rfl, rfl⟩ := h2
      have hseg1 := hop1 (Or.inr (Or.inr (Or.inr (Or.inl rfl))))
      refine ⟨.plus :: cs₁, rfl, ?_, ?_⟩
      · intro _
        refine ⟨goodSeg_cons_sign (Or.inl rfl) hseg1.1, ?_⟩
        intro hmem
        rcases List.mem_cons.mp hmem with hm | hm
        · exact Tok.noConfusion hm
        · simpa [hasBOp] using hseg1.2 hm
      · rintro a' h'
        rcases h' with h' | h' | h' <;> exact PMode.noConfusion h'
    · obtain ⟨p, h1, h2⟩ := option_bind_some h
      obtain ⟨e₀, ts1⟩ := p
      obtain ⟨cs₁, rfl, hop1, -⟩ := ih _ (by omega) _ _ _ _ h1
      injection h2 with h2
      rw [Prod.mk.injEq] at h2
      obtain ⟨rfl, rfl⟩ := h2
      have hseg1 := hop1 (Or.inr (Or.inr (Or.inr (Or.inl rfl))))
      refine ⟨.minus :: cs₁, rfl, ?_, ?_⟩
      · intro _
        refine ⟨goodSeg_cons_sign (Or.inr rfl) hseg1.1, ?_⟩
        intro hmem
        rcases List.mem_cons.mp hmem with hm | hm
        · exact Tok.noConfusion hm
        · simpa [hasBOp] using hseg1.2 hm
      · rintro a' h'
        rcases h' with h' | h' | h' <;> exact PMode.noConfusion h'
    · obtain ⟨p, h1, h2⟩ := option_bind_some h
      obtain ⟨a, ts1⟩ := p
      obtain ⟨cs₁, rfl, hop1, -⟩ := ih _ (by omega) _ _ _ _ h1
      have hseg1 := hop1 (Or.inr (Or.inr (Or.inr (Or.inr rfl))))
      rcases ts1 with _ | ⟨t, ts2⟩
      case nil =>
        injection h2 with h2
        rw [Prod.mk.injEq] at h2
        obtain ⟨rfl, rfl⟩ := h2
        refine ⟨cs₁, rfl, ?_, ?_⟩
        · intro _
          exact hseg1
        · rintro a' h'
          rcases h' with h' | h' | h' <;> exact PMode.noConfusion h'
      case cons =>
        cases t
        case dstar =>
          obtain ⟨p2, h3, h4⟩ := option_bind_some h2
          obtain ⟨f, ts3⟩ := p2
          obtain ⟨cs₂, rfl, hop2, -⟩ := ih _ (by omega) _ _ _ _ h3
          injection h4 with h4
          rw [Prod.mk.injEq] at h4
          obtain ⟨rfl, rfl⟩ := h4
          have hseg2 := hop2 (Or.inr (Or.inr (Or.inr (Or.inl rfl))))
          refine ⟨cs₁ ++ .dstar :: cs₂, by simp, ?_, ?_⟩
          · intro _
            refine ⟨goodSeg_append_tail hseg1.1 (goodTail_cons_op rfl (by decide) hseg2.1), ?_⟩
            intro hmem
            rcases List.mem_append.mp hmem with hm | hm
            · exact hasBOp_bin_left (hseg1.2 hm)
            rcases List.mem_cons.mp hm with hm | hm
            · exact Tok.noConfusion hm
            · exact hasBOp_bin_right (hseg2.2 hm)
          · rintro a' h'
            rcases h' with h' | h' | h' <;> exact PMode.noConfusion h'
        all_goals
          injection h2 with h2
          rw [Prod.mk.injEq] at h2
          obtain ⟨rfl, rfl⟩ := h2
          refine ⟨cs₁, rfl, ?_, ?_⟩
          · intro _
            exact hseg1
          · rintro a' h'
            rcases h' with h' | h' | h' <;> exact PMode.noConfusion h'
    · injection h with h'
      rw [Prod.mk.injEq] at h'
      obtain ⟨rfl, rfl⟩ := h'
      refine ⟨[.num _], rfl, ?_, ?_⟩
      · intro _
        refine ⟨rfl, ?_⟩
        intro hmem
        rcases List.mem_cons.mp hmem with hm | hm
        · exact Tok.noConfusion hm
        · exact absurd hm (by simp)
      · rintro a' h'
        rcases h' with h' | h' | h' <;> exact PMode.noConfusion h'
    · obtain ⟨p, h1, h2⟩ := option_bind_some h
      obtain ⟨e₀, ts1⟩ := p
      obtain ⟨cs₁, rfl, hop1, -⟩ := ih _ (by omega) _ _ _ _ h1
      have hseg1 := hop1 (Or.inl rfl)
      rcases ts1 with _ | ⟨t, ts2⟩
      case nil => exact Option.noConfusion h2
      case cons =>
        cases t
        case rparen =>
          injection h2 with h2
          rw [Prod.mk.injEq] at h2
          obtain ⟨rfl, rfl⟩ := h2
          refine ⟨.lparen :: cs₁ ++ [.rparen], by simp, ?_, ?_⟩
          · intro _
            refine ⟨goodSeg_paren hseg1.1, ?_⟩
            intro hmem
            rcases List.mem_cons.mp hmem with hm | hm
            · exact Tok.noConfusion hm
            rcases List.mem_append.mp hm with hm | hm
            · exact hseg1.2 hm
            rcases List.mem_cons.mp hm with hm | hm
            · exact Tok.noConfusion hm
            · exact absurd hm (by simp)
          · rintro a' h'
            rcases h' with h' | h' | h' <;> exact PMode.noConfusion h'
        all_goals exact Option.noConfusion h2
    · exact Option.noConfusion h

theorem numLex_shape : ∀ (c : Char) (cs : List Char) (q : Q) (rest : List Char),
    (c.isDigit || c = '.') = true → numLex (c :: cs) = some (q, rest) →
    ∃ pc, c :: cs = pc ++ rest ∧ pc ≠ [] ∧
      ∀ ch ∈ pc, ch.isDigit = true ∨ ch = '.' := by
  intro c cs q rest hc h
  unfold numLex at h
  dsimp only at h
  split at h
  · rename_i hdot
    split at h
    · exact Option.noConfusion h
    · injection h with h'
      rw [Prod.mk.injEq] at h'
      obtain ⟨-, rfl⟩ := h'
      have hr1 : ∃ t, (c :: cs).dropWhile Char.isDigit = '.' :: t := by
        cases hcase : (c :: cs).dropWhile Char.isDigit with
        | nil => rw [hcase] at hdot; exact Option.noConfusion hdot
        | cons x t =>
          rw [hcase] at hdot
          injection hdot with hx
          exact ⟨t, by rw [hx]⟩
      obtain ⟨t, ht⟩ := hr1
      refine ⟨(c :: cs).takeWhile Char.isDigit ++ '.' ::
        ((c :: cs).dropWhile Char.isDigit).tail.takeWhile Char.isDigit, ?_, by simp, ?_⟩
      · conv_lhs => rw [← List.takeWhile_append_dropWhile Char.isDigit (c :: cs)]
        rw [ht]
        simp [List.takeWhile_append_dropWhile]
      · intro ch hch
        rcases List.mem_append.mp hch with hm | hm
        · exact Or.inl (List.mem_takeWhile_imp hm)
        rcases List.mem_cons.mp hm with hm | hm
        · exact Or.inr hm
        · exact Or.inl (List.mem_takeWhile_imp hm)
  · rename_i hdot
    split at h
    · exact Option.noConfusion h
    · injection h with h'
      rw [Prod.mk.injEq] at h'
      obtain ⟨-, rfl⟩ := h'
      refine ⟨(c :: cs).takeWhile Char.isDigit,
        (List.takeWhile_append_dropWhile Char.isDigit (c :: cs)).symm, ?_, ?_⟩
      · intro hnil
        have hcd : c.isDigit = false := by
          by_contra hcd'
          rw [Bool.not_eq_false] at hcd'
          rw [List.takeWhile_cons_of_pos hcd'] at hnil
          exact List.noConfusion hnil
        have hcdot : c = '.' := by
          rw [Bool.or_eq_true] at hc
          rcases hc with h1 | h1
          · rw [hcd] at h1; exact Bool.noConfusion h1
          · exact of_decide_eq_true h1
        rw [List.dropWhile_cons_of_neg (by rw [hcd]; exact Bool.false_ne_true), hcdot] at hdot
        exact hdot rfl
      · intro ch hch
        exact Or.inl (List.mem_takeWhile_imp hch)

set_option maxHeartbeats 1600000 in
/-- A successful run of the lexer decomposes the input into skipped
whitespace and token lexemes. -/
theorem lex_decomp : ∀ (n : Nat) (mode : LexMode) (cs : List Char) (ts : List Tok),
    lex n mode cs = some ts → Decomp cs ts := by
  intro n
  induction n using Nat.strong_induction_on with
  | _ n ih =>
    intro mode cs ts h
    rw [lex.eq_def] at h
    split at h
    · exact Option.noConfusion h
    · split at h
      · exact Option.noConfusion h
      · injection h with h'
        subst h'
        exact Decomp.nil
    · exact Decomp.skip _ _ _ (by decide) (ih _ (by omega) _ _ _ h)
    · exact Decomp.skip _ _ _ (by decide) (ih _ (by omega) _ _ _ h)
    · exact Decomp.skip _ _ _ (by decide) (ih _ (by omega) _ _ _ h)
    · exact Decomp.skip _ _ _ (by decide) (ih _ (by omega) _ _ _ h)
    · exact Decomp.skip _ _ _ (by decide)
        (Decomp.skip _ _ _ (by decide) (ih _ (by omega) _ _ _ h))
    · exact Decomp.skip _ _ _ (by decide) (ih _ (by omega) _ _ _ h)
    · split at h
      · exact Option.noConfusion h
      · exact ih _ (by omega) _ _ _ h
    · injection h with h'
      subst h'
      exact Decomp.nil
    · exact Decomp.skip _ _ _ (by decide) (ih _ (by omega) _ _ _ h)
    · exact Decomp.skip _ _ _ (by decide) (ih _ (by omega) _ _ _ h)
    · exact Decomp.skip _ _ _ (by decide) (ih _ (by omega) _ _ _ h)
    · split at h
      · obtain ⟨ts', h1, h2⟩ := option_bind_some h
        injection h2 with h2
        subst h2
        exact Decomp.tok _ ['\n'] _ _ LexOf.nl1 (ih _ (by omega) _ _ _ h1)
      · exact Decomp.skip _ _ _ (by decide) (ih _ (by omega) _ _ _ h)
    · split at h
      · obtain ⟨ts', h1, h2⟩ := option_bind_some h
        injection h2 with h2
        subst h2
        exact Decomp.tok _ ['\r', '\n'] _ _ LexOf.nl3 (ih _ (by omega) _ _ _ h1)
      · exact Decomp.skip _ _ _ (by decide)
          (Decomp.skip _ _ _ (by decide) (ih _ (by omega) _ _ _ h))
    · split at h
      · obtain ⟨ts', h1, h2⟩ := option_bind_some h
        injection h2 with h2
        subst h2
        exact Decomp.tok _ ['\r'] _ _ LexOf.nl2 (ih _ (by omega) _ _ _ h1)
      · exact Decomp.skip _ _ _ (by decide) (ih _ (by omega) _ _ _ h)
    · obtain ⟨ts', h1, h2⟩ := option_bind_some h
      injection h2 with h2
      subst h2
      exact Decomp.tok _ ['('] _ _ LexOf.lparen (ih _ (by omega) _ _ _ h1)
    · obtain ⟨ts', h1, h2⟩ := option_bind_some h
      injection h2 with h2
      subst h2
      exact Decomp.tok _ [')'] _ _ LexOf.rparen (ih _ (by omega) _ _ _ h1)
    · obtain ⟨ts', h1, h2⟩ := option_bind_some h
      injection h2 with h2
      subst h2
      exact Decomp.tok _ ['+'] _ _ LexOf.plus (ih _ (by omega) _ _ _ h1)
    · obtain ⟨ts', h1, h2⟩ := option_bind_some h
      injection h2 with h2
      subst h2
      exact Decomp.tok _ ['-'] _ _ LexOf.minus (ih _ (by omega) _ _ _ h1)
    · obtain ⟨ts', h1, h2⟩ := option_bind_some h
      injection h2 with h2
      subst h2
      exact Decomp.tok _ ['^'] _ _ LexOf.caret (ih _ (by omega) _ _ _ h1)
    · obtain ⟨ts', h1, h2⟩ := option_bind_some h
      injection h2 with h2
      subst h2
      exact Decomp.tok _ ['*', '*'] _ _ LexOf.dstar (ih _ (by omega) _ _ _ h1)
    · obtain ⟨ts', h1, h2⟩ := option_bind_some h
      injection h2 with h2
      subst h2
      exact Decomp.tok _ ['*'] _ _ LexOf.star (ih _ (by omega) _ _ _ h1)
    · obtain ⟨ts', h1, h2⟩ := option_bind_some h
      injection h2 with h2
      subst h2
      exact Decomp.tok _ ['/', '/'] _ _ LexOf.dslash (ih _ (by omega) _ _ _ h1)
    · obtain ⟨ts', h1, h2⟩ := option_bind_some h
      injection h2 with h2
      subst h2
      exact Decomp.tok _ ['/'] _ _ LexOf.slash (ih _ (by omega) _ _ _ h1)
    · split at h
      · rename_i hc
        obtain ⟨p, h1, h2⟩ := option_bind_some h
        obtain ⟨q, rest⟩ := p
        obtain ⟨ts', h3, h4⟩ := option_bind_some h2
        injection h4 with h4
        subst h4
        obtain ⟨pc, hl, hne, hch⟩ := numLex_shape _ _ _ _ hc h1
        rw [hl]
        exact Decomp.tok _ pc _ _ (LexOf.num q pc hne hch) (ih _ (by omega) _ _ _ h3)
      · exact Option.noConfusion h

theorem ws_not_op {c : Char} (h : isWsChar c = true) : isOpChar c = false := by
  unfold isWsChar at h
  simp only [Bool.or_eq_true, decide_eq_true_eq] at h
  rcases h with ((((rfl | rfl) | rfl) | rfl) | rfl) | rfl <;> decide

theorem digit_dot_not_op {c : Char} (h : c.isDigit = true ∨ c = '.') : isOpChar c = false := by
  by_contra hop
  rw [Bool.not_eq_false] at hop
  unfold isOpChar at hop
  simp only [Bool.or_eq_true, decide_eq_true_eq] at hop
  rcases h with h | rfl
  · rcases hop with (((rfl | rfl) | rfl) | rfl) | rfl <;> exact absurd h (by decide)
  · rcases hop with (((h' | h') | h') | h') | h' <;> exact absurd h' (by decide)

theorem ws_not_paren {c : Char} (h : isWsChar c = true) : (c = '(' || c = ')') = false := by
  unfold isWsChar at h
  simp only [Bool.or_eq_true, decide_eq_true_eq] at h
  rcases h with ((((rfl | rfl) | rfl) | rfl) | rfl) | rfl <;> decide

theorem digit_dot_not_paren {c : Char} (h : c.isDigit = true ∨ c = '.') :
    (c = '(' || c = ')') = false := by
  by_contra hp
  rw [Bool.not_eq_false, Bool.or_eq_true] at hp
  simp only [decide_eq_true_eq] at hp
  rcases h with h | rfl
  · rcases hp with rfl | rfl <;> exact absurd h (by decide)
  · rcases hp with h' | h' <;> exact absurd h' (by decide)

theorem digit_not_alpha {c : Char} (h1 : c.isDigit = true) (h2 : c.isAlpha = true) : False := by
  simp [Char.isDigit, Char.isAlpha, Char.isUpper, Char.isLower, Char.le_def,
    UInt32.le_def, BitVec.le_def] at h1 h2
  omega

theorem alpha_not_mathre {c : Char} (ha : c.isAlpha = true) : isMathReChar c = false := by
  by_contra hm
  rw [Bool.not_eq_false] at hm
  unfold isMathReChar at hm
  rw [Bool.or_eq_true, Bool.or_eq_true, Bool.or_eq_true, Bool.or_eq_true,
    Bool.or_eq_true] at hm
  rcases hm with ((((hd | hop) | hlp) | hrp) | hdot) | hws
  · exact digit_not_alpha hd ha
  · unfold isOpChar at hop
    rw [Bool.or_eq_true, Bool.or_eq_true, Bool.or_eq_true, Bool.or_eq_true] at hop
    rcases hop with (((h | h) | h) | h) | h <;>
      (rw [of_decide_eq_true h] at ha; exact absurd ha (by decide))
  · rw [of_decide_eq_true hlp] at ha
    exact absurd ha (by decide)
  · rw [of_decide_eq_true hrp] at ha
    exact absurd ha (by decide)
  · rw [of_decide_eq_true hdot] at ha
    exact absurd ha (by decide)
  · unfold isWsChar at hws
    rw [Bool.or_eq_true, Bool.or_eq_true, Bool.or_eq_true, Bool.or_eq_true,
      Bool.or_eq_true] at hws
    rcases hws with ((((h | h) | h) | h) | h) | h <;>
      (rw [of_decide_eq_true h] at ha; exact absurd ha (by decide))

theorem letter_not_fullmatch {s : String} (h : containsLetter s = true) :
    mathReFullmatch s = false := by
  unfold containsLetter at h
  rw [List.any_eq_true] at h
  obtain ⟨c, hc, hca⟩ := h
  by_contra hm
  rw [Bool.not_eq_false] at hm
  unfold mathReFullmatch at hm
  rw [Bool.and_eq_true] at hm
  have hall := List.all_eq_true.mp hm.2 c hc
  rw [alpha_not_mathre hca] at hall
  exact Bool.noConfusion hall

theorem decomp_parens : ∀ {cs : List Char} {ts : List Tok}, Decomp cs ts →
    parenSeq cs = parenToksOf ts := by
  intro cs ts hd
  induction hd with
  | nil => rfl
  | skip c cs ts hws _ ihd =>
    unfold parenSeq at ihd ⊢
    rw [List.filter_cons, ws_not_paren hws]
    exact ihd
  | tok t pc cs ts hlex _ ihd =>
    unfold parenSeq at ihd ⊢
    rw [List.filter_append]
    cases hlex with
    | num q pc hne hch =>
      have hf : pc.filter (fun c => c = '(' || c = ')') = [] := by
        rw [List.filter_eq_nil_iff]
        intro a ha
        rw [digit_dot_not_paren (hch a ha)]
        exact Bool.false_ne_true
      rw [hf]
      simpa [parenToksOf] using ihd
    | lparen => simpa [parenToksOf] using ihd
    | rparen => simpa [parenToksOf] using ihd
    | plus => simpa [parenToksOf] using ihd
    | minus => simpa [parenToksOf] using ihd
    | star => simpa [parenToksOf] using ihd
    | dstar => simpa [parenToksOf] using ihd
    | slash => simpa [parenToksOf] using ihd
    | dslash => simpa [parenToksOf] using ihd
    | caret => simpa [parenToksOf] using ihd
    | nl1 => simpa [parenToksOf] using ihd
    | nl2 => simpa [parenToksOf] using ihd
    | nl3 => simpa [parenToksOf] using ihd

theorem decomp_head_op : ∀ {cs : List Char} {ts : List Tok}, Decomp cs ts →
    ∀ {b : Char} {cs' : List Char}, cs = b :: cs' → isOpChar b = true →
    b ≠ '+' → b ≠ '-' →
    ∃ t₂ ts', ts = t₂ :: ts' ∧ isBadFollow t₂ = true := by
  intro cs ts hd
  induction hd with
  | nil =>
    intro b cs' hcs _ _ _
    exact absurd hcs (by simp)
  | skip c cs ts hws _ _ =>
    intro b cs' hcs hop _ _
    injection hcs with h1 _
    subst h1
    rw [ws_not_op hws] at hop
    exact Bool.noConfusion hop
  | tok t pc cs ts hlex _ _ =>
    intro b cs' hcs hop hbp hbm
    cases hlex with
    | plus =>
      injection hcs with h1 _
      subst h1
      exact absurd rfl hbp
    | minus =>
      injection hcs with h1 _
      subst h1
      exact absurd rfl hbm
    | star => exact ⟨_, _, rfl, rfl⟩
    | dstar => exact ⟨_, _, rfl, rfl⟩
    | slash => exact ⟨_, _, rfl, rfl⟩
    | dslash => exact ⟨_, _, rfl, rfl⟩
    | caret => exact ⟨_, _, rfl, rfl⟩
    | lparen =>
      injection hcs with h1 _
      subst h1
      exact absurd hop (by decide)
    | rparen =>
      injection hcs with h1 _
      subst h1
      exact absurd hop (by decide)
    | nl1 =>
      injection hcs with h1 _
      subst h1
      exact absurd hop (by decide)
    | nl2 =>
      injection hcs with h1 _
      subst h1
      exact absurd hop (by decide)
    | nl3 =>
      injection hcs with h1 _
      subst h1
      exact absurd hop (by decide)
    | num q pc hne hch =>
      cases pc with
      | nil => exact absurd rfl hne
      | cons c0 pc' =>
        injection hcs with h1 _
        subst h1
        rw [digit_dot_not_op (hch _ (by simp))] at hop
        exact Bool.noConfusion hop

theorem hasBadOpPair_append : ∀ (xs ys : List Char), hasBadOpPair (xs ++ ys) = true →
    hasBadOpPair xs = true ∨
    (∃ a b, xs.getLast? = some a ∧ ys.head? = some b ∧ badPairCh a b = true) ∨
    hasBadOpPair ys = true := by
  intro xs
  induction xs with
  | nil =>
    intro ys h
    exact Or.inr (Or.inr h)
  | cons a xs ih =>
    intro ys h
    cases xs with
    | nil =>
      cases ys with
      | nil => exact Bool.noConfusion h
      | cons b ys' =>
        simp only [List.cons_append, List.nil_append, hasBadOpPair] at h
        rw [Bool.or_eq_true] at h
        rcases h with h | h
        · exact Or.inr (Or.inl ⟨a, b, rfl, rfl, h⟩)
        · exact Or.inr (Or.inr h)
    | cons x xs' =>
      simp only [List.cons_append, hasBadOpPair] at h
      rw [Bool.or_eq_true] at h
      rcases h with h | h
      · refine Or.inl ?_
        simp only [hasBadOpPair]
        rw [Bool.or_eq_true]
        exact Or.inl h
      · rcases ih ys h with h' | h' | h'
        · refine Or.inl ?_
          simp only [hasBadOpPair]
          rw [Bool.or_eq_true]
          exact Or.inr h'
        · obtain ⟨p, q', h1, h2, h3⟩ := h'
          refine Or.inr (Or.inl ⟨p, q', ?_, h2, h3⟩)
          rw [List.getLast?_cons_cons]
          exact h1
        · exact Or.inr (Or.inr h')

theorem no_op_no_badPair : ∀ l : List Char, (∀ c ∈ l, isOpChar c = false) →
    hasBadOpPair l = false := by
  intro l
  induction l with
  | nil => intro _; rfl
  | cons a l ih =>
    intro hl
    cases l with
    | nil => rfl
    | cons b l' =>
      simp only [hasBadOpPair]
      have h1 : badPairCh a b = false := by
        unfold badPairCh
        rw [hl a (by simp)]
        rfl
      rw [h1, Bool.false_or]
      exact ih (fun c hc => hl c (List.mem_cons_of_mem a hc))

theorem hasBadAdj_cons {t : Tok} {ts : List Tok} (h : hasBadAdj ts = true) :
    hasBadAdj (t :: ts) = true := by
  cases ts with
  | nil => exact Bool.noConfusion h
  | cons u ts' =>
    simp only [hasBadAdj]
    rw [Bool.or_eq_true]
    exact Or.inr h

theorem hasBadOpPair_cons_of_not_op {c : Char} {cs : List Char} (hns : isOpChar c = false)
    (h : hasBadOpPair (c :: cs) = true) : hasBadOpPair cs = true := by
  cases cs with
  | nil => exact Bool.noConfusion h
  | cons b cs' =>
    simp only [hasBadOpPair] at h
    rw [Bool.or_eq_true] at h
    rcases h with h | h
    · unfold badPairCh at h
      rw [hns] at h
      simp at h
    · exact h

theorem decomp_bad_pair : ∀ {cs : List Char} {ts : List Tok}, Decomp cs ts →
    hasBadOpPair cs = true → Tok.dslash ∈ ts ∨ hasBadAdj ts = true := by
  intro cs ts hd
  induction hd with
  | nil => intro h; exact Bool.noConfusion h
  | skip c cs ts hws _ ihd =>
    intro h
    exact ihd (hasBadOpPair_cons_of_not_op (ws_not_op hws) h)
  | tok t pc cs ts hlex hdec ihd =>
    intro h
    rcases hasBadOpPair_append pc cs h with h' | h' | h'
    · cases hlex with
      | dslash => exact Or.inl (by simp)
      | num q pc hne hch =>
        rw [no_op_no_badPair pc (fun c hc => digit_dot_not_op (hch c hc))] at h'
        exact Bool.noConfusion h'
      | plus => exact absurd h' (by decide)
      | minus => exact absurd h' (by decide)
      | star => exact absurd h' (by decide)
      | dstar => exact absurd h' (by decide)
      | slash => exact absurd h' (by decide)
      | caret => exact absurd h' (by decide)
      | lparen => exact absurd h' (by decide)
      | rparen => exact absurd h' (by decide)
      | nl1 => exact absurd h' (by decide)
      | nl2 => exact absurd h' (by decide)
      | nl3 => exact absurd h' (by decide)
    · obtain ⟨a, b, hlast, hhead, hbad⟩ := h'
      have hparts : isOpChar a = true ∧ isOpChar b = true ∧ b ≠ '+' ∧ b ≠ '-' := by
        unfold badPairCh at hbad
        rw [Bool.and_eq_true, Bool.and_eq_true, Bool.and_eq_true] at hbad
        obtain ⟨⟨⟨ha, hb⟩, hnpm⟩, -⟩ := hbad
        rw [Bool.not_eq_true'] at hnpm
        rw [Bool.or_eq_false_iff] at hnpm
        exact ⟨ha, hb, of_decide_eq_false hnpm.1, of_decide_eq_false hnpm.2⟩
      obtain ⟨ha, hb, hbp, hbm⟩ := hparts
      have hcs : ∃ cs', cs = b :: cs' := by
        cases cs with
        | nil => exact Option.noConfusion hhead
        | cons x cs' =>
          injection hhead with hx
          exact ⟨cs', by rw [hx]⟩
      obtain ⟨cs', hcs'⟩ := hcs
      obtain ⟨t₂, ts'', hts, hbf⟩ := decomp_head_op hdec hcs' hb hbp hbm
      subst hts
      have hopt : isOpTok t = true := by
        cases hlex with
        | plus => rfl
        | minus => rfl
        | star => rfl
        | dstar => rfl
        | slash => rfl
        | dslash => rfl
        | caret => rfl
        | lparen =>
          injection hlast with h1
          subst h1
          exact absurd ha (by decide)
        | rparen =>
          injection hlast with h1
          subst h1
          exact absurd ha (by decide)
        | nl1 =>
          injection hlast with h1
          subst h1
          exact absurd ha (by decide)
        | nl2 =>
          injection hlast with h1
          subst h1
          exact absurd ha (by decide)
        | nl3 =>
          injection hlast with h1
          subst h1
          exact absurd ha (by decide)
        | num q pc hne hch =>
          have hmem : a ∈ pc := by
            obtain ⟨hh, heq⟩ := List.mem_getLast?_eq_getLast hlast
            rw [heq]
            exact List.getLast_mem hh
          rw [digit_dot_not_op (hch a hmem)] at ha
          exact Bool.noConfusion ha
      refine Or.inr ?_
      simp only [hasBadAdj]
      rw [Bool.or_eq_true]
      refine Or.inl ?_
      rw [hopt, hbf]
      rfl
    · rcases ihd h' with hm | hm
      · exact Or.inl (List.mem_cons_of_mem t hm)
      · exact Or.inr (hasBadAdj_cons hm)

theorem parenToksOf_all_newline {ts : List Tok}
    (h : ts.all (fun t => t = .newline) = true) : parenToksOf ts = [] := by
  induction ts with
  | nil => rfl
  | cons t ts ih =>
    rw [List.all_cons, Bool.and_eq_true] at h
    obtain ⟨h1, h2⟩ := h
    have h1' := of_decide_eq_true h1
    subst h1'
    simpa [parenToksOf] using ih h2

theorem followOK_all_newline {ts : List Tok}
    (h : ts.all (fun t => t = .newline) = true) : followOK ts = true := by
  induction ts with
  | nil => rfl
  | cons t ts ih =>
    rw [List.all_cons, Bool.and_eq_true] at h
    obtain ⟨h1, h2⟩ := h
    have h1' := of_decide_eq_true h1
    subst h1'
    cases ts with
    | nil => rfl
    | cons u ts' =>
      simp only [followOK]
      rw [Bool.and_eq_true]
      exact ⟨rfl, ih h2⟩

theorem dslash_not_all_newline {ts : List Tok} (hmem : Tok.dslash ∈ ts)
    (h : ts.all (fun t => t = .newline) = true) : False := by
  have := List.all_eq_true.mp h _ hmem
  exact absurd (of_decide_eq_true this) (by decide)

theorem hasBadAdj_not_followOK : ∀ ts : List Tok, hasBadAdj ts = true →
    followOK ts = true → False := by
  intro ts
  induction ts with
  | nil => intro h _; exact Bool.noConfusion h
  | cons a ts ih =>
    intro hb hf
    cases ts with
    | nil => exact Bool.noConfusion hb
    | cons b ts' =>
      simp only [hasBadAdj] at hb
      simp only [followOK] at hf
      rw [Bool.or_eq_true] at hb
      rw [Bool.and_eq_true] at hf
      rcases hb with hb | hb
      · rw [Bool.and_eq_true] at hb
        obtain ⟨hba, hbb⟩ := hb
        have hf1 := hf.1
        rw [Bool.or_eq_true] at hf1
        rcases hf1 with hf1 | hf1
        · rw [hba] at hf1
          exact Bool.noConfusion hf1
        · rw [isBadFollow_not_starter hbb] at hf1
          exact Bool.noConfusion hf1
      · exact ih hb hf.2

/-- The `factor` nonterminal on a non-sign head token steps to the
atom-power body. -/
theorem pyParse_factor_step {m : Nat} {t : Tok} {ts' : List Tok}
    (hp : t ≠ .plus) (hm : t ≠ .minus) :
    pyParse (m + 1) .factor (t :: ts') = (do
      let (a, ts1) ← pyParse m .atom (t :: ts')
      match ts1 with
      | .dstar :: ts2 => do
        let (f, ts3) ← pyParse m .factor ts2
        pure (.bin .pow a f, ts3)
      | _ => pure (a, ts1)) := by
  cases t
  case plus => exact absurd rfl hp
  case minus => exact absurd rfl hm
  all_goals rfl

set_option maxHeartbeats 1600000 in
/-- `pyParse` is monotone in fuel: a successful parse stays successful (with
the same result) at any larger fuel. -/
theorem pyParse_mono : ∀ n m mode ts r, n ≤ m → pyParse n mode ts = some r →
    pyParse m mode ts = some r := by
  intro n
  induction n using Nat.strong_induction_on with
  | _ n ih =>
    intro m mode ts r hnm h
    cases n with
    | zero => exact Option.noConfusion h
    | succ n' =>
      cases m with
      | zero => omega
      | succ m' =>
        have hle : n' ≤ m' := by omega
        cases mode with
        | xor =>
          obtain ⟨⟨a, ts1⟩, h1, h2⟩ := option_bind_some h
          show (do
            let (a, ts1) ← pyParse m' .arith ts
            pyParse m' (.xorTail a) ts1) = some r
          rw [ih _ (by omega) _ _ _ _ hle h1]
          exact ih _ (by omega) _ _ _ _ hle h2
        | xorTail a =>
          rcases ts with _ | ⟨t, ts'⟩
          · exact h
          · cases t
            case caret =>
              obtain ⟨⟨b, ts1⟩, h1, h2⟩ := option_bind_some h
              show (do
                let (b, ts1) ← pyParse m' .arith ts'
                pyParse m' (.xorTail (.bin .bitXor a b)) ts1) = some r
              rw [ih _ (by omega) _ _ _ _ hle h1]
              exact ih _ (by omega) _ _ _ _ hle h2
            all_goals exact h
        | arith =>
          obtain ⟨⟨a, ts1⟩, h1, h2⟩ := option_bind_some h
          show (do
            let (a, ts1) ← pyParse m' .term ts
            pyParse m' (.arithTail a) ts1) = some r
          rw [ih _ (by omega) _ _ _ _ hle h1]
          exact ih _ (by omega) _ _ _ _ hle h2
        | arithTail a =>
          rcases ts with _ | ⟨t, ts'⟩
          · exact h
          · cases t
            case plus =>
              obtain ⟨⟨b, ts1⟩, h1, h2⟩ := option_bind_some h
              show (do
                let (b, ts1) ← pyParse m' .term ts'
                pyParse m' (.arithTail (.bin .add a b)) ts1) = some r
              rw [ih _ (by omega) _ _ _ _ hle h1]
              exact ih _ (by omega) _ _ _ _ hle h2
            case minus =>
              obtain ⟨⟨b, ts1⟩, h1, h2⟩ := option_bind_some h
              show (do
                let (b, ts1) ← pyParse m' .term ts'
                pyParse m' (.arithTail (.bin .sub a b)) ts1) = some r
              rw [ih _ (by omega) _ _ _ _ hle h1]
              exact ih _ (by omega) _ _ _ _ hle h2
            all_goals exact h
        | term =>
          obtain ⟨⟨a, ts1⟩, h1, h2⟩ := option_bind_some h
          show (do
            let (a, ts1) ← pyParse m' .factor ts
            pyParse m' (.termTail a) ts1) = some r
          rw [ih _ (by omega) _ _ _ _ hle h1]
          exact ih _ (by omega) _ _ _ _ hle h2
        | termTail a =>
          rcases ts with _ | ⟨t, ts'⟩
          · exact h
          · cases t
            case star =>
              obtain ⟨⟨b, ts1⟩, h1, h2⟩ := option_bind_some h
              show (do
                let (b, ts1) ← pyParse m' .factor ts'
                pyParse m' (.termTail (.bin .mult a b)) ts1) = some r
              rw [ih _ (by omega) _ _ _ _ hle h1]
              exact ih _ (by omega) _ _ _ _ hle h2
            case slash =>
              obtain ⟨⟨b, ts1⟩, h1, h2⟩ := option_bind_some h
              show (do
                let (b, ts1) ← pyParse m' .factor ts'
                pyParse m' (.termTail (.bin .div a b)) ts1) = some r
              rw [ih _ (by omega) _ _ _ _ hle h1]
              exact ih _ (by omega) _ _ _ _ hle h2
            case dslash =>
              obtain ⟨⟨b, ts1⟩, h1, h2⟩ := option_bind_some h
              show (do
                let (b, ts1) ← pyParse m' .factor ts'
                pyParse m' (.termTail (.bin .floorDiv a b)) ts1) = some r
              rw [ih _ (by omega) _ _ _ _ hle h1]
              exact ih _ (by omega) _ _ _ _ hle h2
            all_goals exact h
        | factor =>
          rcases ts with _ | ⟨t, ts'⟩
          · obtain ⟨⟨a, ts1⟩, h1, h2⟩ := option_bind_some h
            show (do
              let (a, ts1) ← pyParse m' .atom []
              match ts1 with
              | .dstar :: ts2 => do
                let (f, ts3) ← pyParse m' .factor ts2
                pure (.bin .pow a f, ts3)
              | _ => pure (a, ts1)) = some r
            rw [ih _ (by omega) _ _ _ _ hle h1]
            rcases ts1 with _ | ⟨u, ts1'⟩
            · exact h2
            · cases u
              case dstar =>
                obtain ⟨⟨f, ts3⟩, h3, h4⟩ := option_bind_some h2
                show (do
                  let (f, ts3) ← pyParse m' .factor ts1'
                  pure ((.bin .pow a f : PyExpr), ts3)) = some r
                rw [ih _ (by omega) _ _ _ _ hle h3]
                exact h4
              all_goals exact h2
          · cases t
            case plus =>
              obtain ⟨⟨a, ts1⟩, h1, h2⟩ := option_bind_some h
              show (do
                let (a, ts1) ← pyParse m' .factor ts'
                pure ((.unary .uadd a : PyExpr), ts1)) = some r
              rw [ih _ (by omega) _ _ _ _ hle h1]
              exact h2
            case minus =>
              obtain ⟨⟨a, ts1⟩, h1, h2⟩ := option_bind_some h
              show (do
                let (a, ts1) ← pyParse m' .factor ts'
                pure ((.unary .usub a : PyExpr), ts1)) = some r
              rw [ih _ (by omega) _ _ _ _ hle h1]
              exact h2
            all_goals
              obtain ⟨⟨a, ts1⟩, h1, h2⟩ := option_bind_some h
              rw [pyParse_factor_step (by simp) (by simp)]
              rw [ih _ (by omega) _ _ _ _ hle h1]
              rcases ts1 with _ | ⟨u, ts1'⟩
              · exact h2
              · cases u
                case dstar =>
                  obtain ⟨⟨f, ts3⟩, h3, h4⟩ := option_bind_some h2
                  show (do
                    let (f, ts3) ← pyParse m' .factor ts1'
                    pure ((.bin .pow a f : PyExpr), ts3)) = some r
                  rw [ih _ (by omega) _ _ _ _ hle h3]
                  exact h4
                all_goals exact h2
        | atom =>
          rcases ts with _ | ⟨t, ts'⟩
          · exact h
          · cases t
            case num q => exact h
            case lparen =>
              obtain ⟨⟨e₀, ts1⟩, h1, h2⟩ := option_bind_some h
              show (do
                let (e₀, ts1) ← pyParse m' .xor ts'
                match ts1 with
                | .rparen :: ts2 => pure (e₀, ts2)
                | _ => none) = some r
              rw [ih _ (by omega) _ _ _ _ hle h1]
              exact h2
            all_goals exact h

theorem pyParse_xorTail_ret {m : Nat} {a : PyExpr} {ts : List Tok}
    (h : ts.head? ≠ some Tok.caret) : pyParse (m + 1) (.xorTail a) ts = some (a, ts) := by
  rcases ts with _ | ⟨t, ts'⟩
  · rfl
  · cases t
    case caret => exact absurd rfl h
    all_goals rfl

theorem pyParse_arithTail_ret {m : Nat} {a : PyExpr} {ts : List Tok}
    (h1 : ts.head? ≠ some Tok.plus) (h2 : ts.head? ≠ some Tok.minus) :
    pyParse (m + 1) (.arithTail a) ts = some (a, ts) := by
  rcases ts with _ | ⟨t, ts'⟩
  · rfl
  · cases t
    case plus => exact absurd rfl h1
    case minus => exact absurd rfl h2
    all_goals rfl

theorem pyParse_termTail_ret {m : Nat} {a : PyExpr} {ts : List Tok}
    (h1 : ts.head? ≠ some Tok.star) (h2 : ts.head? ≠ some Tok.slash)
    (h3 : ts.head? ≠ some Tok.dslash) :
    pyParse (m + 1) (.termTail a) ts = some (a, ts) := by
  rcases ts with _ | ⟨t, ts'⟩
  · rfl
  · cases t
    case star => exact absurd rfl h1
    case slash => exact absurd rfl h2
    case dslash => exact absurd rfl h3
    all_goals rfl

theorem pyParse_arith_build {m₁ m₂ : Nat} {ts ts1 rest : List Tok} {a e : PyExpr}
    (h₁ : pyParse m₁ .term ts = some (a, ts1))
    (h₂ : pyParse m₂ (.arithTail a) ts1 = some (e, rest)) :
    pyParse (max m₁ m₂ + 1) .arith ts = some (e, rest) := by
  show (do
    let (a, ts1) ← pyParse (max m₁ m₂) .term ts
    pyParse (max m₁ m₂) (.arithTail a) ts1) = some (e, rest)
  rw [pyParse_mono _ _ _ _ _ (Nat.le_max_left m₁ m₂) h₁]
  exact pyParse_mono _ _ _ _ _ (Nat.le_max_right m₁ m₂) h₂

theorem pyParse_term_build {m₁ m₂ : Nat} {ts ts1 rest : List Tok} {a e : PyExpr}
    (h₁ : pyParse m₁ .factor ts = some (a, ts1))
    (h₂ : pyParse m₂ (.termTail a) ts1 = some (e, rest)) :
    pyParse (max m₁ m₂ + 1) .term ts = some (e, rest) := by
  show (do
    let (a, ts1) ← pyParse (max m₁ m₂) .factor ts
    pyParse (max m₁ m₂) (.termTail a) ts1) = some (e, rest)
  rw [pyParse_mono _ _ _ _ _ (Nat.le_max_left m₁ m₂) h₁]
  exact pyParse_mono _ _ _ _ _ (Nat.le_max_right m₁ m₂) h₂

theorem pyParse_xor_build {m : Nat} {ts rest : List Tok} {a : PyExpr}
    (h₁ : pyParse m .arith ts = some (a, rest))
    (hnc : rest.head? ≠ some Tok.caret) :
    pyParse (m + 2) .xor ts = some (a, rest) := by
  show (do
    let (a, ts1) ← pyParse (m + 1) .arith ts
    pyParse (m + 1) (.xorTail a) ts1) = some (a, rest)
  rw [pyParse_mono _ _ _ _ _ (Nat.le_succ m) h₁]
  exact pyParse_xorTail_ret hnc

theorem pyParse_arithTail_plus_build {m₁ m₂ : Nat} {ts ts1 rest : List Tok}
    {a b e : PyExpr}
    (h₁ : pyParse m₁ .term ts = some (b, ts1))
    (h₂ : pyParse m₂ (.arithTail (.bin .add a b)) ts1 = some (e, rest)) :
    pyParse (max m₁ m₂ + 1) (.arithTail a) (.plus :: ts) = some (e, rest) := by
  show (do
    let (b, ts1) ← pyParse (max m₁ m₂) .term ts
    pyParse (max m₁ m₂) (.arithTail (.bin .add a b)) ts1) = some (e, rest)
  rw [pyParse_mono _ _ _ _ _ (Nat.le_max_left m₁ m₂) h₁]
  exact pyParse_mono _ _ _ _ _ (Nat.le_max_right m₁ m₂) h₂

theorem pyParse_arithTail_minus_build {m₁ m₂ : Nat} {ts ts1 rest : List Tok}
    {a b e : PyExpr}
    (h₁ : pyParse m₁ .term ts = some (b, ts1))
    (h₂ : pyParse m₂ (.arithTail (.bin .sub a b)) ts1 = some (e, rest)) :
    pyParse (max m₁ m₂ + 1) (.arithTail a) (.minus :: ts) = some (e, rest) := by
  show (do
    let (b, ts1) ← pyParse (max m₁ m₂) .term ts
    pyParse (max m₁ m₂) (.arithTail (.bin .sub a b)) ts1) = some (e, rest)
  rw [pyParse_mono _ _ _ _ _ (Nat.le_max_left m₁ m₂) h₁]
  exact pyParse_mono _ _ _ _ _ (Nat.le_max_right m₁ m₂) h₂

theorem pyParse_termTail_star_build {m₁ m₂ : Nat} {ts ts1 rest : List Tok}
    {a b e : PyExpr}
    (h₁ : pyParse m₁ .factor ts = some (b, ts1))
    (h₂ : pyParse m₂ (.termTail (.bin .mult a b)) ts1 = some (e, rest)) :
    pyParse (max m₁ m₂ + 1) (.termTail a) (.star :: ts) = some (e, rest) := by
  show (do
    let (b, ts1) ← pyParse (max m₁ m₂) .factor ts
    pyParse (max m₁ m₂) (.termTail (.bin .mult a b)) ts1) = some (e, rest)
  rw [pyParse_mono _ _ _ _ _ (Nat.le_max_left m₁ m₂) h₁]
  exact pyParse_mono _ _ _ _ _ (Nat.le_max_right m₁ m₂) h₂

theorem pyParse_termTail_slash_build {m₁ m₂ : Nat} {ts ts1 rest : List Tok}
    {a b e : PyExpr}
    (h₁ : pyParse m₁ .factor ts = some (b, ts1))
    (h₂ : pyParse m₂ (.termTail (.bin .div a b)) ts1 = some (e, rest)) :
    pyParse (max m₁ m₂ + 1) (.termTail a) (.slash :: ts) = some (e, rest) := by
  show (do
    let (b, ts1) ← pyParse (max m₁ m₂) .factor ts
    pyParse (max m₁ m₂) (.termTail (.bin .div a b)) ts1) = some (e, rest)
  rw [pyParse_mono _ _ _ _ _ (Nat.le_max_left m₁ m₂) h₁]
  exact pyParse_mono _ _ _ _ _ (Nat.le_max_right m₁ m₂) h₂

theorem pyParse_factor_plus_build {m : Nat} {ts ts1 : List Tok} {p : PyExpr}
    (h : pyParse m .factor ts = some (p, ts1)) :
    pyParse (m + 1) .factor (.plus :: ts) = some (.unary .uadd p, ts1) := by
  show (do
    let (p, ts1) ← pyParse m .factor ts
    pure ((.unary .uadd p : PyExpr), ts1)) = some (.unary .uadd p, ts1)
  rw [h]
  rfl

theorem pyParse_factor_minus_build {m : Nat} {ts ts1 : List Tok} {p : PyExpr}
    (h : pyParse m .factor ts = some (p, ts1)) :
    pyParse (m + 1) .factor (.minus :: ts) = some (.unary .usub p, ts1) := by
  show (do
    let (p, ts1) ← pyParse m .factor ts
    pure ((.unary .usub p : PyExpr), ts1)) = some (.unary .usub p, ts1)
  rw [h]
  rfl

theorem evalNode_bridge_pos {a' : PyExpr} {a : SpecTree}
    (h : evalNode a' = specEval a) :
    evalNode (.unary .uadd a') = specEval (.pos a) := by
  simp only [evalNode, specEval, h]

theorem evalNode_bridge_neg {a' : PyExpr} {a : SpecTree}
    (h : evalNode a' = specEval a) :
    evalNode (.unary .usub a') = specEval (.neg a) := by
  simp only [evalNode, specEval, h]

theorem evalNode_bridge_add {l' r' : PyExpr} {l r : SpecTree}
    (hl : evalNode l' = specEval l) (hr : evalNode r' = specEval r) :
    evalNode (.bin .add l' r') = specEval (.add l r) := by
  simp only [evalNode, specEval, allowedB, hl, hr, if_true]
  rfl

theorem evalNode_bridge_sub {l' r' : PyExpr} {l r : SpecTree}
    (hl : evalNode l' = specEval l) (hr : evalNode r' = specEval r) :
    evalNode (.bin .sub l' r') = specEval (.sub l r) := by
  simp only [evalNode, specEval, allowedB, hl, hr, if_true]
  rfl

theorem evalNode_bridge_mul {l' r' : PyExpr} {l r : SpecTree}
    (hl : evalNode l' = specEval l) (hr : evalNode r' = specEval r) :
    evalNode (.bin .mult l' r') = specEval (.mul l r) := by
  simp only [evalNode, specEval, allowedB, hl, hr, if_true]
  rfl

theorem evalNode_bridge_div {l' r' : PyExpr} {l r : SpecTree}
    (hl : evalNode l' = specEval l) (hr : evalNode r' = specEval r) :
    evalNode (.bin .div l' r') = specEval (.div l r) := by
  simp only [evalNode, specEval, allowedB, hl, hr, if_true]
  rfl

theorem evalNode_bridge_pow {l' r' : PyExpr} {l r : SpecTree}
    (hl : evalNode l' = specEval l) (hr : evalNode r' = specEval r) :
    evalNode (.bin .pow l' r') = specEval (.pow l r) := by
  simp only [evalNode, specEval, allowedB, hl, hr, if_true]
  rfl

theorem head?_eq_cons {α : Type} {t : α} {ts : List α} (h : ts.head? = some t) :
    ts = t :: ts.tail := by
  cases ts with
  | nil => exact Option.noConfusion h
  | cons a l =>
    injection h with h
    subst h
    rfl

set_option maxHeartbeats 1600000 in
/-- Parser simulation: every successful parse under the spec's grammar is
matched by the code's parser on the same tokens, producing a tree with the
same evaluation. -/
theorem specParse_sim : ∀ (n : Nat) (sm : SMode) (ts : List Tok) (e : SpecTree)
    (rest : List Tok), specParse n sm ts = some (e, rest) → simConc sm ts e rest := by
  intro n
  induction n using Nat.strong_induction_on with
  | _ n ih =>
    intro sm ts e rest h
    rw [specParse.eq_def] at h
    split at h
    · exact Option.noConfusion h
    · -- sexpr
      obtain ⟨⟨a, ts1⟩, h1, h2⟩ := option_bind_some h
      obtain ⟨hl1, hc1⟩ := ih _ (by omega) _ _ _ _ h1
      obtain ⟨hl2, hdis2, hc2⟩ := ih _ (by omega) _ _ _ _ h2
      refine ⟨by omega, ?_⟩
      intro hd
      have hne1 : ts1.head? ≠ some Tok.dslash := by
        rcases hdis2 with h' | h' | h'
        · rw [h']
          intro hh
          injection hh with hh
          exact Tok.noConfusion hh
        · rw [h']
          intro hh
          injection hh with hh
          exact Tok.noConfusion hh
        · rw [← h']
          exact hd
      obtain ⟨m₁, a', hb1, hp1, he1⟩ := hc1 hne1
      obtain ⟨m₂, e', hb2, hp2, he2⟩ := hc2 hd a' he1
      exact ⟨max m₁ m₂ + 1, e', by omega, pyParse_arith_build hp1 hp2, he2⟩
    · -- sexprTail
      split at h
      · -- plus
        rename_i hc
        obtain ⟨tl, rfl⟩ : ∃ tl, ts = Tok.plus :: tl := ⟨ts.tail, head?_eq_cons hc⟩
        obtain ⟨⟨b, ts1⟩, h1, h2⟩ := option_bind_some h
        obtain ⟨hl1, hc1⟩ := ih _ (by omega) _ _ _ _ h1
        obtain ⟨hl2, hdis2, hc2⟩ := ih _ (by omega) _ _ _ _ h2
        simp only [List.tail_cons] at hl1 hc1
        refine ⟨by simp only [List.length_cons]; omega, Or.inl rfl, ?_⟩
        intro hd a' ha'
        have hne1 : ts1.head? ≠ some Tok.dslash := by
          rcases hdis2 with h' | h' | h'
          · rw [h']
            intro hh
            injection hh with hh
            exact Tok.noConfusion hh
          · rw [h']
            intro hh
            injection hh with hh
            exact Tok.noConfusion hh
          · rw [← h']
            exact hd
        obtain ⟨m₁, b', hb1, hp1, he1⟩ := hc1 hne1
        obtain ⟨m₂, e', hb2, hp2, he2⟩ :=
          hc2 hd (.bin .add a' b') (evalNode_bridge_add ha' he1)
        refine ⟨max m₁ m₂ + 1, e', ?_, pyParse_arithTail_plus_build hp1 hp2, he2⟩
        simp only [List.length_cons]
        omega
      · -- minus or return
        split at h
        · rename_i u v
          have hc : ts.head? = some Tok.minus := by first | exact u | exact v
          obtain ⟨tl, rfl⟩ : ∃ tl, ts = Tok.minus :: tl := ⟨ts.tail, head?_eq_cons hc⟩
          obtain ⟨⟨b, ts1⟩, h1, h2⟩ := option_bind_some h
          obtain ⟨hl1, hc1⟩ := ih _ (by omega) _ _ _ _ h1
          obtain ⟨hl2, hdis2, hc2⟩ := ih _ (by omega) _ _ _ _ h2
          simp only [List.tail_cons] at hl1 hc1
          refine ⟨by simp only [List.length_cons]; omega, Or.inr (Or.inl rfl), ?_⟩
          intro hd a' ha'
          have hne1 : ts1.head? ≠ some Tok.dslash := by
            rcases hdis2 with h' | h' | h'
            · rw [h']
              intro hh
              injection hh with hh
              exact Tok.noConfusion hh
            · rw [h']
              intro hh
              injection hh with hh
              exact Tok.noConfusion hh
            · rw [← h']
              exact hd
          obtain ⟨m₁, b', hb1, hp1, he1⟩ := hc1 hne1
          obtain ⟨m₂, e', hb2, hp2, he2⟩ :=
            hc2 hd (.bin .sub a' b') (evalNode_bridge_sub ha' he1)
          refine ⟨max m₁ m₂ + 1, e', ?_, pyParse_arithTail_minus_build hp1 hp2, he2⟩
          simp only [List.length_cons]
          omega
        · -- return
          rename_i u v
          have hnp : ¬ts.head? = some Tok.plus := by first | exact u | exact v
          have hnm : ¬ts.head? = some Tok.minus := by first | exact u | exact v
          injection h with h'
          rw [Prod.mk.injEq] at h'
          obtain ⟨rfl, rfl⟩ := h'
          refine ⟨Nat.le_refl _, Or.inr (Or.inr rfl), ?_⟩
          intro hd a' ha'
          exact ⟨1, a', by omega, pyParse_arithTail_ret hnp hnm, ha'⟩
    · -- sterm
      obtain ⟨⟨a, ts1⟩, h1, h2⟩ := option_bind_some h
      obtain ⟨hl1, hc1⟩ := ih _ (by omega) _ _ _ _ h1
      obtain ⟨hl2, hdis2, hc2⟩ := ih _ (by omega) _ _ _ _ h2
      refine ⟨by omega, ?_⟩
      intro hd
      obtain ⟨m₁, a', hb1, hp1, he1⟩ := hc1
      obtain ⟨m₂, e', hb2, hp2, he2⟩ := hc2 hd a' he1
      exact ⟨max m₁ m₂ + 1, e', by omega, pyParse_term_build hp1 hp2, he2⟩
    · -- stermTail
      split at h
      · -- star
        rename_i hc
        obtain ⟨tl, rfl⟩ : ∃ tl, ts = Tok.star :: tl := ⟨ts.tail, head?_eq_cons hc⟩
        obtain ⟨⟨b, ts1⟩, h1, h2⟩ := option_bind_some h
        obtain ⟨hl1, hc1⟩ := ih _ (by omega) _ _ _ _ h1
        obtain ⟨hl2, hdis2, hc2⟩ := ih _ (by omega) _ _ _ _ h2
        simp only [List.tail_cons] at hl1 hc1
        refine ⟨by simp only [List.length_cons]; omega, Or.inl rfl, ?_⟩
        intro hd a' ha'
        obtain ⟨m₁, b', hb1, hp1, he1⟩ := hc1
        obtain ⟨m₂, e', hb2, hp2, he2⟩ :=
          hc2 hd (.bin .mult a' b') (evalNode_bridge_mul ha' he1)
        refine ⟨max m₁ m₂ + 1, e', ?_, pyParse_termTail_star_build hp1 hp2, he2⟩
        simp only [List.length_cons]
        omega
      · -- slash or return
        split at h
        · rename_i u v
          have hc : ts.head? = some Tok.slash := by first | exact u | exact v
          obtain ⟨tl, rfl⟩ : ∃ tl, ts = Tok.slash :: tl := ⟨ts.tail, head?_eq_cons hc⟩
          obtain ⟨⟨b, ts1⟩, h1, h2⟩ := option_bind_some h
          obtain ⟨hl1, hc1⟩ := ih _ (by omega) _ _ _ _ h1
          obtain ⟨hl2, hdis2, hc2⟩ := ih _ (by omega) _ _ _ _ h2
          simp only [List.tail_cons] at hl1 hc1
          refine ⟨by simp only [List.length_cons]; omega, Or.inr (Or.inl rfl), ?_⟩
          intro hd a' ha'
          obtain ⟨m₁, b', hb1, hp1, he1⟩ := hc1
          obtain ⟨m₂, e', hb2, hp2, he2⟩ :=
            hc2 hd (.bin .div a' b') (evalNode_bridge_div ha' he1)
          refine ⟨max m₁ m₂ + 1, e', ?_, pyParse_termTail_slash_build hp1 hp2, he2⟩
          simp only [List.length_cons]
          omega
        · -- return
          rename_i u v
          have hns : ¬ts.head? = some Tok.star := by first | exact u | exact v
          have hnsl : ¬ts.head? = some Tok.slash := by first | exact u | exact v
          injection h with h'
          rw [Prod.mk.injEq] at h'
          obtain ⟨rfl, rfl⟩ := h'
          refine ⟨Nat.le_refl _, Or.inr (Or.inr rfl), ?_⟩
          intro hd a' ha'
          exact ⟨1, a', by omega, pyParse_termTail_ret hns hnsl hd, ha'⟩
    · -- sfactor
      split at h
      · -- plus sign
        rename_i hc
        obtain ⟨tl, rfl⟩ : ∃ tl, ts = Tok.plus :: tl := ⟨ts.tail, head?_eq_cons hc⟩
        obtain ⟨⟨p, ts1⟩, h1, h2⟩ := option_bind_some h
        injection h2 with h2
        rw [Prod.mk.injEq] at h2
        obtain ⟨rfl, rfl⟩ := h2
        obtain ⟨hl1, m₁, p', hb1, hp1, he1⟩ := ih _ (by omega) _ _ _ _ h1
        simp only [List.tail_cons] at hl1 hb1
        refine ⟨by simp only [List.length_cons]; omega,
          m₁ + 1, .unary .uadd p', ?_, pyParse_factor_plus_build hp1,
          evalNode_bridge_pos he1⟩
        simp only [List.length_cons]
        omega
      · -- minus sign or passthrough
        split at h
        · rename_i u v
          have hc : ts.head? = some Tok.minus := by first | exact u | exact v
          obtain ⟨tl, rfl⟩ : ∃ tl, ts = Tok.minus :: tl := ⟨ts.tail, head?_eq_cons hc⟩
          obtain ⟨⟨p, ts1⟩, h1, h2⟩ := option_bind_some h
          injection h2 with h2
          rw [Prod.mk.injEq] at h2
          obtain ⟨rfl, rfl⟩ := h2
          obtain ⟨hl1, m₁, p', hb1, hp1, he1⟩ := ih _ (by omega) _ _ _ _ h1
          simp only [List.tail_cons] at hl1 hb1
          refine ⟨by simp only [List.length_cons]; omega,
            m₁ + 1, .unary .usub p', ?_, pyParse_factor_minus_build hp1,
            evalNode_bridge_neg he1⟩
          simp only [List.length_cons]
          omega
        · -- passthrough to spower
          have hs : simConc .spower ts e rest := ih _ (by omega) _ _ _ _ h
          exact hs
    · -- spower
      obtain ⟨⟨p, ts1⟩, h1, h2⟩ := option_bind_some h
      obtain ⟨hl1, hshape, m₁, p', hb1, hp1, he1⟩ := ih _ (by omega) _ _ _ _ h1
      split at h2
      rename_i p2 ts1a heq
      injection heq with he1' he2'
      subst he1'
      subst he2'
      split at h2
      · -- exponent present
        rename_i hds
        obtain ⟨tl1, rfl⟩ : ∃ tl1, ts1 = Tok.dstar :: tl1 := ⟨ts1.tail, head?_eq_cons hds⟩
        obtain ⟨⟨f, ts2⟩, h3, h4⟩ := option_bind_some h2
        injection h4 with h4
        rw [Prod.mk.injEq] at h4
        obtain ⟨rfl, rfl⟩ := h4
        obtain ⟨hl3, m₂, f', hb2, hp2, he2⟩ := ih _ (by omega) _ _ _ _ h3
        simp only [List.tail_cons] at hl3 hb2 hp2
        rcases hshape with ⟨q, ts', rfl⟩ | ⟨ts', rfl⟩
        · refine ⟨?_, max m₁ m₂ + 1, .bin .pow p' f', ?_, ?_,
            evalNode_bridge_pow he1 he2⟩
          · simp only [List.length_cons] at hl1 hl3 ⊢
            omega
          · simp only [List.length_cons] at hb1 hb2 hl1 ⊢
            omega
          · rw [pyParse_factor_step (by simp) (by simp),
              pyParse_mono _ _ _ _ _ (Nat.le_max_left m₁ m₂) hp1]
            show (do
              let (f, ts3) ← pyParse (max m₁ m₂) .factor tl1
              pure ((.bin .pow p' f : PyExpr), ts3)) = some (.bin .pow p' f', ts2)
            rw [pyParse_mono _ _ _ _ _ (Nat.le_max_right m₁ m₂) hp2]
            rfl
        · refine ⟨?_, max m₁ m₂ + 1, .bin .pow p' f', ?_, ?_,
            evalNode_bridge_pow he1 he2⟩
          · simp only [List.length_cons] at hl1 hl3 ⊢
            omega
          · simp only [List.length_cons] at hb1 hb2 hl1 ⊢
            omega
          · rw [pyParse_factor_step (by simp) (by simp),
              pyParse_mono _ _ _ _ _ (Nat.le_max_left m₁ m₂) hp1]
            show (do
              let (f, ts3) ← pyParse (max m₁ m₂) .factor tl1
              pure ((.bin .pow p' f : PyExpr), ts3)) = some (.bin .pow p' f', ts2)
            rw [pyParse_mono _ _ _ _ _ (Nat.le_max_right m₁ m₂) hp2]
            rfl
      · -- no exponent
        rename_i hnd
        injection h2 with h2
        rw [Prod.mk.injEq] at h2
        obtain ⟨rfl, rfl⟩ := h2
        rcases hshape with ⟨q, ts', rfl⟩ | ⟨ts', rfl⟩
        · refine ⟨hl1, m₁ + 1, p', ?_, ?_, he1⟩
          · simp only [List.length_cons] at hb1 ⊢
            omega
          · rw [pyParse_factor_step (by simp) (by simp), hp1]
            rcases ts1 with _ | ⟨u, rest'⟩
            · rfl
            · cases u
              case dstar => exact absurd rfl hnd
              all_goals rfl
        · refine ⟨hl1, m₁ + 1, p', ?_, ?_, he1⟩
          · simp only [List.length_cons] at hb1 ⊢
            omega
          · rw [pyParse_factor_step (by simp) (by simp), hp1]
            rcases ts1 with _ | ⟨u, rest'⟩
            · rfl
            · cases u
              case dstar => exact absurd rfl hnd
              all_goals rfl
    · -- sprimary number
      injection h with h'
      rw [Prod.mk.injEq] at h'
      obtain ⟨rfl, rfl⟩ := h'
      refine ⟨by simp, Or.inl ⟨_, _, rfl⟩, 1, .num _,
        by simp only [List.length_cons]; omega, rfl, rfl⟩
    · -- sprimary parenthesized
      obtain ⟨⟨e₀, ts1⟩, h1, h2⟩ := option_bind_some h
      split at h2
      rename_i p2 ts1a heq
      injection heq with he1' he2'
      subst he1'
      subst he2'
      split at h2
      · rename_i hrp
        obtain ⟨tl1, rfl⟩ : ∃ tl1, ts1 = Tok.rparen :: tl1 := ⟨ts1.tail, head?_eq_cons hrp⟩
        injection h2 with h2
        rw [Prod.mk.injEq] at h2
        obtain ⟨rfl, rfl⟩ := h2
        obtain ⟨hl1, hc1⟩ := ih _ (by omega) _ _ _ _ h1
        obtain ⟨m₁, e₀', hb1, hp1, he1⟩ := hc1 (by
          intro hh
          injection hh with hh
          exact Tok.noConfusion hh)
        have hxor : pyParse (m₁ + 2) .xor _ = some (e₀', Tok.rparen :: tl1) :=
          pyParse_xor_build hp1 (by
            intro hh
            injection hh with hh
            exact Tok.noConfusion hh)
        refine ⟨?_, Or.inr ⟨_, rfl⟩, m₁ + 3, e₀', ?_, ?_, he1⟩
        · simp only [List.tail_cons, List.length_cons] at hl1 ⊢
          omega
        · simp only [List.length_cons] at hb1 hl1 ⊢
          omega
        · show (do
            let (e₀, ts1) ← pyParse (m₁ + 2) .xor _
            match ts1 with
            | .rparen :: ts2 => pure (e₀, ts2)
            | _ => none) = some (e₀', (Tok.rparen :: tl1).tail)
          rw [hxor]
          rfl
      · exact Option.noConfusion h2
    · -- sprimary failure
      exact Option.noConfusion h

theorem decomp_mathre : ∀ {cs : List Char} {ts : List Tok}, Decomp cs ts →
    ∀ c ∈ cs, isMathReChar c = true := by
  intro cs ts hd
  induction hd with
  | nil => intro c hc; exact absurd hc (by simp)
  | skip c0 cs ts hws _ ihd =>
    intro c hc
    rcases List.mem_cons.mp hc with rfl | hc
    · unfold isMathReChar
      rw [hws]
      simp
    · exact ihd c hc
  | tok t pc cs ts hlex _ ihd =>
    intro c hc
    rcases List.mem_append.mp hc with hc | hc
    · cases hlex with
      | num q pc hne hch =>
        rcases hch c hc with hdig | rfl
        · unfold isMathReChar
          rw [hdig]
          rfl
        · decide
      | plus => rcases List.mem_cons.mp hc with rfl | hc
                · decide
                · exact absurd hc (by simp)
      | minus => rcases List.mem_cons.mp hc with rfl | hc
                 · decide
                 · exact absurd hc (by simp)
      | star => rcases List.mem_cons.mp hc with rfl | hc
                · decide
                · exact absurd hc (by simp)
      | dstar => rcases List.mem_cons.mp hc with rfl | hc
                 · decide
                 · rcases List.mem_cons.mp hc with rfl | hc
                   · decide
                   · exact absurd hc (by simp)
      | slash => rcases List.mem_cons.mp hc with rfl | hc
                 · decide
                 · exact absurd hc (by simp)
      | dslash => rcases List.mem_cons.mp hc with rfl | hc
                  · decide
                  · rcases List.mem_cons.mp hc with rfl | hc
                    · decide
                    · exact absurd hc (by simp)
      | caret => rcases List.mem_cons.mp hc with rfl | hc
                 · decide
                 · exact absurd hc (by simp)
      | lparen => rcases List.mem_cons.mp hc with rfl | hc
                  · decide
                  · exact absurd hc (by simp)
      | rparen => rcases List.mem_cons.mp hc with rfl | hc
                  · decide
                  · exact absurd hc (by simp)
      | nl1 => rcases List.mem_cons.mp hc with rfl | hc
               · decide
               · exact absurd hc (by simp)
      | nl2 => rcases List.mem_cons.mp hc with rfl | hc
               · decide
               · exact absurd hc (by simp)
      | nl3 => rcases List.mem_cons.mp hc with rfl | hc
               · decide
               · rcases List.mem_cons.mp hc with rfl | hc
                 · decide
                 · exact absurd hc (by simp)
    · exact ihd c hc

theorem decomp_ne_nil : ∀ {cs : List Char} {ts : List Tok}, Decomp cs ts →
    ts ≠ [] → cs ≠ [] := by
  intro cs ts hd
  induction hd with
  | nil => intro h; exact absurd rfl h
  | skip c0 cs ts _ _ _ => intro _; simp
  | tok t pc cs ts hlex _ _ =>
    intro _
    have hpc : pc ≠ [] := by
      cases hlex with
      | num q pc hne _ => exact hne
      | plus => simp
      | minus => simp
      | star => simp
      | dstar => simp
      | slash => simp
      | dslash => simp
      | caret => simp
      | lparen => simp
      | rparen => simp
      | nl1 => simp
      | nl2 => simp
      | nl3 => simp
    intro h0
    rcases List.append_eq_nil.mp h0 with ⟨h1, -⟩
    exact hpc h1

theorem all_newline_head_ne {rest : List Tok}
    (hall : rest.all (fun t => t = .newline) = true) {t : Tok}
    (ht : t ≠ Tok.newline) : rest.head? ≠ some t := by
  cases rest with
  | nil => simp
  | cons u l =>
    rw [List.all_cons, Bool.and_eq_true] at hall
    have := of_decide_eq_true hall.1
    subst this
    intro hh
    injection hh with hh
    exact ht hh.symm


theorem specLex_star_step {n : Nat} {c₂ : Char} {cs : List Char} {r : List Tok}
    (h : c₂ ≠ '*') (hs : specLex (n + 1) ('*' :: c₂ :: cs) = some r) :
    (do pure (.star :: (← specLex n (c₂ :: cs)))) = some r := by
  rw [specLex.eq_def] at hs
  split at hs
  all_goals try simp_all
  all_goals (rename_i heq; exact absurd heq.1.symm (by assumption))

theorem specLex_slash_step {n : Nat} {c₂ : Char} {cs : List Char} {r : List Tok}
    (h : c₂ ≠ '/') (hs : specLex (n + 1) ('/' :: c₂ :: cs) = some r) :
    (do pure (.slash :: (← specLex n (c₂ :: cs)))) = some r := by
  rw [specLex.eq_def] at hs
  split at hs
  all_goals try simp_all
  all_goals (rename_i heq; exact absurd heq.1.symm (by assumption))

theorem lex_star_step {m d : Nat} {c₂ : Char} {cs : List Char} {r : List Tok}
    (h : c₂ ≠ '*') (hl : lex (m + 1) (.inLine d) ('*' :: c₂ :: cs) = some r) :
    (do pure (.star :: (← lex m (.inLine d) (c₂ :: cs)))) = some r := by
  rw [lex.eq_def] at hl
  split at hl
  all_goals try simp_all
  all_goals (rename_i heq; exact absurd heq.1.symm (by assumption))

theorem lex_slash_step {m d : Nat} {c₂ : Char} {cs : List Char} {r : List Tok}
    (h : c₂ ≠ '/') (hl : lex (m + 1) (.inLine d) ('/' :: c₂ :: cs) = some r) :
    (do pure (.slash :: (← lex m (.inLine d) (c₂ :: cs)))) = some r := by
  rw [lex.eq_def] at hl
  split at hl
  all_goals try simp_all
  all_goals (rename_i heq; exact absurd heq.1.symm (by assumption))

theorem specLex_default_step {n : Nat} {c : Char} {cs : List Char}
    (h1 : c ≠ '(') (h2 : c ≠ ')') (h3 : c ≠ '+') (h4 : c ≠ '-')
    (h5 : c ≠ '*') (h6 : c ≠ '/') :
    specLex (n + 1) (c :: cs) =
      (if c.isDigit then do
        let (q, rest) ← specNumLex (c :: cs)
        pure (.num q :: (← specLex n rest))
      else none) := by
  rw [specLex.eq_def]
  split <;> first
    | rfl
    | (exact absurd rfl h1)
    | (exact absurd rfl h2)
    | (exact absurd rfl h3)
    | (exact absurd rfl h4)
    | (exact absurd rfl h5)
    | (exact absurd rfl h6)
    | simp_all

theorem lex_inLine_digit_step {m d : Nat} {c : Char} {cs : List Char}
    (hdig : c.isDigit = true) :
    lex (m + 1) (.inLine d) (c :: cs) =
      (do
        let (q, rest) ← numLex (c :: cs)
        pure (.num q :: (← lex m (.inLine d) rest))) := by
  rw [lex.eq_def]
  split <;> first | (exact absurd hdig (by decide)) | simp_all

theorem lex_lineStart_digit_step {m : Nat} {c : Char} {cs : List Char}
    (hdig : c.isDigit = true) :
    lex (m + 1) (.lineStart false) (c :: cs) = lex m (.inLine 0) (c :: cs) := by
  rw [lex.eq_def]
  split <;> first | rfl | (exact absurd hdig (by decide)) | simp_all

theorem specNumLex_to_numLex {l : List Char} {q : Q} {rest : List Char}
    (hs : specNumLex l = some (q, rest)) (hn : numLex l ≠ none) :
    numLex l = some (q, rest) := by
  unfold specNumLex at hs
  unfold numLex at hn ⊢
  dsimp only at hs hn ⊢
  split at hs
  · exact Option.noConfusion hs
  · rename_i hds
    split at hs
    · rename_i hdot
      split at hs
      · exact Option.noConfusion hs
      · rename_i hfs
        rw [if_pos hdot, if_neg ?_]
        · exact hs
        · intro hcond
          rw [Bool.and_eq_true] at hcond
          exact hfs hcond.2
    · rename_i hdot
      rw [if_neg hdot] at hn ⊢
      by_cases hlz : leadingZeroBad (l.takeWhile Char.isDigit) = true
      · rw [if_pos hlz] at hn
        exact absurd rfl hn
      · rw [if_neg hlz]
        exact hs

set_option maxHeartbeats 1600000 in
/-- The spec grammar's lexer and the code's tokenizer agree whenever both
succeed on the same input (they can only accept the same input with the
same maximal-munch token reading; the code additionally rejects
leading-zero integer literals, whitespace handling never arises because the
spec lexer accepts no whitespace). -/
theorem specLex_lex_agree : ∀ (m n : Nat) (cs : List Char) (d : Nat)
    (ts ts' : List Tok), specLex n cs = some ts →
    lex m (.inLine d) cs = some ts' → ts = ts' := by
  intro m
  induction m using Nat.strong_induction_on with
  | _ m ihm =>
    intro n cs d ts ts' hs hl
    cases n with
    | zero => exact Option.noConfusion hs
    | succ n' =>
      cases m with
      | zero => exact Option.noConfusion hl
      | succ m' =>
        rcases cs with _ | ⟨c, cs₁⟩
        · injection hs with hs
          injection hl with hl
          subst hs
          exact hl
        · by_cases h1 : c = '('
          · subst h1
            obtain ⟨t1, hs1, hs2⟩ := option_bind_some hs
            injection hs2 with hs2
            subst hs2
            obtain ⟨t2, hl1, hl2⟩ := option_bind_some hl
            injection hl2 with hl2
            subst hl2
            rw [ihm _ (by omega) _ _ _ _ _ hs1 hl1]
          by_cases h2 : c = ')'
          · subst h2
            obtain ⟨t1, hs1, hs2⟩ := option_bind_some hs
            injection hs2 with hs2
            subst hs2
            obtain ⟨t2, hl1, hl2⟩ := option_bind_some hl
            injection hl2 with hl2
            subst hl2
            rw [ihm _ (by omega) _ _ _ _ _ hs1 hl1]
          by_cases h3 : c = '+'
          · subst h3
            obtain ⟨t1, hs1, hs2⟩ := option_bind_some hs
            injection hs2 with hs2
            subst hs2
            obtain ⟨t2, hl1, hl2⟩ := option_bind_some hl
            injection hl2 with hl2
            subst hl2
            rw [ihm _ (by omega) _ _ _ _ _ hs1 hl1]
          by_cases h4 : c = '-'
          · subst h4
            obtain ⟨t1, hs1, hs2⟩ := option_bind_some hs
            injection hs2 with hs2
            subst hs2
            obtain ⟨t2, hl1, hl2⟩ := option_bind_some hl
            injection hl2 with hl2
            subst hl2
            rw [ihm _ (by omega) _ _ _ _ _ hs1 hl1]
          by_cases h5 : c = '*'
          · subst h5
            rcases cs₁ with _ | ⟨c₂, cs₂⟩
            · obtain ⟨t1, hs1, hs2⟩ := option_bind_some hs
              injection hs2 with hs2
              subst hs2
              obtain ⟨t2, hl1, hl2⟩ := option_bind_some hl
              injection hl2 with hl2
              subst hl2
              rw [ihm _ (by omega) _ _ _ _ _ hs1 hl1]
            · by_cases h5b : c₂ = '*'
              · subst h5b
                obtain ⟨t1, hs1, hs2⟩ := option_bind_some hs
                injection hs2 with hs2
                subst hs2
                obtain ⟨t2, hl1, hl2⟩ := option_bind_some hl
                injection hl2 with hl2
                subst hl2
                rw [ihm _ (by omega) _ _ _ _ _ hs1 hl1]
              · replace hs := specLex_star_step h5b hs
                replace hl := lex_star_step h5b hl
                obtain ⟨t1, hs1, hs2⟩ := option_bind_some hs
                injection hs2 with hs2
                subst hs2
                obtain ⟨t2, hl1, hl2⟩ := option_bind_some hl
                injection hl2 with hl2
                subst hl2
                rw [ihm _ (by omega) _ _ _ _ _ hs1 hl1]
          by_cases h6 : c = '/'
          · subst h6
            rcases cs₁ with _ | ⟨c₂, cs₂⟩
            · obtain ⟨t1, hs1, hs2⟩ := option_bind_some hs
              injection hs2 with hs2
              subst hs2
              obtain ⟨t2, hl1, hl2⟩ := option_bind_some hl
              injection hl2 with hl2
              subst hl2
              rw [ihm _ (by omega) _ _ _ _ _ hs1 hl1]
            · by_cases h6b : c₂ = '/'
              · subst h6b
                obtain ⟨t1, hs1, hs2⟩ := option_bind_some hs
                injection hs2 with hs2
                subst hs2
                obtain ⟨t2, hl1, hl2⟩ := option_bind_some hl
                injection hl2 with hl2
                subst hl2
                rw [ihm _ (by omega) _ _ _ _ _ hs1 hl1]
              · replace hs := specLex_slash_step h6b hs
                replace hl := lex_slash_step h6b hl
                obtain ⟨t1, hs1, hs2⟩ := option_bind_some hs
                injection hs2 with hs2
                subst hs2
                obtain ⟨t2, hl1, hl2⟩ := option_bind_some hl
                injection hl2 with hl2
                subst hl2
                rw [ihm _ (by omega) _ _ _ _ _ hs1 hl1]
          · rw [specLex_default_step h1 h2 h3 h4 h5 h6] at hs
            split at hs
            · rename_i hdig
              obtain ⟨⟨q, rest⟩, hs1, hs2⟩ := option_bind_some hs
              obtain ⟨t1, hs3, hs4⟩ := option_bind_some hs2
              injection hs4 with hs4
              subst hs4
              rw [lex_inLine_digit_step hdig] at hl
              obtain ⟨⟨q', rest'⟩, hl1, hl2⟩ := option_bind_some hl
              obtain ⟨t2, hl3, hl4⟩ := option_bind_some hl2
              injection hl4 with hl4
              subst hl4
              have hnl : numLex (c :: cs₁) = some (q, rest) :=
                specNumLex_to_numLex hs1 (by
                  rw [hl1]
                  exact fun hh => Option.noConfusion hh)
              rw [hl1] at hnl
              injection hnl with hnl
              rw [Prod.mk.injEq] at hnl
              obtain ⟨rfl, rfl⟩ := hnl
              rw [ihm _ (by omega) _ _ _ _ _ hs3 hl3]
            · exact Option.noConfusion hs

theorem specLex_lineStart_step : ∀ {n m : Nat} {c : Char} {cs : List Char}
    {ts : List Tok}, specLex n (c :: cs) = some ts →
    lex (m + 1) (.lineStart false) (c :: cs) = lex m (.inLine 0) (c :: cs) := by
  intro n m c cs ts hs
  cases n with
  | zero => exact Option.noConfusion hs
  | succ n' =>
    by_cases h1 : c = '('
    · subst h1; rfl
    by_cases h2 : c = ')'
    · subst h2; rfl
    by_cases h3 : c = '+'
    · subst h3; rfl
    by_cases h4 : c = '-'
    · subst h4; rfl
    by_cases h5 : c = '*'
    · subst h5; rfl
    by_cases h6 : c = '/'
    · subst h6; rfl
    · rw [specLex_default_step h1 h2 h3 h4 h5 h6] at hs
      split at hs
      · rename_i hdig
        exact lex_lineStart_digit_step hdig
      · exact Option.noConfusion hs

/-- If the spec lexer accepts a string and the code's tokenizer does not
fail on it, both produce the same token list. -/
theorem specTokenize_tokenize {s : String} {ts : List Tok}
    (hs : specTokenize s = some ts) (hn : tokenize s ≠ none) :
    tokenize s = some ts := by
  cases htok : tokenize s with
  | none => exact absurd htok hn
  | some ts' =>
    unfold tokenize at htok
    unfold specTokenize at hs
    rcases hcs : s.toList with _ | ⟨c, cs'⟩
    · rw [hcs] at htok hs
      injection hs with hs
      injection htok with htok
      rw [← hs, ← htok]
    · rw [hcs] at htok hs
      rw [show 2 * (c :: cs').length + 4 = (2 * (c :: cs').length + 3) + 1 from rfl,
        specLex_lineStart_step hs] at htok
      rw [specLex_lex_agree _ _ _ _ _ _ hs htok]

/-! ## Claims -/

/-- C1 (corrected).  After any sequence of completed exchanges the stored
history is a suffix of the chronological log of all turns — the most recent
turns, oldest evicted first, in original order — of length at most 11, not
10: an exchange ending in the guardrail path leaves at most 10 turns, but
the model-fallback path truncates only after appending the user turn and
then appends the bot turn without re-truncating, so it can leave 11.  Every
`chat` invocation realizes one of the two updates or leaves history
unchanged. -/
theorem history_bound_after_exchanges :
    (∀ es : List Exchange,
      (runExchanges es).length ≤ 11 ∧ runExchanges es <:+ fullLog es) ∧
    (∀ es u b, (runExchanges (es ++ [.guardrail u b])).length ≤ 10) ∧
    (∀ tok ev h m, (chat tok ev h m).history = h ∨
      ∃ u b, (chat tok ev h m).history = guardrail_update h u b ∨
             (chat tok ev h m).history = model_update h u b) := by
  refine ⟨?_, ?_, chat_history_cases⟩
  · intro es
    have := foldl_exchStep_inv es [] [] ⟨by simp, List.suffix_refl _⟩
    simpa [runExchanges] using this
  · intro es u b
    simp only [runExchanges, List.foldl_append, List.foldl_cons, List.foldl_nil]
    exact guardrail_update_length _ u b

/-- Witness for `history_bound_after_exchanges` at a concrete exchange
sequence and a concrete `chat` call. -/
theorem history_bound_after_exchanges_witness :
    (runExchanges [.model ⟨.user, "u"⟩ ⟨.bot, "b"⟩]).length ≤ 11 ∧
    runExchanges [.model ⟨.user, "u"⟩ ⟨.bot, "b"⟩] <:+
      fullLog [.model ⟨.user, "u"⟩ ⟨.bot, "b"⟩] ∧
    (runExchanges ([] ++ [.guardrail ⟨.user, "u"⟩ ⟨.bot, "b"⟩])).length ≤ 10 ∧
    ((chat (some "t") (fun _ => .netExc "e") [] "q").history = [] ∨
      ∃ u b, (chat (some "t") (fun _ => .netExc "e") [] "q").history =
               guardrail_update [] u b ∨
             (chat (some "t") (fun _ => .netExc "e") [] "q").history =
               model_update [] u b) :=
  ⟨(history_bound_after_exchanges.1 [.model ⟨.user, "u"⟩ ⟨.bot, "b"⟩]).1,
   (history_bound_after_exchanges.1 [.model ⟨.user, "u"⟩ ⟨.bot, "b"⟩]).2,
   history_bound_after_exchanges.2.1 [] ⟨.user, "u"⟩ ⟨.bot, "b"⟩,
   history_bound_after_exchanges.2.2 (some "t") (fun _ => .netExc "e") [] "q"⟩

/-- C1 counterexample.  Six successive model-fallback exchanges through
`chat` leave a stored history of 11 turns, refuting the claimed bound of
`M = 10` for the model-fallback path. -/
theorem history_model_path_exceeds_ten :
    (let ev := fun _ : Nat => HFEvent.status 200 (.genList "r")
     let step := fun (h : List Turn) => (chat (some "t") ev h "weather").history
     (step (step (step (step (step (step [])))))).length = 11) := by
  decide

/-- C7 (confirmed).  A division whose divisor evaluates to exactly zero makes
the evaluator fail — with the `DivisionByZero` failure whenever the dividend
evaluated — and never produces a value (the rational model has no infinities
or NaNs; Python's `operator.truediv` raises `ZeroDivisionError` for float
operands too).  The router absorbs the failure: on the scenario input
`"12 divided by 0"` the candidate is `"12/0"`, evaluation fails with
`DivisionByZero`, and `chat` equals its model-fallback branch — which does
not consult the guardrail error — for every oracle and session history. -/
theorem division_by_zero_absorbed :
    (∀ l r : PyExpr, evalNode r = .ok 0 →
      (∃ e, evalNode (.bin .div l r) = .error e) ∧
      (∀ a, evalNode l = .ok a → evalNode (.bin .div l r) = .error .divisionByZero)) ∧
    (∀ tok ev h,
      extract_math_expression "12 divided by 0" = "12/0" ∧
      safe_eval_expr "12/0" = .error .divisionByZero ∧
      chat tok ev h "12 divided by 0" = modelPath tok ev h "12 divided by 0" "12/0") := by
  constructor
  · intro l r hr
    constructor
    · cases hl : evalNode l with
      | error e => exact ⟨e, by simp only [evalNode, allowedB, hl, hr, if_true]; rfl⟩
      | ok a => exact ⟨.divisionByZero, by simp only [evalNode, allowedB, hl, hr, if_true]; rfl⟩
    · intro a ha
      simp only [evalNode, allowedB, ha, hr, if_true]
      rfl
  · intro tok ev h
    exact ⟨by decide, by decide, rfl⟩

/-- Witness for `division_by_zero_absorbed` at `5 / 0` and a concrete
router configuration. -/
theorem division_by_zero_absorbed_witness :
    ((∃ e, evalNode (.bin .div (.num 5) (.num 0)) = .error e) ∧
      (∀ a, evalNode (.num 5) = .ok a →
        evalNode (.bin .div (.num 5) (.num 0)) = .error .divisionByZero)) ∧
    (extract_math_expression "12 divided by 0" = "12/0" ∧
      safe_eval_expr "12/0" = .error .divisionByZero ∧
      chat (some "t") (fun _ => .netExc "e") [] "12 divided by 0" =
        modelPath (some "t") (fun _ => .netExc "e") [] "12 divided by 0" "12/0") :=
  ⟨division_by_zero_absorbed.1 (.num 5) (.num 0) (by decide),
   division_by_zero_absorbed.2 (some "t") (fun _ => .netExc "e") []⟩

/-- C8 (confirmed).  For every non-empty (after stripping) request the first
recorded event of `chat` is the guardrail attempt on the extracted
candidate; when a candidate exists and evaluates successfully, the reply is
the rendered numeric result, the trace is the guardrail event alone, and no
model call occurs. -/
theorem guardrail_short_circuits :
    ∀ tok ev h m, (⟨pyStrip m.toList⟩ : String) ≠ "" →
      (chat tok ev h m).trace.head? =
        some (.guardrail (extract_math_expression ⟨pyStrip m.toList⟩)) ∧
      (∀ v, safe_eval_expr (extract_math_expression ⟨pyStrip m.toList⟩) = .ok v →
        extract_math_expression ⟨pyStrip m.toList⟩ ≠ "" →
        (chat tok ev h m).resp = .ok (renderVal v) ∧
        (chat tok ev h m).trace =
          [.guardrail (extract_math_expression ⟨pyStrip m.toList⟩)] ∧
        ∀ p, ChatEvent.modelCall p ∉ (chat tok ev h m).trace) := by
  intro tok ev h m hne
  unfold chat
  dsimp only
  rw [if_neg hne]
  by_cases he : extract_math_expression (⟨pyStrip m.toList⟩ : String) = ""
  · rw [if_pos he]
    refine ⟨by rw [modelPath_trace]; rfl, ?_⟩
    intro v _ hne2
    exact absurd he hne2
  · rw [if_neg he]
    cases hev : safe_eval_expr (extract_math_expression (⟨pyStrip m.toList⟩ : String)) with
    | ok v' =>
      refine ⟨rfl, ?_⟩
      intro v hv _
      injection hv with hvv
      subst hvv
      exact ⟨rfl, rfl, by intro p hp; simp at hp⟩
    | error e =>
      refine ⟨by rw [modelPath_trace]; rfl, ?_⟩
      intro v hv _
      simp at hv

/-- Witness for `guardrail_short_circuits` on the request `"2+2"`. -/
theorem guardrail_short_circuits_witness :
    (chat (some "t") (fun _ => .netExc "e") [] "2+2").trace.head? =
        some (.guardrail (extract_math_expression ⟨pyStrip "2+2".toList⟩)) ∧
    (chat (some "t") (fun _ => .netExc "e") [] "2+2").resp = .ok (renderVal 4) ∧
    (chat (some "t") (fun _ => .netExc "e") [] "2+2").trace =
      [.guardrail (extract_math_expression ⟨pyStrip "2+2".toList⟩)] ∧
    ∀ p, ChatEvent.modelCall p ∉ (chat (some "t") (fun _ => .netExc "e") [] "2+2").trace := by
  have h := guardrail_short_circuits (some "t") (fun _ => .netExc "e") [] "2+2" (by decide)
  have h2 := h.2 4 (by decide) (by decide)
  exact ⟨h.1, h2.1, h2.2.1, h2.2.2⟩

/-- C10 (confirmed).  A non-empty candidate produced by the extraction
pipeline contains only characters from `0-9 + - * / ^ ( ) .` (no whitespace
of any kind), contains at least one operator character, and passes
`_MATH_RE.fullmatch`: the evaluator's "Unsafe characters" rejection never
fires on extractor output. -/
theorem extractor_candidates_are_safe :
    ∀ s : String, extract_math_expression s ≠ "" →
      (extract_math_expression s).toList.all (fun c => isMathChar c && c ≠ ' ') ∧
      (extract_math_expression s).toList.any isOpChar ∧
      mathReFullmatch (extract_math_expression s) = true := by
  intro s hne
  have hex : extract_math_expression s =
      longest_math_substring (normalize_sentence_to_math s) := rfl
  rw [hex] at hne ⊢
  rcases longest_math_substring_cases (normalize_sentence_to_math s) with h0 | ⟨r, hr, heq⟩
  · exact absurd h0 hne
  · rw [heq]
    have hspec := cleanedRuns_spec (normalize_sentence_to_math s).toList r hr
    exact ⟨hspec.2.1, hspec.2.2.1, hspec.2.2.2⟩

/-- Witness for `extractor_candidates_are_safe` on the input `"1+2"`. -/
theorem extractor_candidates_are_safe_witness :
    ("1+2" : String) ≠ "" ∧
    (extract_math_expression "1+2").toList.all (fun c => isMathChar c && c ≠ ' ') ∧
    (extract_math_expression "1+2").toList.any isOpChar ∧
    mathReFullmatch (extract_math_expression "1+2") = true :=
  ⟨by decide, extractor_candidates_are_safe "1+2" (by decide)⟩

/-- C6 (corrected).  The context sent to the model is: the system prompt, a
blank line, the (possibly truncated) history **with the current user turn
already appended** mapped to roles, then the current user turn **again**,
then the `Assistant:` cue — because `chat` appends the user turn to `msgs`
before calling `build_prompt(msgs, user_text)`, which appends it once more.
The current turn therefore appears twice, not exactly once; prior history
beyond the 9 most recent turns is dropped by the truncation. -/
theorem model_context_duplicates_current_turn :
    ∀ tok ev h (t e : String),
      (modelPath tok ev h t e).trace =
        [.guardrail e, .modelCall (build_prompt (appendUserTrunc h t) t)] ∧
      ∃ pre, build_prompt_lines (appendUserTrunc h t) t =
          [SYSTEM_PROMPT, ""] ++ pre.map renderTurn ++
            ["User: " ++ t, "User: " ++ t, "Assistant:"] ∧
          (h.length ≤ 9 → pre = h) := by
  intro tok ev h t e
  refine ⟨modelPath_trace tok ev h t e, ?_⟩
  obtain ⟨pre, hpre, h9⟩ := appendUserTrunc_eq h t
  refine ⟨pre, ?_, h9⟩
  rw [build_prompt_lines, hpre]
  simp [renderTurn]

/-- Witness for `model_context_duplicates_current_turn` at a concrete
session. -/
theorem model_context_duplicates_current_turn_witness :
    (modelPath (some "k") (fun _ => .netExc "e") [⟨.bot, "b0"⟩] "q" "").trace =
      [.guardrail "",
       .modelCall (build_prompt (appendUserTrunc [⟨.bot, "b0"⟩] "q") "q")] ∧
    ∃ pre, build_prompt_lines (appendUserTrunc [⟨.bot, "b0"⟩] "q") "q" =
        [SYSTEM_PROMPT, ""] ++ pre.map renderTurn ++
          ["User: " ++ "q", "User: " ++ "q", "Assistant:"] ∧
        (([⟨.bot, "b0"⟩] : List Turn).length ≤ 9 → pre = [⟨.bot, "b0"⟩]) :=
  model_context_duplicates_current_turn (some "k") (fun _ => .netExc "e") [⟨.bot, "b0"⟩] "q" ""

/-- C6 counterexample.  For the request `"a"` on an empty session the prompt
line `User: a` occurs twice, refuting "the current user turn appearing
exactly once at the end". -/
theorem current_turn_appears_twice :
    (chat (some "t") (fun _ => .status 200 (.genList "r")) [] "a").trace =
      [.guardrail "", .modelCall (build_prompt [⟨.user, "a"⟩] "a")] ∧
    (build_prompt_lines [⟨.user, "a"⟩] "a").count ("User: " ++ "a") = 2 := by
  exact ⟨by decide, by decide⟩

/-- C4 (corrected).  There is no greeting fast-path in the code: a trimmed,
lower-case greeting (`"hi"`, `"hello"`, `"hey"`) normalizes to an empty
candidate and reaches the model path, whose context is built exactly as for
every other request — system prompt, prior history (bounded), the current
turn (twice), the cue — rather than "only the system instruction plus the
current message". -/
theorem greeting_gets_standard_context :
    ∀ tok ev h (g : String), g ∈ (["hi", "hello", "hey"] : List String) →
      chat tok ev h g = modelPath tok ev h g "" ∧
      (modelPath tok ev h g "").trace =
        [.guardrail "", .modelCall (build_prompt (appendUserTrunc h g) g)] ∧
      (h.length ≤ 9 →
        build_prompt_lines (appendUserTrunc h g) g =
          [SYSTEM_PROMPT, ""] ++ h.map renderTurn ++
            ["User: " ++ g, "User: " ++ g, "Assistant:"]) := by
  intro tok ev h g hg
  refine ⟨?_, modelPath_trace tok ev h g "", ?_⟩
  · rcases List.mem_cons.mp hg with rfl | hg2
    · rfl
    rcases List.mem_cons.mp hg2 with rfl | hg3
    · rfl
    rcases List.mem_cons.mp hg3 with rfl | hg4
    · rfl
    · simp at hg4
  · intro h9
    obtain ⟨pre, hpre, hp9⟩ := appendUserTrunc_eq h g
    rw [build_prompt_lines, hpre, hp9 h9]
    simp [renderTurn]

/-- Witness for `greeting_gets_standard_context` on `"hi"` with one prior
turn. -/
theorem greeting_gets_standard_context_witness :
    chat (some "t") (fun _ => .netExc "e") [⟨.bot, "b0"⟩] "hi" =
      modelPath (some "t") (fun _ => .netExc "e") [⟨.bot, "b0"⟩] "hi" "" ∧
    (modelPath (some "t") (fun _ => .netExc "e") [⟨.bot, "b0"⟩] "hi" "").trace =
      [.guardrail "",
       .modelCall (build_prompt (appendUserTrunc [⟨.bot, "b0"⟩] "hi") "hi")] ∧
    (([⟨.bot, "b0"⟩] : List Turn).length ≤ 9 →
      build_prompt_lines (appendUserTrunc [⟨.bot, "b0"⟩] "hi") "hi" =
        [SYSTEM_PROMPT, ""] ++ ([⟨.bot, "b0"⟩] : List Turn).map renderTurn ++
          ["User: " ++ "hi", "User: " ++ "hi", "Assistant:"]) :=
  greeting_gets_standard_context (some "t") (fun _ => .netExc "e") [⟨.bot, "b0"⟩] "hi"
    (by decide)

/-- C4 counterexample.  With one prior history turn, the context sent to the
model for the greeting `"hi"` contains the prior turn's line
`User: earlier`, refuting "contains only the system instruction plus the
current message, ignoring all prior history". -/
theorem greeting_context_includes_history :
    (chat (some "t") (fun _ => .status 200 (.genList "r")) [⟨.user, "earlier"⟩] "hi").trace =
      [.guardrail "",
       .modelCall (build_prompt [⟨.user, "earlier"⟩, ⟨.user, "hi"⟩] "hi")] ∧
    "User: earlier" ∈ build_prompt_lines [⟨.user, "earlier"⟩, ⟨.user, "hi"⟩] "hi" := by
  exact ⟨by decide, by decide⟩

/-- C5 (corrected).  The model path always produces an HTTP response, but
not always a reply, and failure replies are not free of exception text:
a `(ok, text)` result from the retry loop yields the 200 reply `text`, or
`"(LLM) " ++ text` on failure — where `text` embeds the upstream exception
rendering (`"Network error: <str(e)>"`, `"Unexpected error: <str(e)>"`,
`"Model error: <body error>"`); and when every attempt hits a transient
status (429/503) the loop falls off the end returning `None`, the tuple
unpacking raises, and the handler returns the 500 `"Internal server
error"` — deterministic and safe, but an error response, not a reply. -/
theorem model_failure_reply_shape :
    ∀ tok ev h (t e : String),
      (∀ okFlag txt,
        call_hf_inference tok ev (build_prompt (appendUserTrunc h t) t) = some (okFlag, txt) →
        (modelPath tok ev h t e).resp = .ok (if okFlag then txt else "(LLM) " ++ txt)) ∧
      (call_hf_inference tok ev (build_prompt (appendUserTrunc h t) t) = none →
        (modelPath tok ev h t e).resp = .serverErr "Internal server error" ∧
        (modelPath tok ev h t e).history = h) ∧
      ((∀ j, isTransient (ev j)) → ∀ tk, tok = some tk →
        call_hf_inference tok ev (build_prompt (appendUserTrunc h t) t) = none) ∧
      (∀ m, ev 2 = .netExc m →
        (∀ i, i < 2 → isTransient (ev i) = true ∨ ∃ mm, ev i = .netExc mm) →
        ∀ tk, tok = some tk →
        call_hf_inference tok ev (build_prompt (appendUserTrunc h t) t) =
          some (false, "Network error: " ++ m)) := by
  intro tok ev h t e
  refine ⟨?_, ?_, ?_, ?_⟩
  · intro okFlag txt hc
    unfold modelPath
    rw [hc]
  · intro hc
    unfold modelPath
    rw [hc]
    exact ⟨rfl, rfl⟩
  · intro hall tk htok
    subst htok
    exact hfLoop_transient_none ev hall 2 0
  · intro m hev2 hpre tk htok
    subst htok
    show hfLoop ev 2 0 = _
    rw [hfLoop_step_retry ev 1 0 (hpre 0 (by omega)),
        hfLoop_step_retry ev 0 1 (hpre 1 (by omega))]
    unfold hfLoop
    rw [hev2]

/-- Witness for `model_failure_reply_shape`: two transient statuses then a
network exception yield the reply `"(LLM) Network error: boom"`; an
all-transient oracle yields `None` and hence the 500 response. -/
theorem model_failure_reply_shape_witness :
    ((∀ j, isTransient ((fun _ : Nat => HFEvent.status 429 (.otherJson "x")) j)) →
      ∀ tk, (some "k" : Option String) = some tk →
      call_hf_inference (some "k") (fun _ : Nat => HFEvent.status 429 (.otherJson "x"))
        (build_prompt (appendUserTrunc [] "q") "q") = none) ∧
    call_hf_inference (some "k") (fun _ : Nat => HFEvent.status 429 (.otherJson "x"))
      (build_prompt (appendUserTrunc [] "q") "q") = none ∧
    call_hf_inference (some "k")
      (fun i => if i = 2 then HFEvent.netExc "boom" else HFEvent.status 503 (.otherJson "x"))
      (build_prompt (appendUserTrunc [] "q") "q") = some (false, "Network error: " ++ "boom") := by
  have h1 := (model_failure_reply_shape (some "k")
    (fun _ : Nat => HFEvent.status 429 (.otherJson "x")) [] "q" "").2.2.1
  have h2 := (model_failure_reply_shape (some "k")
    (fun i => if i = 2 then HFEvent.netExc "boom" else HFEvent.status 503 (.otherJson "x"))
    [] "q" "").2.2.2
  refine ⟨h1, h1 (fun j => by decide) "k" rfl, ?_⟩
  refine h2 "boom" (by decide) ?_ "k" rfl
  intro i hi
  match i, hi with
  | 0, _ => exact Or.inl (by decide)
  | 1, _ => exact Or.inl (by decide)

/-- C5 counterexample.  After retry exhaustion on network failures the
reply embeds the upstream exception text (`str(e)`), refuting "contains no
internal exception text". -/
theorem failure_reply_embeds_exception_text :
    (chat (some "t") (fun _ => .netExc "ConnectionError: boom") [] "q").resp =
      .ok "(LLM) Network error: ConnectionError: boom" ∧
    strContains "(LLM) Network error: ConnectionError: boom" "ConnectionError" = true := by
  exact ⟨by decide, by decide⟩

/-- C9 (confirmed).  The extractor keeps exactly the space-stripped runs
that contain an operator character (a bare number never qualifies), and
returns: the empty string when none qualifies; otherwise a qualifying
candidate of maximal length after space removal, and specifically the
**last** candidate of that maximal length in text order — the stable
ascending length-sort places later-occurring candidates after
equal-length earlier ones, and the code takes the final element. -/
theorem extractor_selects_longest_later :
    ∀ text : String,
      (cleanedRuns text.toList = [] → longest_math_substring text = "") ∧
      (∀ c ∈ cleanedRuns text.toList, c ≠ [] ∧ c.any isOpChar) ∧
      (cleanedRuns text.toList ≠ [] →
        ∃ r, longest_math_substring text = ⟨r⟩ ∧
          r ∈ cleanedRuns text.toList ∧
          (∀ c ∈ cleanedRuns text.toList, c.length ≤ r.length) ∧
          r = ((cleanedRuns text.toList).filter
                (fun c => c.length = r.length)).getLastD []) := by
  intro text
  refine ⟨?_, ?_, ?_⟩
  · intro h
    unfold longest_math_substring
    rw [if_pos h]
  · intro c hc
    have h := cleanedRuns_spec text.toList c hc
    exact ⟨h.1, h.2.2.1⟩
  · intro hne
    refine ⟨(sortLen (cleanedRuns text.toList)).getLastD [], ?_, ?_, ?_, ?_⟩
    · unfold longest_math_substring
      rw [if_neg hne]
    · rw [← mem_sortLen_iff]
      apply getLastD_mem
      intro hnil
      have hl := sortLen_length (cleanedRuns text.toList)
      rw [hnil] at hl
      exact hne (List.length_eq_zero.mp hl.symm)
    · intro c hc
      exact sorted_length_le_getLastD _ (sortLen_sorted _) c ((mem_sortLen_iff _).mpr hc)
    · exact sortLen_filter_last _ hne

/-- Witness for `extractor_selects_longest_later` on `"1+2a3*4"`, whose two
equal-length candidates `1+2` and `3*4` are split by the letter `a`: the
later one wins. -/
theorem extractor_selects_longest_later_witness :
    (cleanedRuns ("1+2a3*4" : String).toList ≠ [] →
      ∃ r, longest_math_substring "1+2a3*4" = ⟨r⟩ ∧
        r ∈ cleanedRuns ("1+2a3*4" : String).toList ∧
        (∀ c ∈ cleanedRuns ("1+2a3*4" : String).toList, c.length ≤ r.length) ∧
        r = ((cleanedRuns ("1+2a3*4" : String).toList).filter
              (fun c => c.length = r.length)).getLastD []) ∧
    longest_math_substring "1+2a3*4" = "3*4" :=
  ⟨(extractor_selects_longest_later "1+2a3*4").2.2, by decide⟩

/-- C2 (corrected).  `safe_eval_expr` fails with a typed error on every
candidate string that contains a letter, an unmatched parenthesis, or an
adjacent operator pair other than the two shapes Python accepts (`**`, and
an operator followed by a unary `+`/`-`); the original claim's blanket
"two consecutive operator characters" is refuted by `2**3`, which
evaluates to `8`. -/
theorem guardrail_rejects_malformed (s : String)
    (hbad : containsLetter s = true ∨ balP 0 (parenSeq s.toList) = false ∨
      hasBadOpPair s.toList = true) :
    ∃ err, safe_eval_expr s = .error err := by
  cases hm : mathReFullmatch s with
  | false =>
    refine ⟨.unsafeChars, ?_⟩
    simp [safe_eval_expr, hm]
  | true =>
    rcases hbad with hlet | hbad
    · rw [letter_not_fullmatch hlet] at hm
      exact Bool.noConfusion hm
    cases htok : tokenize s with
    | none =>
      refine ⟨.syntaxErr, ?_⟩
      simp [safe_eval_expr, hm, htok]
    | some ts =>
      cases hpf : pyParseFull ts with
      | none =>
        refine ⟨.syntaxErr, ?_⟩
        simp [safe_eval_expr, hm, htok, hpf]
      | some e =>
        have hse : safe_eval_expr s = evalNode e := by
          simp [safe_eval_expr, hm, htok, hpf]
        have hdec : Decomp s.toList ts := lex_decomp _ _ _ _ htok
        unfold pyParseFull at hpf
        obtain ⟨⟨e', rest⟩, hp, hif⟩ := option_bind_some hpf
        split at hif
        rename_i a1 ts1 heq
        injection heq with he1 he2
        subst he1
        subst he2
        split at hif
        · rename_i hall
          injection hif with hif
          subst hif
          obtain ⟨cs, hts, hop, -⟩ := pyParse_shape _ _ _ _ _ hp
          have hseg := hop (Or.inl rfl)
          obtain ⟨hgh, hgl, hgf, hgb⟩ := goodSeg_parts hseg.1
          rcases hbad with hbal | hbp
          · have hps : balP 0 (parenSeq s.toList) = true := by
              rw [decomp_parens hdec, hts, parenToksOf_append,
                parenToksOf_all_newline hall, List.append_nil]
              exact hgb
            rw [hps] at hbal
            exact Bool.noConfusion hbal
          · rcases decomp_bad_pair hdec hbp with hds | hadj
            · rw [hts] at hds
              rcases List.mem_append.mp hds with hds | hds
              · have hfd := hseg.2 hds
                cases hev : evalNode e' with
                | ok v =>
                  rw [evalNode_ok_no_disallowed e' v hev .floorDiv rfl] at hfd
                  exact Bool.noConfusion hfd
                | error err => exact ⟨err, hse.trans hev⟩
              · exact (dslash_not_all_newline hds hall).elim
            · have hfoll : followOK ts = true := by
                rw [hts]
                refine followOK_append cs hgf rest (followOK_all_newline hall) ?_
                intro a hga hopa
                rw [isEnderTok_not_op (lastIs_spec hgl hga)] at hopa
                exact Bool.noConfusion hopa
              exact (hasBadAdj_not_followOK ts hadj hfoll).elim
        · exact Option.noConfusion hif

/-- C2 witness: `2+*3` has the bad adjacent pair `+*` and the evaluator
rejects it with a typed error. -/
theorem guardrail_rejects_malformed_witness :
    (containsLetter "2+*3" = true ∨ balP 0 (parenSeq "2+*3".toList) = false ∨
      hasBadOpPair "2+*3".toList = true) ∧
    ∃ err, safe_eval_expr "2+*3" = .error err :=
  ⟨Or.inr (Or.inr (by decide)),
    guardrail_rejects_malformed "2+*3" (Or.inr (Or.inr (by decide)))⟩

/-- C2 counterexample to the literal claim: `2**3` contains two consecutive
operator characters with no operand between them, yet the evaluator returns
the value `8` rather than failing. -/
theorem consecutive_ops_can_evaluate :
    hasConsecOps "2**3".toList = true ∧ safe_eval_expr "2**3" = .ok 8 := by
  constructor
  · decide
  · decide

/-- C3 (corrected).  On every string that fully matches the spec's §4.3
grammar with exponentiation spelled `**` and that CPython's tokenizer also
accepts, the code's evaluator returns exactly the grammar's
precedence-respecting, right-associative-power evaluation (errors
included).  The tokenizer proviso is not vacuous: `01+2` matches the
grammar (its `digits` places no leading-zero restriction) and evaluates to
`3` under it, yet the code's `ast.parse` rejects the leading-zero literal
with a `SyntaxError`.  The spec's claim that `^` maps to exponentiation is
refuted separately — the code parses `^` as `ast.BitXor`, which
`_eval_node` rejects as unsupported. -/
theorem spec_grammar_agreement :
    (∀ (s : String) (r : Except EvalErr Q), specRun s = some r →
      tokenize s ≠ none → safe_eval_expr s = r) ∧
    specRun "01+2" = some (.ok 3) ∧
    safe_eval_expr "01+2" = .error .syntaxErr := by
  refine ⟨?_, by decide, by decide⟩
  intro s r h hn
  unfold specRun at h
  obtain ⟨ts, hstok, h2⟩ := option_bind_some h
  obtain ⟨e, hpf, h3⟩ := option_bind_some h2
  injection h3 with h3
  subst h3
  have htok : tokenize s = some ts := specTokenize_tokenize hstok hn
  unfold specParseFull at hpf
  obtain ⟨⟨e1, rest⟩, hp, hif⟩ := option_bind_some hpf
  split at hif
  rename_i a1 ts1a heq
  injection heq with he1 he2
  subst he1
  subst he2
  split at hif
  · rename_i hall
    injection hif with hif
    subst hif
    obtain ⟨hlen, hcond⟩ := specParse_sim _ _ _ _ _ hp
    obtain ⟨m, e', hb, hpar, hev⟩ := hcond (all_newline_head_ne hall (by decide))
    have hxor : pyParse (m + 2) .xor ts = some (e', rest) :=
      pyParse_xor_build hpar (all_newline_head_ne hall (by decide))
    have hfull : pyParse (pyFuel ts) .xor ts = some (e', rest) := by
      refine pyParse_mono _ _ _ _ _ ?_ hxor
      unfold pyFuel
      omega
    have hpfull : pyParseFull ts = some e' := by
      unfold pyParseFull
      rw [hfull]
      show (if rest.all (fun t => t = Tok.newline) = true then some e' else none) = some e'
      rw [if_pos hall]
    have hlex : lex (2 * s.toList.length + 4) (.lineStart false) s.toList =
        some ts := htok
    have hdec : Decomp s.toList ts := lex_decomp _ _ _ _ hlex
    have htsne : ts ≠ [] := by
      intro h0
      subst h0
      simp at hlen
    have hcne : s.toList ≠ [] := decomp_ne_nil hdec htsne
    have hm : mathReFullmatch s = true := by
      unfold mathReFullmatch
      rw [Bool.and_eq_true]
      constructor
      · simpa using hcne
      · rw [List.all_eq_true]
        intro c hc
        exact decomp_mathre hdec c hc
    have hse : safe_eval_expr s = evalNode e' := by
      simp [safe_eval_expr, hm, htok, hpfull]
    rw [hse, hev]
  · exact Option.noConfusion hif

/-- C3 witness: `4*3/(2*2)` parses under the spec grammar with value `3`,
CPython's tokenizer accepts it, and the code's evaluator returns `3`. -/
theorem spec_grammar_agreement_witness :
    specRun "4*3/(2*2)" = some (.ok 3) ∧ tokenize "4*3/(2*2)" ≠ none ∧
      safe_eval_expr "4*3/(2*2)" = .ok 3 :=
  ⟨by decide, by decide,
    spec_grammar_agreement.1 "4*3/(2*2)" (.ok 3) (by decide) (by decide)⟩

/-- C3 counterexample to the literal claim: the spec says `^` denotes
exponentiation, so `2^3` should evaluate to `8`; the code parses `^` as
`ast.BitXor`, which is not in `_ALLOWED_OPS`, and fails with
"Unsupported expression". -/
theorem caret_is_not_exponent :
    safe_eval_expr "2^3" = .error .unsupported ∧ ¬safe_eval_expr "2^3" = .ok 8 := by
  constructor
  · decide
  · decide

end ChatBot
